import Mathlib

/-!
Block tracker of `ddo_heap.c`.

A shallow embedding of the heap of `ddo_heap.c` / `ddo_heap.h`: a static arena cut into
blocks of `HEAP_BLOCK_SIZE` bytes, with a descriptor of one byte (`Page_t`) per
`HEAP_PAGE_BLOCKS = 4` blocks holding the two flags `allocated` and `has_next` of each block.

Conventions of the embedding.

* `HEAP_BLOCK_SIZE` and `HEAP_TOTAL_SIZE` are `#ifndef` macros of the header; they are the two
  fields of `Config`, and `defaultConfig` holds the values of the header (64 and 8192).
* A descriptor byte `page_raw` is a `Nat`; the page array is a `List Nat`, read with `getD` and
  written with `set`. `Heap_t.WF` says that a value is a `Heap_t` of the C program: the list has
  `HEAP_PAGE_COUNT` entries, all below 256. Every loop of the source keeps `iPage` below
  `HEAP_PAGE_COUNT`, so the program never reads or writes outside the array.
* `uint32_t` arithmetic that can leave the range is reduced with `u32`; sums that are bounded by
  the loop bounds (`iPage * HEAP_PAGE_BLOCKS + iBlock`, the counters) are left as they are.
* Addresses are natural numbers; `base + offset` does not wrap, and the pointer difference of
  `block_number_by_addr` is a (signed) integer that is divided with truncation, as in C.
* The two nested `for` loops of every function are `forPages` / `forBlocks`; a loop body returns
  `Ctl.next` to go on and `Ctl.stop` where the source leaves both loops
  (`iPage = HEAP_PAGE_COUNT; break;` or `return`).
-/

namespace DdoHeap

/-! ## Parameters (`ddo_heap.h`) -/

/-- Compile-time parameters of the heap: the macros `HEAP_BLOCK_SIZE` and `HEAP_TOTAL_SIZE`. -/
structure Config where
  HEAP_BLOCK_SIZE : Nat
  HEAP_TOTAL_SIZE : Nat
  deriving DecidableEq, Repr

/-- The values the header gives when the macros are not set by the build: 64 and 8192. -/
def defaultConfig : Config := ⟨64, 8192⟩

/-- The macro `HEAP_BLOCK_COUNT (HEAP_TOTAL_SIZE / HEAP_BLOCK_SIZE)`. -/
def Config.HEAP_BLOCK_COUNT (cfg : Config) : Nat := cfg.HEAP_TOTAL_SIZE / cfg.HEAP_BLOCK_SIZE

/-- The macro `HEAP_PAGE_BLOCKS 4`. -/
def HEAP_PAGE_BLOCKS : Nat := 4

/-- The macro `HEAP_PAGE_COUNT (HEAP_BLOCK_COUNT / HEAP_PAGE_BLOCKS)`. -/
def Config.HEAP_PAGE_COUNT (cfg : Config) : Nat := cfg.HEAP_BLOCK_COUNT / HEAP_PAGE_BLOCKS

/-- Parameters the program can be built with: a positive block size, a total size that is a
`uint32_t` value, and a block count that fills whole pages (4 blocks per descriptor byte). -/
def Config.Valid (cfg : Config) : Prop :=
  0 < cfg.HEAP_BLOCK_SIZE ∧ cfg.HEAP_TOTAL_SIZE < 4294967296 ∧
    cfg.HEAP_BLOCK_COUNT % HEAP_PAGE_BLOCKS = 0

instance (cfg : Config) : Decidable cfg.Valid := by
  unfold Config.Valid; infer_instance

/-- Reduction of a value to `uint32_t`. -/
def u32 (x : Nat) : Nat := x % 4294967296

/-- The macro `BIT_BLOCK_ALLOCATED(iBlock) ((uint8_t)(0x01 << iBlock * 2))`. -/
def BIT_BLOCK_ALLOCATED (iBlock : Nat) : Nat := (0x01 <<< (iBlock * 2)) % 256

/-- The macro `BIT_BLOCK_HAS_NEXT(iBlock) ((uint8_t)(0x02 << iBlock * 2))`. -/
def BIT_BLOCK_HAS_NEXT (iBlock : Nat) : Nat := (0x02 <<< (iBlock * 2)) % 256

/-- The macro `BIT_BLOCK_ALL_BITS(iBlock) ((uint8_t)(0x03 << iBlock * 2))`. -/
def BIT_BLOCK_ALL_BITS (iBlock : Nat) : Nat := (0x03 <<< (iBlock * 2)) % 256

/-- The struct `Heap_t`: the base address of the arena and the page array. -/
structure Heap_t where
  p_base_addr : Nat
  pages : List Nat
  deriving DecidableEq, Repr

/-- A value of the C type `Heap_t`: `HEAP_PAGE_COUNT` pages, each a `uint8_t`. -/
def Heap_t.WF (cfg : Config) (pHeap : Heap_t) : Prop :=
  pHeap.pages.length = cfg.HEAP_PAGE_COUNT ∧ ∀ p ∈ pHeap.pages, p < 256

instance (cfg : Config) (pHeap : Heap_t) : Decidable (pHeap.WF cfg) := by
  unfold Heap_t.WF; infer_instance

/-! ## Loops -/

/-- What a loop body hands back: `next` goes on with the following block, `stop` leaves the two
loops at once. -/
inductive Ctl (σ : Type) where
  | next (s : σ)
  | stop (s : σ)
  deriving DecidableEq, Repr

/-- The state a loop ended with. -/
def Ctl.val {σ : Type} : Ctl σ → σ
  | .next s => s
  | .stop s => s

/-- The loop `for (uint8_t iBlock = ...; iBlock < HEAP_PAGE_BLOCKS; ++iBlock)`, with `k` blocks
of page `iPage` left to visit. -/
def forBlocks {σ : Type} (body : Nat → Nat → σ → Ctl σ) (iPage : Nat) : Nat → Nat → σ → Ctl σ
  | 0, _, s => .next s
  | k + 1, iBlock, s =>
    match body iPage iBlock s with
    | .next s1 => forBlocks body iPage k (iBlock + 1) s1
    | .stop s1 => .stop s1

/-- The loop `for (uint32_t iPage = ...; iPage < HEAP_PAGE_COUNT; ++iPage)` around the loop over
the blocks of a page, with `k = HEAP_PAGE_COUNT - iPage` pages left to visit. -/
def forPages {σ : Type} (body : Nat → Nat → σ → Ctl σ) : Nat → Nat → σ → Ctl σ
  | 0, _, s => .next s
  | k + 1, iPage, s =>
    match forBlocks body iPage HEAP_PAGE_BLOCKS 0 s with
    | .next s1 => forPages body k (iPage + 1) s1
    | .stop s1 => .stop s1

/-! ## Helpers (`ddo_heap.c`) -/

/-- Body of the loops of `set_allocation_state`. -/
def set_allocation_state_body (first_block block_count : Nat) (allocate : Bool)
    (iPage iBlock : Nat) (pages : List Nat) : Ctl (List Nat) :=
  let current_block := iPage * HEAP_PAGE_BLOCKS + iBlock
  if current_block ≥ first_block then
    if allocate && decide (current_block < u32 (first_block + block_count)) then
      -- [allocated] = 1b, [has_next] = 1b
      let pages1 := pages.set iPage (pages.getD iPage 0 ||| BIT_BLOCK_ALL_BITS iBlock)
      -- is last block (chunk): `first_block + block_count - 1` in `uint32_t`
      if current_block = u32 (first_block + block_count + 4294967295) then
        -- [has_next] = 0b
        .stop (pages1.set iPage (pages1.getD iPage 0 &&& (0xFF ^^^ BIT_BLOCK_HAS_NEXT iBlock)))
      else
        .next pages1
    else if !allocate then
      -- detect [has_next] == 0b
      let has_next_chunk := pages.getD iPage 0 &&& BIT_BLOCK_HAS_NEXT iBlock
      -- free block: [allocated] = 0b, [has_next] = 0b
      let pages1 := pages.set iPage (pages.getD iPage 0 &&& (0xFF ^^^ BIT_BLOCK_ALL_BITS iBlock))
      if has_next_chunk = 0 then .stop pages1 else .next pages1
    else
      .next pages
  else
    .next pages

/-- The function `set_allocation_state`. -/
def set_allocation_state (cfg : Config) (pHeap : Heap_t) (first_block block_count : Nat)
    (allocate : Bool) : Heap_t :=
  let first_page := first_block / HEAP_PAGE_BLOCKS
  { pHeap with
    pages := (forPages (set_allocation_state_body first_block block_count allocate)
      (cfg.HEAP_PAGE_COUNT - first_page) first_page pHeap.pages).val }

/-- The function `block_number_by_addr`: the pointer difference is signed, the division
truncates, and the quotient is cast to `uint32_t`. -/
def block_number_by_addr (cfg : Config) (pHeap : Heap_t) (p_block : Nat) : Nat :=
  ((((p_block : Int) - (pHeap.p_base_addr : Int)).tdiv (cfg.HEAP_BLOCK_SIZE : Int)) %
    4294967296).toNat

/-! ## Implementation (`ddo_heap.c`) -/

/-- The function `heap_init_impl`: records the base address and zeroes the page array. -/
def heap_init_impl (cfg : Config) (p_base_addr : Nat) : Heap_t :=
  { p_base_addr := p_base_addr, pages := List.replicate cfg.HEAP_PAGE_COUNT 0x00 }

/-- The block count of a request, as `heap_alloc_impl` and `heap_truncate_impl` compute it:
`(n_bytes / HEAP_BLOCK_SIZE) + (n_bytes % HEAP_BLOCK_SIZE ? 1 : 0)`. -/
def n_blocks_of (cfg : Config) (n_bytes : Nat) : Nat :=
  (n_bytes / cfg.HEAP_BLOCK_SIZE) + (if n_bytes % cfg.HEAP_BLOCK_SIZE ≠ 0 then 1 else 0)

/-- Body of the loops of `heap_alloc_impl`; the loop state is `(first_block, free_blocks)`, and
`stop` is the `return` inside the loops. -/
def heap_alloc_body (n_blocks : Nat) (pages : List Nat) (iPage iBlock : Nat)
    (s : Nat × Nat) : Ctl (Nat × Nat) :=
  let s1 : Nat × Nat :=
    if pages.getD iPage 0 &&& BIT_BLOCK_ALLOCATED iBlock = 0x00 then
      -- block is free
      ((if s.2 = 0 then iPage * HEAP_PAGE_BLOCKS + iBlock else s.1), s.2 + 1)
    else
      -- block is allocated before
      (0, 0)
  if s1.2 ≥ n_blocks then .stop s1 else .next s1

/-- The function `heap_alloc_impl`: the new state and the returned address (0 on failure). -/
def heap_alloc_impl (cfg : Config) (pHeap : Heap_t) (n_bytes : Nat) : Heap_t × Nat :=
  let n_blocks := n_blocks_of cfg n_bytes
  match forPages (heap_alloc_body n_blocks pHeap.pages) cfg.HEAP_PAGE_COUNT 0 (0, 0) with
  | .stop s =>
    (set_allocation_state cfg pHeap s.1 n_blocks true,
      pHeap.p_base_addr + u32 (s.1 * cfg.HEAP_BLOCK_SIZE))
  | .next _ => (pHeap, 0)

/-- The function `heap_free_impl`. -/
def heap_free_impl (cfg : Config) (pHeap : Heap_t) (p_block : Nat) : Heap_t :=
  if p_block ≥ pHeap.p_base_addr ∧ p_block ≤ pHeap.p_base_addr + cfg.HEAP_TOTAL_SIZE then
    let first_block := block_number_by_addr cfg pHeap p_block
    -- block_count unused, erase until [has_next] = 0b
    set_allocation_state cfg pHeap first_block 0 false
  else
    pHeap

/-- Body of the loops of `heap_block_size_impl`; the loop state is `block_count`. -/
def heap_block_size_body (first_block : Nat) (pages : List Nat) (iPage iBlock : Nat)
    (block_count : Nat) : Ctl Nat :=
  let current_block := iPage * HEAP_PAGE_BLOCKS + iBlock
  if current_block ≥ first_block then
    if pages.getD iPage 0 &&& BIT_BLOCK_HAS_NEXT iBlock = 0x00 then
      -- is last block (chunk)
      .stop (block_count + 1)
    else
      .next (block_count + 1)
  else
    .next block_count

/-- The function `heap_block_size_impl`. -/
def heap_block_size_impl (cfg : Config) (pHeap : Heap_t) (p_block : Nat) : Nat :=
  let first_block := block_number_by_addr cfg pHeap p_block
  let first_page := first_block / HEAP_PAGE_BLOCKS
  let block_count := (forPages (heap_block_size_body first_block pHeap.pages)
    (cfg.HEAP_PAGE_COUNT - first_page) first_page 0).val
  u32 (block_count * cfg.HEAP_BLOCK_SIZE)

/-- The function `heap_truncate_impl`. -/
def heap_truncate_impl (cfg : Config) (pHeap : Heap_t) (p_block : Nat) (n_bytes : Nat) :
    Heap_t :=
  if heap_block_size_impl cfg pHeap p_block > n_bytes then
    let first_block := block_number_by_addr cfg pHeap p_block
    let n_blocks := n_blocks_of cfg n_bytes
    -- free old size, then allocate new size
    set_allocation_state cfg (set_allocation_state cfg pHeap first_block 0 false)
      first_block n_blocks true
  else
    pHeap

/-- Body of the loops of `heap_available_space_impl`; the loop state is `free_block_count`. -/
def heap_available_space_body (pages : List Nat) (iPage iBlock : Nat)
    (free_block_count : Nat) : Ctl Nat :=
  if pages.getD iPage 0 &&& BIT_BLOCK_ALLOCATED iBlock = 0x00 then
    .next (free_block_count + 1)
  else
    .next free_block_count

/-- The function `heap_available_space_impl`. -/
def heap_available_space_impl (cfg : Config) (pHeap : Heap_t) : Nat :=
  let free_block_count :=
    (forPages (heap_available_space_body pHeap.pages) cfg.HEAP_PAGE_COUNT 0 0).val
  u32 (free_block_count * cfg.HEAP_BLOCK_SIZE)

/-! ## Flags of a block -/

/-- The flag `allocated` of block `i`, read as the source reads it:
`pages[iPage].page_raw & BIT_BLOCK_ALLOCATED(iBlock)` is not `0x00`. -/
def block_allocated (pages : List Nat) (i : Nat) : Bool :=
  pages.getD (i / HEAP_PAGE_BLOCKS) 0 &&& BIT_BLOCK_ALLOCATED (i % HEAP_PAGE_BLOCKS) != 0x00

/-- The flag `has_next` of block `i`, read as the source reads it:
`pages[iPage].page_raw & BIT_BLOCK_HAS_NEXT(iBlock)` is not `0x00`. -/
def block_has_next (pages : List Nat) (i : Nat) : Bool :=
  pages.getD (i / HEAP_PAGE_BLOCKS) 0 &&& BIT_BLOCK_HAS_NEXT (i % HEAP_PAGE_BLOCKS) != 0x00

/-- Page array after `pages[iPage].page_raw |= BIT_BLOCK_ALL_BITS(iBlock)` for block `cur`. -/
def mark_block (pages : List Nat) (cur : Nat) : List Nat :=
  pages.set (cur / 4) (pages.getD (cur / 4) 0 ||| BIT_BLOCK_ALL_BITS (cur % 4))

/-- Page array after `pages[iPage].page_raw &= ~BIT_BLOCK_HAS_NEXT(iBlock)` for block `cur`. -/
def clear_next_block (pages : List Nat) (cur : Nat) : List Nat :=
  pages.set (cur / 4) (pages.getD (cur / 4) 0 &&& (0xFF ^^^ BIT_BLOCK_HAS_NEXT (cur % 4)))

/-- Page array after `pages[iPage].page_raw &= ~BIT_BLOCK_ALL_BITS(iBlock)` for block `cur`. -/
def clear_block (pages : List Nat) (cur : Nat) : List Nat :=
  pages.set (cur / 4) (pages.getD (cur / 4) 0 &&& (0xFF ^^^ BIT_BLOCK_ALL_BITS (cur % 4)))

/-- One loop over the block numbers `cur, cur + 1, ...` (`k` of them): the two nested loops of
the source visit the blocks in this order. -/
def forFlat {σ : Type} (body : Nat → σ → Ctl σ) : Nat → Nat → σ → Ctl σ
  | 0, _, s => .next s
  | k + 1, cur, s =>
    match body cur s with
    | .next s1 => forFlat body k (cur + 1) s1
    | .stop s1 => .stop s1

/-- Number of blocks below `m` whose flag `allocated` is clear. -/
def free_count (pages : List Nat) : Nat → Nat
  | 0 => 0
  | m + 1 => free_count pages m + (if block_allocated pages m then 0 else 1)

/-- Blocks `k .. k + n - 1` are inside the first `N` blocks and all free. -/
def FreeRun (pages : List Nat) (N k n : Nat) : Prop :=
  k + n ≤ N ∧ ∀ i, k ≤ i → i < k + n → block_allocated pages i = false

/-- The walk along `has_next` that starts at block `fb` visits exactly `c` blocks: the flag is
set on the first `c - 1` of them, and the walk ends at a block with the flag clear or at the
last block of the arena. -/
def Chain (pages : List Nat) (N fb c : Nat) : Prop :=
  1 ≤ c ∧ fb + c ≤ N ∧ (∀ i, fb ≤ i → i + 1 < fb + c → block_has_next pages i = true) ∧
    (fb + c < N → block_has_next pages (fb + c - 1) = false)

/-- Body of the loops of `set_allocation_state` at block number `cur`, on the flags. -/
def sas_flat (first_block block_count : Nat) (allocate : Bool) (cur : Nat) (pages : List Nat) :
    Ctl (List Nat) :=
  if cur ≥ first_block then
    if allocate && decide (cur < u32 (first_block + block_count)) then
      if cur = u32 (first_block + block_count + 4294967295) then
        .stop (clear_next_block (mark_block pages cur) cur)
      else
        .next (mark_block pages cur)
    else if !allocate then
      if block_has_next pages cur = false then .stop (clear_block pages cur)
      else .next (clear_block pages cur)
    else
      .next pages
  else
    .next pages

/-- Body of the loops of `heap_block_size_impl` at block number `cur`, on the flags. -/
def bs_flat (first_block : Nat) (pages : List Nat) (cur : Nat) (block_count : Nat) : Ctl Nat :=
  if cur ≥ first_block then
    if block_has_next pages cur = false then .stop (block_count + 1)
    else .next (block_count + 1)
  else
    .next block_count

/-- Body of the loops of `heap_alloc_impl` at block number `cur`, on the flags. -/
def alloc_flat (n_blocks : Nat) (pages : List Nat) (cur : Nat) (s : Nat × Nat) :
    Ctl (Nat × Nat) :=
  let s1 : Nat × Nat :=
    if block_allocated pages cur = false then ((if s.2 = 0 then cur else s.1), s.2 + 1)
    else (0, 0)
  if s1.2 ≥ n_blocks then .stop s1 else .next s1

/-- The number `ceil (a / b)` of the specification, on natural numbers. -/
def ceil_div (a b : Nat) : Nat := (a + b - 1) / b

/-! ## Example states -/

/-- The heap of the test `alloc_and_free` after three allocations of three blocks and the
release of the second one (arena at address 1000): blocks 0-2 and 6-8 are in use. -/
def heapAfterFree : Heap_t :=
  let h0 := heap_init_impl defaultConfig 1000
  let b1 := heap_alloc_impl defaultConfig h0 192
  let b2 := heap_alloc_impl defaultConfig b1.1 192
  let b3 := heap_alloc_impl defaultConfig b2.1 192
  heap_free_impl defaultConfig b3.1 b2.2

/-- The tracker states that calls of the interface can produce: `heap_init_impl` with any
base address, then `heap_alloc_impl`, `heap_free_impl` and `heap_truncate_impl` with any
arguments of their C types (`n_bytes` is a `uint32_t`). -/
inductive Reachable (cfg : Config) : Heap_t → Prop
  | init (p_base_addr : Nat) : Reachable cfg (heap_init_impl cfg p_base_addr)
  | alloc (pHeap : Heap_t) (n_bytes : Nat) (hn : n_bytes < 4294967296) :
      Reachable cfg pHeap → Reachable cfg (heap_alloc_impl cfg pHeap n_bytes).1
  | free (pHeap : Heap_t) (p_block : Nat) :
      Reachable cfg pHeap → Reachable cfg (heap_free_impl cfg pHeap p_block)
  | truncate (pHeap : Heap_t) (p_block n_bytes : Nat) (hn : n_bytes < 4294967296) :
      Reachable cfg pHeap → Reachable cfg (heap_truncate_impl cfg pHeap p_block n_bytes)

/-- The heap of the test `big_alloc_fail` after its first allocation (two blocks in use). -/
def heapTwoBlocks : Heap_t :=
  (heap_alloc_impl defaultConfig (heap_init_impl defaultConfig 1000) 128).1

/-- The heap after one allocation of one block (arena at address 1000): block 0 is in use. -/
def heapOneBlock : Heap_t :=
  (heap_alloc_impl defaultConfig (heap_init_impl defaultConfig 1000) 64).1

/-- The calls `heap_alloc_impl` for the request sizes of a list, in order: the final state and
the returned addresses. -/
def alloc_all (cfg : Config) : Heap_t → List Nat → Heap_t × List Nat
  | pHeap, [] => (pHeap, [])
  | pHeap, s :: ss =>
    ((alloc_all cfg (heap_alloc_impl cfg pHeap s).1 ss).1,
      (heap_alloc_impl cfg pHeap s).2 :: (alloc_all cfg (heap_alloc_impl cfg pHeap s).1 ss).2)

/-- The addresses the specification expects from a sequence of allocations that starts with
`t` blocks in use: `base + HEAP_BLOCK_SIZE * (t + c_1 + ... + c_(i-1))` for the request `i`,
where `c_j = ceil (s_j / HEAP_BLOCK_SIZE)`. -/
def packed_addrs (cfg : Config) (base : Nat) : Nat → List Nat → List Nat
  | _, [] => []
  | t, s :: ss =>
    (base + cfg.HEAP_BLOCK_SIZE * t) ::
      packed_addrs cfg base (t + ceil_div s cfg.HEAP_BLOCK_SIZE) ss

/-- The byte ranges `[p_i, p_i + c_i * HEAP_BLOCK_SIZE)` of a list of addresses and request
sizes, as pairs of a start and an end. -/
def byte_ranges (cfg : Config) : List Nat → List Nat → List (Nat × Nat)
  | p :: ps, s :: ss =>
    (p, p + ceil_div s cfg.HEAP_BLOCK_SIZE * cfg.HEAP_BLOCK_SIZE) :: byte_ranges cfg ps ss
  | _, _ => []

/-! ## Chunks and legitimate use -/

/-- Block `f` is the first block of a chunk of `c` blocks: the blocks `f .. f + c - 1` are
allocated, `has_next` is set on all of them but the last, and the block before `f` (if any) does
not continue into `f`. -/
def IsChunk (pages : List Nat) (N f c : Nat) : Prop :=
  1 ≤ c ∧ f + c ≤ N ∧
    (∀ i, f ≤ i → i < f + c → block_allocated pages i = true) ∧
    (∀ i, f ≤ i → i + 1 < f + c → block_has_next pages i = true) ∧
    block_has_next pages (f + c - 1) = false ∧
    (∀ j, j + 1 = f → block_has_next pages j = false)

/-- Every block with `has_next` set is allocated and is followed, inside the arena, by an
allocated block. -/
def ChainsWF (pages : List Nat) (N : Nat) : Prop :=
  ∀ i, block_has_next pages i = true →
    block_allocated pages i = true ∧ i + 1 < N ∧ block_allocated pages (i + 1) = true

/-- The tracker states of legitimate use, with the list of the live handles. The header of
`ddo_heap.c` names the use the heap is written for: allocate `N (1..X)` blocks, truncate `N`
allocated blocks to `M (1..N-1)` blocks, free allocated blocks. So a legitimate caller
allocates at least one byte, keeps the address unless it is null, and passes to
`heap_free_impl` and `heap_truncate_impl` only addresses it holds, with a new size of at least
one byte. -/
inductive Legit (cfg : Config) : Heap_t → List Nat → Prop
  | init (p_base_addr : Nat) : Legit cfg (heap_init_impl cfg p_base_addr) []
  | alloc (pHeap : Heap_t) (live : List Nat) (n_bytes : Nat) (h0 : 0 < n_bytes)
      (h32 : n_bytes < 4294967296) :
      Legit cfg pHeap live →
      Legit cfg (heap_alloc_impl cfg pHeap n_bytes).1
        (if (heap_alloc_impl cfg pHeap n_bytes).2 = 0 then live
          else (heap_alloc_impl cfg pHeap n_bytes).2 :: live)
  | free (pHeap : Heap_t) (live : List Nat) (p_block : Nat) :
      Legit cfg pHeap live → p_block ∈ live →
      Legit cfg (heap_free_impl cfg pHeap p_block) (live.filter (fun q => q != p_block))
  | truncate (pHeap : Heap_t) (live : List Nat) (p_block n_bytes : Nat) (h0 : 0 < n_bytes)
      (h32 : n_bytes < 4294967296) :
      Legit cfg pHeap live → p_block ∈ live →
      Legit cfg (heap_truncate_impl cfg pHeap p_block n_bytes) live

/-- What legitimate use maintains: the heap is well formed, the `has_next` flags are well
formed, and every live handle is the address of the first block of a chunk. -/
def LiveInv (cfg : Config) (pHeap : Heap_t) (live : List Nat) : Prop :=
  pHeap.WF cfg ∧ ChainsWF pHeap.pages cfg.HEAP_BLOCK_COUNT ∧
    ∀ p ∈ live, ∃ f c, p = pHeap.p_base_addr + f * cfg.HEAP_BLOCK_SIZE ∧
      IsChunk pHeap.pages cfg.HEAP_BLOCK_COUNT f c

/-- The global flag invariant of the specification: a block with `has_next` set is allocated
(a block that is not allocated has `has_next` clear). -/
def FlagInv (pages : List Nat) : Prop :=
  ∀ i, block_has_next pages i = true → block_allocated pages i = true

/-- The heap of the test `truncate_block` before the truncation (arena at address 1000): one
block at 1000 and five blocks at 1064. -/
def heapOneFive : Heap_t :=
  (heap_alloc_impl defaultConfig
    (heap_alloc_impl defaultConfig (heap_init_impl defaultConfig 1000) 64).1 320).1

/-- The block index in the words of the specification: `floor ((addr - base) / BlockSize)`,
taken as an unsigned 32-bit value. -/
def floor_block_index (cfg : Config) (pHeap : Heap_t) (p_block : Nat) : Nat :=
  ((Int.fdiv ((p_block : Int) - (pHeap.p_base_addr : Int)) (cfg.HEAP_BLOCK_SIZE : Int)) %
    4294967296).toNat

/-- The address `p_block` maps to the first block of a chunk: its block is allocated and the
block before it, if any, does not have `has_next` set. -/
def IsChunkStart (cfg : Config) (pHeap : Heap_t) (p_block : Nat) : Prop :=
  block_allocated pHeap.pages (block_number_by_addr cfg pHeap p_block) = true ∧
    ∀ j, j + 1 = block_number_by_addr cfg pHeap p_block → block_has_next pHeap.pages j = false

/-! ## The tracker over an array of flag pairs -/

/-- The per-block flag array of a page array: entry `i` is the pair
`(allocated, has_next)` of block `i`, for the `N` blocks of the arena. -/
def flags_of (N : Nat) (pages : List Nat) : List (Bool × Bool) :=
  (List.range N).map (fun i => (block_allocated pages i, block_has_next pages i))

/-- The result of a loop, mapped. -/
def Ctl.map {σ τ : Type} (f : σ → τ) : Ctl σ → Ctl τ
  | .next s => .next (f s)
  | .stop s => .stop (f s)

/-- Body of the loop of `set_allocation_state`, written over an array of
`(allocated, has_next)` pairs instead of packed pages. -/
def set_allocation_state_flags_body (first_block block_count : Nat) (allocate : Bool)
    (cur : Nat) (flags : List (Bool × Bool)) : Ctl (List (Bool × Bool)) :=
  if cur ≥ first_block then
    if allocate && decide (cur < u32 (first_block + block_count)) then
      -- [allocated] = 1b, [has_next] = 1b
      let flags1 := flags.set cur (true, true)
      if cur = u32 (first_block + block_count + 4294967295) then
        -- [has_next] = 0b
        .stop (flags1.set cur ((flags1.getD cur (false, false)).1, false))
      else
        .next flags1
    else if !allocate then
      let has_next_chunk := (flags.getD cur (false, false)).2
      -- [allocated] = 0b, [has_next] = 0b
      let flags1 := flags.set cur (false, false)
      if has_next_chunk = false then .stop flags1 else .next flags1
    else
      .next flags
  else
    .next flags

/-- The algorithm of `set_allocation_state` over an array of `N` flag pairs: one loop over the
blocks from `first_block` to the end of the arena. -/
def set_allocation_state_flags (N : Nat) (flags : List (Bool × Bool))
    (first_block block_count : Nat) (allocate : Bool) : List (Bool × Bool) :=
  (forFlat (set_allocation_state_flags_body first_block block_count allocate)
    (N - first_block) first_block flags).val

/-- Body of the loop of `heap_block_size_impl` over an array of flag pairs. -/
def heap_block_size_flags_body (first_block : Nat) (flags : List (Bool × Bool)) (cur : Nat)
    (block_count : Nat) : Ctl Nat :=
  if cur ≥ first_block then
    if (flags.getD cur (false, false)).2 = false then .stop (block_count + 1)
    else .next (block_count + 1)
  else
    .next block_count

/-- The algorithm of `heap_block_size_impl` over an array of flag pairs, from the block
number of the address. -/
def heap_block_size_flags (cfg : Config) (flags : List (Bool × Bool)) (first_block : Nat) :
    Nat :=
  u32 ((forFlat (heap_block_size_flags_body first_block flags)
    (cfg.HEAP_BLOCK_COUNT - first_block) first_block 0).val * cfg.HEAP_BLOCK_SIZE)

/-- Body of the loop of `heap_available_space_impl` over an array of flag pairs. -/
def heap_available_space_flags_body (flags : List (Bool × Bool)) (cur : Nat)
    (free_block_count : Nat) : Ctl Nat :=
  if (flags.getD cur (false, false)).1 = false then .next (free_block_count + 1)
  else .next free_block_count

/-- The algorithm of `heap_available_space_impl` over an array of flag pairs. -/
def heap_available_space_flags (cfg : Config) (flags : List (Bool × Bool)) : Nat :=
  u32 ((forFlat (heap_available_space_flags_body flags) cfg.HEAP_BLOCK_COUNT 0 0).val *
    cfg.HEAP_BLOCK_SIZE)

/-! # Theorems -/

/-! ## Bits of a page -/

theorem and_two_pow_ne_zero (p k : Nat) : (p &&& 2 ^ k != 0) = p.testBit k := by
  rw [Nat.and_two_pow]
  cases h : p.testBit k <;> simp

theorem bit_allocated_eq (j : Nat) (hj : j < 4) : BIT_BLOCK_ALLOCATED j = 2 ^ (2 * j) := by
  interval_cases j <;> rfl

theorem bit_has_next_eq (j : Nat) (hj : j < 4) : BIT_BLOCK_HAS_NEXT j = 2 ^ (2 * j + 1) := by
  interval_cases j <;> rfl

theorem block_allocated_eq_testBit (pages : List Nat) (i : Nat) :
    block_allocated pages i = (pages.getD (i / 4) 0).testBit (2 * (i % 4)) := by
  unfold block_allocated HEAP_PAGE_BLOCKS
  rw [bit_allocated_eq _ (Nat.mod_lt _ (by decide)), and_two_pow_ne_zero]

theorem block_has_next_eq_testBit (pages : List Nat) (i : Nat) :
    block_has_next pages i = (pages.getD (i / 4) 0).testBit (2 * (i % 4) + 1) := by
  unfold block_has_next HEAP_PAGE_BLOCKS
  rw [bit_has_next_eq _ (Nat.mod_lt _ (by decide)), and_two_pow_ne_zero]

theorem all_bits_testBit : ∀ j < 4, ∀ b < 8,
    (BIT_BLOCK_ALL_BITS j).testBit b = (decide (b = 2 * j) || decide (b = 2 * j + 1)) := by
  decide

theorem not_all_bits_testBit : ∀ j < 4, ∀ b < 8,
    (0xFF ^^^ BIT_BLOCK_ALL_BITS j).testBit b =
      !(decide (b = 2 * j) || decide (b = 2 * j + 1)) := by
  decide

theorem not_has_next_testBit : ∀ j < 4, ∀ b < 8,
    (0xFF ^^^ BIT_BLOCK_HAS_NEXT j).testBit b = !(decide (b = 2 * j + 1)) := by
  decide

theorem getD_set_page (pages : List Nat) (q q' v : Nat) :
    (pages.set q v).getD q' 0 = if q = q' ∧ q < pages.length then v else pages.getD q' 0 := by
  simp only [List.getD_eq_getElem?_getD, List.getElem?_set]
  by_cases h1 : q = q'
  · subst h1
    by_cases h2 : q < pages.length
    · simp [h2]
    · have h3 : pages[q]? = none := List.getElem?_eq_none (by omega)
      simp [h2, h3]
  · simp [h1]

/-- Bit `b` of the page of block `i` after the page of block `cur` is replaced by `v`. -/
theorem testBit_set_page (pages : List Nat) (cur i b v : Nat) (hlen : cur / 4 < pages.length) :
    ((pages.set (cur / 4) v).getD (i / 4) 0).testBit b =
      if i / 4 = cur / 4 then v.testBit b else (pages.getD (i / 4) 0).testBit b := by
  rw [getD_set_page]
  by_cases h : cur / 4 = i / 4
  · rw [if_pos ⟨h, hlen⟩, if_pos h.symm]
  · rw [if_neg (fun hh => h hh.1), if_neg (fun hh => h hh.symm)]

theorem allocated_mark_block (pages : List Nat) (cur i : Nat) (hlen : cur / 4 < pages.length) :
    block_allocated (mark_block pages cur) i = (decide (i = cur) || block_allocated pages i) := by
  simp only [block_allocated_eq_testBit, mark_block, testBit_set_page _ _ _ _ _ hlen]
  have hj : cur % 4 < 4 := Nat.mod_lt _ (by decide)
  have hb : 2 * (i % 4) < 8 := by omega
  by_cases h : i / 4 = cur / 4
  · rw [if_pos h, Nat.testBit_or, all_bits_testBit _ hj _ hb, h]
    by_cases h2 : i = cur
    · subst h2; simp
    · have h3 : ¬ (2 * (i % 4) = 2 * (cur % 4)) := by omega
      have h4 : ¬ (2 * (i % 4) = 2 * (cur % 4) + 1) := by omega
      simp [h2, h3, h4]
  · have h2 : i ≠ cur := by rintro rfl; exact h rfl
    simp [h, h2]

theorem has_next_mark_block (pages : List Nat) (cur i : Nat) (hlen : cur / 4 < pages.length) :
    block_has_next (mark_block pages cur) i = (decide (i = cur) || block_has_next pages i) := by
  simp only [block_has_next_eq_testBit, mark_block, testBit_set_page _ _ _ _ _ hlen]
  have hj : cur % 4 < 4 := Nat.mod_lt _ (by decide)
  have hb : 2 * (i % 4) + 1 < 8 := by omega
  by_cases h : i / 4 = cur / 4
  · rw [if_pos h, Nat.testBit_or, all_bits_testBit _ hj _ hb, h]
    by_cases h2 : i = cur
    · subst h2; simp
    · have h3 : ¬ (2 * (i % 4) + 1 = 2 * (cur % 4)) := by omega
      have h4 : ¬ (i % 4 = cur % 4) := by omega
      simp [h2, h3, h4]
  · have h2 : i ≠ cur := by rintro rfl; exact h rfl
    simp [h, h2]

theorem allocated_clear_next_block (pages : List Nat) (cur i : Nat)
    (hlen : cur / 4 < pages.length) :
    block_allocated (clear_next_block pages cur) i = block_allocated pages i := by
  simp only [block_allocated_eq_testBit, clear_next_block, testBit_set_page _ _ _ _ _ hlen]
  have hj : cur % 4 < 4 := Nat.mod_lt _ (by decide)
  have hb : 2 * (i % 4) < 8 := by omega
  by_cases h : i / 4 = cur / 4
  · rw [if_pos h, Nat.testBit_and, not_has_next_testBit _ hj _ hb, h]
    have h3 : ¬ (2 * (i % 4) = 2 * (cur % 4) + 1) := by omega
    simp [h3]
  · simp [h]

theorem has_next_clear_next_block (pages : List Nat) (cur i : Nat)
    (hlen : cur / 4 < pages.length) :
    block_has_next (clear_next_block pages cur) i =
      (!decide (i = cur) && block_has_next pages i) := by
  simp only [block_has_next_eq_testBit, clear_next_block, testBit_set_page _ _ _ _ _ hlen]
  have hj : cur % 4 < 4 := Nat.mod_lt _ (by decide)
  have hb : 2 * (i % 4) + 1 < 8 := by omega
  by_cases h : i / 4 = cur / 4
  · rw [if_pos h, Nat.testBit_and, not_has_next_testBit _ hj _ hb, h]
    by_cases h2 : i = cur
    · subst h2; simp
    · have h4 : ¬ (i % 4 = cur % 4) := by omega
      simp [h2, h4, Bool.and_comm]
  · have h2 : i ≠ cur := by rintro rfl; exact h rfl
    simp [h, h2]

theorem allocated_clear_block (pages : List Nat) (cur i : Nat) (hlen : cur / 4 < pages.length) :
    block_allocated (clear_block pages cur) i =
      (!decide (i = cur) && block_allocated pages i) := by
  simp only [block_allocated_eq_testBit, clear_block, testBit_set_page _ _ _ _ _ hlen]
  have hj : cur % 4 < 4 := Nat.mod_lt _ (by decide)
  have hb : 2 * (i % 4) < 8 := by omega
  by_cases h : i / 4 = cur / 4
  · rw [if_pos h, Nat.testBit_and, not_all_bits_testBit _ hj _ hb, h]
    by_cases h2 : i = cur
    · subst h2; simp
    · have h3 : ¬ (2 * (i % 4) = 2 * (cur % 4)) := by omega
      have h4 : ¬ (2 * (i % 4) = 2 * (cur % 4) + 1) := by omega
      simp [h2, h3, h4]
  · have h2 : i ≠ cur := by rintro rfl; exact h rfl
    simp [h, h2]

theorem has_next_clear_block (pages : List Nat) (cur i : Nat) (hlen : cur / 4 < pages.length) :
    block_has_next (clear_block pages cur) i =
      (!decide (i = cur) && block_has_next pages i) := by
  simp only [block_has_next_eq_testBit, clear_block, testBit_set_page _ _ _ _ _ hlen]
  have hj : cur % 4 < 4 := Nat.mod_lt _ (by decide)
  have hb : 2 * (i % 4) + 1 < 8 := by omega
  by_cases h : i / 4 = cur / 4
  · rw [if_pos h, Nat.testBit_and, not_all_bits_testBit _ hj _ hb, h]
    by_cases h2 : i = cur
    · subst h2; simp
    · have h3 : ¬ (2 * (i % 4) + 1 = 2 * (cur % 4)) := by omega
      have h4 : ¬ (i % 4 = cur % 4) := by omega
      simp [h2, h3, h4]
  · have h2 : i ≠ cur := by rintro rfl; exact h rfl
    simp [h, h2]

/-! ## The nested loops visit the blocks in order -/

theorem forFlat_add {σ : Type} (body : Nat → σ → Ctl σ) (a b : Nat) :
    ∀ (cur : Nat) (s : σ), forFlat body (a + b) cur s =
      match forFlat body a cur s with
      | .next s1 => forFlat body b (cur + a) s1
      | .stop s1 => .stop s1 := by
  induction a with
  | zero => intro cur s; simp [forFlat]
  | succ a ih =>
    intro cur s
    rw [Nat.succ_add]
    simp only [forFlat]
    cases hb : body cur s with
    | next s1 =>
      simp only []
      rw [ih (cur + 1) s1]
      have : cur + 1 + a = cur + (a + 1) := by omega
      rw [this]
    | stop s1 => rfl

theorem forBlocks_eq_forFlat {σ : Type} (body : Nat → Nat → σ → Ctl σ) (iPage : Nat) :
    ∀ (k iBlock : Nat) (s : σ), iBlock + k ≤ 4 →
      forBlocks body iPage k iBlock s =
        forFlat (fun cur => body (cur / 4) (cur % 4)) k (iPage * 4 + iBlock) s := by
  intro k
  induction k with
  | zero => intro iBlock s _; rfl
  | succ k ih =>
    intro iBlock s h
    simp only [forBlocks, forFlat]
    have h1 : (iPage * 4 + iBlock) / 4 = iPage := by omega
    have h2 : (iPage * 4 + iBlock) % 4 = iBlock := by omega
    rw [h1, h2]
    cases hb : body iPage iBlock s with
    | next s1 =>
      simp only []
      rw [ih (iBlock + 1) s1 (by omega)]
      rfl
    | stop s1 => rfl

theorem forPages_eq_forFlat {σ : Type} (body : Nat → Nat → σ → Ctl σ) :
    ∀ (k iPage : Nat) (s : σ),
      forPages body k iPage s =
        forFlat (fun cur => body (cur / 4) (cur % 4)) (4 * k) (iPage * 4) s := by
  intro k
  induction k with
  | zero => intro iPage s; rfl
  | succ k ih =>
    intro iPage s
    have h4 : 4 * (k + 1) = 4 + 4 * k := by omega
    rw [h4, forFlat_add]
    simp only [forPages]
    rw [show HEAP_PAGE_BLOCKS = 4 from rfl, forBlocks_eq_forFlat body iPage 4 0 s (by omega)]
    simp only [Nat.add_zero]
    cases hb : forFlat (fun cur => body (cur / 4) (cur % 4)) 4 (iPage * 4) s with
    | next s1 =>
      simp only []
      rw [ih (iPage + 1) s1]
      have : (iPage + 1) * 4 = iPage * 4 + 4 := by omega
      rw [this]
    | stop s1 => rfl

/-! ## `set_allocation_state` on the flags -/

theorem set_allocation_state_body_flat (fb bc : Nat) (al : Bool) (cur : Nat) (pages : List Nat) :
    set_allocation_state_body fb bc al (cur / 4) (cur % 4) pages = sas_flat fb bc al cur pages := by
  have hcur : cur / 4 * HEAP_PAGE_BLOCKS + cur % 4 = cur := by
    show cur / 4 * 4 + cur % 4 = cur
    omega
  unfold set_allocation_state_body sas_flat
  simp only [hcur]
  by_cases h1 : cur ≥ fb
  · simp only [h1, if_true]
    by_cases h2 : (al && decide (cur < u32 (fb + bc))) = true
    · simp only [h2, if_true]
      rfl
    · simp only [h2, if_false]
      cases al with
      | true => rfl
      | false =>
        simp only [Bool.not_false, if_true]
        have h3 : (List.getD pages (cur / 4) 0 &&& BIT_BLOCK_HAS_NEXT (cur % 4) = 0) ↔
            block_has_next pages cur = false := by
          unfold block_has_next
          simp [HEAP_PAGE_BLOCKS]
        by_cases h4 : block_has_next pages cur = false
        · rw [if_pos (h3.2 h4), if_pos h4]; rfl
        · rw [if_neg (fun h => h4 (h3.1 h)), if_neg h4]; rfl
  · simp only [h1, if_false]

theorem set_allocation_state_pages (cfg : Config) (pHeap : Heap_t) (fb bc : Nat) (al : Bool) :
    (set_allocation_state cfg pHeap fb bc al).pages =
      (forFlat (sas_flat fb bc al) (4 * (cfg.HEAP_PAGE_COUNT - fb / 4)) (fb / 4 * 4)
        pHeap.pages).val := by
  unfold set_allocation_state
  simp only [HEAP_PAGE_BLOCKS]
  rw [forPages_eq_forFlat]
  congr 2
  funext cur pages
  exact set_allocation_state_body_flat fb bc al cur pages

theorem set_allocation_state_base (cfg : Config) (pHeap : Heap_t) (fb bc : Nat) (al : Bool) :
    (set_allocation_state cfg pHeap fb bc al).p_base_addr = pHeap.p_base_addr := rfl

theorem length_mark_block (pages : List Nat) (cur : Nat) :
    (mark_block pages cur).length = pages.length := by
  simp [mark_block]

theorem length_clear_block (pages : List Nat) (cur : Nat) :
    (clear_block pages cur).length = pages.length := by
  simp [clear_block]

theorem length_clear_next_block (pages : List Nat) (cur : Nat) :
    (clear_next_block pages cur).length = pages.length := by
  simp [clear_next_block]

theorem bytes_set (pages : List Nat) (q v : Nat) (hv : v < 256)
    (h : ∀ p ∈ pages, p < 256) : ∀ p ∈ pages.set q v, p < 256 := by
  intro p hp
  rcases List.mem_or_eq_of_mem_set hp with h1 | h1
  · exact h p h1
  · rw [h1]; exact hv

theorem getD_lt (pages : List Nat) (q : Nat) (h : ∀ p ∈ pages, p < 256) :
    pages.getD q 0 < 256 := by
  rw [List.getD_eq_getElem?_getD]
  cases hq : pages[q]? with
  | none => simp
  | some v =>
    simp only [Option.getD_some]
    exact h v (List.getElem?_mem hq)

theorem bytes_mark_block (pages : List Nat) (cur : Nat) (h : ∀ p ∈ pages, p < 256) :
    ∀ p ∈ mark_block pages cur, p < 256 := by
  apply bytes_set _ _ _ _ h
  have h1 := getD_lt pages (cur / 4) h
  have h2 : BIT_BLOCK_ALL_BITS (cur % 4) < 256 := Nat.mod_lt _ (by decide)
  exact Nat.or_lt_two_pow (n := 8) h1 h2

theorem bytes_clear_block (pages : List Nat) (cur : Nat) (h : ∀ p ∈ pages, p < 256) :
    ∀ p ∈ clear_block pages cur, p < 256 := by
  apply bytes_set _ _ _ _ h
  exact Nat.lt_of_le_of_lt Nat.and_le_left (getD_lt pages (cur / 4) h)

theorem bytes_clear_next_block (pages : List Nat) (cur : Nat) (h : ∀ p ∈ pages, p < 256) :
    ∀ p ∈ clear_next_block pages cur, p < 256 := by
  apply bytes_set _ _ _ _ h
  exact Nat.lt_of_le_of_lt Nat.and_le_left (getD_lt pages (cur / 4) h)

theorem u32_of_lt (x : Nat) (h : x < 4294967296) : u32 x = x := Nat.mod_eq_of_lt h

theorem u32_pred (x : Nat) (h1 : 1 ≤ x) (h2 : x ≤ 4294967296) :
    u32 (x + 4294967295) = x - 1 := by
  unfold u32; omega

/-- Marking `bc ≥ 1` blocks from `fb`: the loop that is at block `cur` sets both flags on the
blocks of `[fb, fb + bc)` it still has to visit, clears `has_next` on the last, and touches
nothing else. -/
theorem forFlat_sas_mark (fb bc N : Nat) (hbc : 1 ≤ bc) (hN : fb + bc ≤ N)
    (h32 : fb + bc < 4294967296) :
    ∀ (k cur : Nat) (pages : List Nat), cur + k = N → cur < fb + bc → N ≤ 4 * pages.length →
      ((forFlat (sas_flat fb bc true) k cur pages).val.length = pages.length) ∧
      (∀ i, block_allocated (forFlat (sas_flat fb bc true) k cur pages).val i =
        if max cur fb ≤ i ∧ i < fb + bc then true else block_allocated pages i) ∧
      (∀ i, block_has_next (forFlat (sas_flat fb bc true) k cur pages).val i =
        if max cur fb ≤ i ∧ i < fb + bc then decide (i + 1 < fb + bc)
        else block_has_next pages i) ∧
      ((∀ p ∈ pages, p < 256) → ∀ p ∈ (forFlat (sas_flat fb bc true) k cur pages).val, p < 256) := by
  intro k
  induction k with
  | zero => intro cur pages h1 h2 _; omega
  | succ k ih =>
    intro cur pages hk hcur hlen
    have hl : cur / 4 < pages.length := by omega
    simp only [forFlat]
    by_cases hge : cur ≥ fb
    · have hlt : cur < u32 (fb + bc) := by rw [u32_of_lt _ h32]; exact hcur
      by_cases hlast : cur = fb + bc - 1
      · have hb : sas_flat fb bc true cur pages =
            .stop (clear_next_block (mark_block pages cur) cur) := by
          unfold sas_flat
          rw [if_pos hge, if_pos (by simpa using hlt), u32_pred _ (by omega) (by omega),
            if_pos hlast]
        rw [hb]
        simp only [Ctl.val]
        have hl2 : cur / 4 < (mark_block pages cur).length := by
          rw [length_mark_block]; exact hl
        refine ⟨by rw [length_clear_next_block, length_mark_block], ?_, ?_, ?_⟩
        · intro i
          rw [allocated_clear_next_block _ _ _ hl2, allocated_mark_block _ _ _ hl]
          by_cases hi : i = cur
          · have : max cur fb ≤ i ∧ i < fb + bc := by omega
            rw [if_pos this]
            simp [hi]
            try omega
          · have : ¬ (max cur fb ≤ i ∧ i < fb + bc) := by omega
            rw [if_neg this]
            simp [hi]
        · intro i
          rw [has_next_clear_next_block _ _ _ hl2, has_next_mark_block _ _ _ hl]
          by_cases hi : i = cur
          · have : max cur fb ≤ i ∧ i < fb + bc := by omega
            rw [if_pos this]
            simp [hi]
            try omega
          · have : ¬ (max cur fb ≤ i ∧ i < fb + bc) := by omega
            rw [if_neg this]
            simp [hi]
        · intro hp
          exact bytes_clear_next_block _ _ (bytes_mark_block _ _ hp)
      · have hb : sas_flat fb bc true cur pages = .next (mark_block pages cur) := by
          unfold sas_flat
          rw [if_pos hge, if_pos (by simpa using hlt), u32_pred _ (by omega) (by omega),
            if_neg hlast]
        rw [hb]
        simp only []
        obtain ⟨ih1, ih2, ih3, ih4⟩ := ih (cur + 1) (mark_block pages cur) (by omega) (by omega)
          (by rw [length_mark_block]; exact hlen)
        refine ⟨by rw [ih1, length_mark_block], ?_, ?_, ?_⟩
        · intro i
          rw [ih2 i, allocated_mark_block _ _ _ hl]
          by_cases hi : i = cur
          · have h1 : max cur fb ≤ i ∧ i < fb + bc := by omega
            have h2 : ¬ (max (cur + 1) fb ≤ i ∧ i < fb + bc) := by omega
            rw [if_pos h1, if_neg h2]
            simp [hi]
            try omega
          · by_cases h1 : max cur fb ≤ i ∧ i < fb + bc
            · have h2 : max (cur + 1) fb ≤ i ∧ i < fb + bc := by omega
              rw [if_pos h1, if_pos h2]
            · have h2 : ¬ (max (cur + 1) fb ≤ i ∧ i < fb + bc) := by omega
              rw [if_neg h1, if_neg h2]
              simp [hi]
        · intro i
          rw [ih3 i, has_next_mark_block _ _ _ hl]
          by_cases hi : i = cur
          · have h1 : max cur fb ≤ i ∧ i < fb + bc := by omega
            have h2 : ¬ (max (cur + 1) fb ≤ i ∧ i < fb + bc) := by omega
            rw [if_pos h1, if_neg h2]
            simp [hi]
            try omega
          · by_cases h1 : max cur fb ≤ i ∧ i < fb + bc
            · have h2 : max (cur + 1) fb ≤ i ∧ i < fb + bc := by omega
              rw [if_pos h1, if_pos h2]
            · have h2 : ¬ (max (cur + 1) fb ≤ i ∧ i < fb + bc) := by omega
              rw [if_neg h1, if_neg h2]
              simp [hi]
        · intro hp
          exact ih4 (bytes_mark_block _ _ hp)
    · have hb : sas_flat fb bc true cur pages = .next pages := by
        unfold sas_flat
        rw [if_neg hge]
      rw [hb]
      simp only []
      obtain ⟨ih1, ih2, ih3, ih4⟩ := ih (cur + 1) pages (by omega) (by omega) hlen
      have hmax : max (cur + 1) fb = max cur fb := by omega
      rw [hmax] at ih2 ih3
      exact ⟨ih1, ih2, ih3, ih4⟩

theorem sas_flat_clear (fb bc cur : Nat) (pages : List Nat) (hge : cur ≥ fb) :
    sas_flat fb bc false cur pages =
      if block_has_next pages cur = false then .stop (clear_block pages cur)
      else .next (clear_block pages cur) := by
  unfold sas_flat
  rw [if_pos hge]
  simp

/-- Erasing from `fb` along a walk of `c` blocks: the loop that is at block `cur` clears both
flags on the blocks of `[fb, fb + c)` it still has to visit and touches nothing else. -/
theorem forFlat_sas_clear (fb bc c N : Nat) (hc : 1 ≤ c) (hN : fb + c ≤ N) :
    ∀ (k cur : Nat) (pages : List Nat), cur + k = N → cur < fb + c → N ≤ 4 * pages.length →
      (∀ i, max cur fb ≤ i → i + 1 < fb + c → block_has_next pages i = true) →
      (fb + c < N → block_has_next pages (fb + c - 1) = false) →
      ((forFlat (sas_flat fb bc false) k cur pages).val.length = pages.length) ∧
      (∀ i, block_allocated (forFlat (sas_flat fb bc false) k cur pages).val i =
        if max cur fb ≤ i ∧ i < fb + c then false else block_allocated pages i) ∧
      (∀ i, block_has_next (forFlat (sas_flat fb bc false) k cur pages).val i =
        if max cur fb ≤ i ∧ i < fb + c then false else block_has_next pages i) ∧
      ((∀ p ∈ pages, p < 256) →
        ∀ p ∈ (forFlat (sas_flat fb bc false) k cur pages).val, p < 256) := by
  intro k
  induction k with
  | zero => intro cur pages h1 h2 _; omega
  | succ k ih =>
    intro cur pages hk hcur hlen hchain hend
    have hl : cur / 4 < pages.length := by omega
    simp only [forFlat]
    by_cases hge : cur ≥ fb
    · rw [sas_flat_clear _ _ _ _ hge]
      have hone : ∀ r : List Nat, r = clear_block pages cur → cur = fb + c - 1 →
          r.length = pages.length ∧
          (∀ i, block_allocated r i =
            if max cur fb ≤ i ∧ i < fb + c then false else block_allocated pages i) ∧
          (∀ i, block_has_next r i =
            if max cur fb ≤ i ∧ i < fb + c then false else block_has_next pages i) ∧
          ((∀ p ∈ pages, p < 256) → ∀ p ∈ r, p < 256) := by
        intro r hr hlast
        subst hr
        refine ⟨length_clear_block _ _, ?_, ?_, fun hp => bytes_clear_block _ _ hp⟩
        · intro i
          rw [allocated_clear_block _ _ _ hl]
          by_cases hi : i = cur
          · have : max cur fb ≤ i ∧ i < fb + c := by omega
            rw [if_pos this]; simp [hi]
          · have : ¬ (max cur fb ≤ i ∧ i < fb + c) := by omega
            rw [if_neg this]; simp [hi]
        · intro i
          rw [has_next_clear_block _ _ _ hl]
          by_cases hi : i = cur
          · have : max cur fb ≤ i ∧ i < fb + c := by omega
            rw [if_pos this]; simp [hi]
          · have : ¬ (max cur fb ≤ i ∧ i < fb + c) := by omega
            rw [if_neg this]; simp [hi]
      by_cases hlast : cur = fb + c - 1
      · by_cases hn : block_has_next pages cur = false
        · rw [if_pos hn]
          exact hone _ rfl hlast
        · rw [if_neg hn]
          have hk0 : k = 0 := by
            by_contra hk0
            apply hn
            have := hend (by omega)
            rw [hlast]; exact this
          subst hk0
          simp only [forFlat]
          exact hone _ rfl hlast
      · have hn : ¬ (block_has_next pages cur = false) := by
          rw [hchain cur (by omega) (by omega)]; simp
        rw [if_neg hn]
        simp only []
        have hpres : ∀ i, i ≠ cur →
            block_has_next (clear_block pages cur) i = block_has_next pages i := by
          intro i hi
          rw [has_next_clear_block _ _ _ hl]; simp [hi]
        obtain ⟨ih1, ih2, ih3, ih4⟩ := ih (cur + 1) (clear_block pages cur) (by omega) (by omega)
          (by rw [length_clear_block]; exact hlen)
          (by
            intro i h1 h2
            rw [hpres i (by omega)]
            exact hchain i (by omega) h2)
          (by
            intro h1
            rw [hpres _ (by omega)]
            exact hend h1)
        refine ⟨by rw [ih1, length_clear_block], ?_, ?_, fun hp => ih4 (bytes_clear_block _ _ hp)⟩
        · intro i
          rw [ih2 i, allocated_clear_block _ _ _ hl]
          by_cases hi : i = cur
          · have h1 : max cur fb ≤ i ∧ i < fb + c := by omega
            have h2 : ¬ (max (cur + 1) fb ≤ i ∧ i < fb + c) := by omega
            rw [if_pos h1, if_neg h2]
            simp [hi]
          · by_cases h1 : max cur fb ≤ i ∧ i < fb + c
            · have h2 : max (cur + 1) fb ≤ i ∧ i < fb + c := by omega
              rw [if_pos h1, if_pos h2]
            · have h2 : ¬ (max (cur + 1) fb ≤ i ∧ i < fb + c) := by omega
              rw [if_neg h1, if_neg h2]
              simp [hi]
        · intro i
          rw [ih3 i, has_next_clear_block _ _ _ hl]
          by_cases hi : i = cur
          · have h1 : max cur fb ≤ i ∧ i < fb + c := by omega
            have h2 : ¬ (max (cur + 1) fb ≤ i ∧ i < fb + c) := by omega
            rw [if_pos h1, if_neg h2]
            simp [hi]
          · by_cases h1 : max cur fb ≤ i ∧ i < fb + c
            · have h2 : max (cur + 1) fb ≤ i ∧ i < fb + c := by omega
              rw [if_pos h1, if_pos h2]
            · have h2 : ¬ (max (cur + 1) fb ≤ i ∧ i < fb + c) := by omega
              rw [if_neg h1, if_neg h2]
              simp [hi]
    · have hb : sas_flat fb bc false cur pages = .next pages := by
        unfold sas_flat
        rw [if_neg hge]
      rw [hb]
      simp only []
      have hmax : max (cur + 1) fb = max cur fb := by omega
      obtain ⟨ih1, ih2, ih3, ih4⟩ := ih (cur + 1) pages (by omega) (by omega) hlen
        (by rw [hmax]; exact hchain) hend
      rw [hmax] at ih2 ih3
      exact ⟨ih1, ih2, ih3, ih4⟩

/-! ## `set_allocation_state` on a heap -/

/-- Allocating `bc ≥ 1` blocks from `fb` inside the arena sets `allocated` on all of them,
`has_next` on all but the last, and changes no other flag. -/
theorem set_allocation_state_mark (cfg : Config) (pHeap : Heap_t) (fb bc : Nat)
    (hlen : pHeap.pages.length = cfg.HEAP_PAGE_COUNT) (hbc : 1 ≤ bc)
    (hN : fb + bc ≤ 4 * cfg.HEAP_PAGE_COUNT) (h32 : fb + bc < 4294967296) :
    ((set_allocation_state cfg pHeap fb bc true).pages.length = pHeap.pages.length) ∧
    (∀ i, block_allocated (set_allocation_state cfg pHeap fb bc true).pages i =
      if fb ≤ i ∧ i < fb + bc then true else block_allocated pHeap.pages i) ∧
    (∀ i, block_has_next (set_allocation_state cfg pHeap fb bc true).pages i =
      if fb ≤ i ∧ i < fb + bc then decide (i + 1 < fb + bc) else block_has_next pHeap.pages i) ∧
    ((∀ p ∈ pHeap.pages, p < 256) →
      ∀ p ∈ (set_allocation_state cfg pHeap fb bc true).pages, p < 256) := by
  rw [set_allocation_state_pages]
  have h := forFlat_sas_mark fb bc (4 * cfg.HEAP_PAGE_COUNT) hbc hN h32
    (4 * (cfg.HEAP_PAGE_COUNT - fb / 4)) (fb / 4 * 4) pHeap.pages (by omega) (by omega)
    (by omega)
  have hmax : max (fb / 4 * 4) fb = fb := by omega
  rw [hmax] at h
  exact h

/-- Erasing from `fb`, where the walk along `has_next` visits `c` blocks, clears both flags on
these `c` blocks and changes no other flag. -/
theorem set_allocation_state_clear (cfg : Config) (pHeap : Heap_t) (fb bc c : Nat)
    (hlen : pHeap.pages.length = cfg.HEAP_PAGE_COUNT)
    (hch : Chain pHeap.pages (4 * cfg.HEAP_PAGE_COUNT) fb c) :
    ((set_allocation_state cfg pHeap fb bc false).pages.length = pHeap.pages.length) ∧
    (∀ i, block_allocated (set_allocation_state cfg pHeap fb bc false).pages i =
      if fb ≤ i ∧ i < fb + c then false else block_allocated pHeap.pages i) ∧
    (∀ i, block_has_next (set_allocation_state cfg pHeap fb bc false).pages i =
      if fb ≤ i ∧ i < fb + c then false else block_has_next pHeap.pages i) ∧
    ((∀ p ∈ pHeap.pages, p < 256) →
      ∀ p ∈ (set_allocation_state cfg pHeap fb bc false).pages, p < 256) := by
  obtain ⟨hc, hN, h1, h2⟩ := hch
  rw [set_allocation_state_pages]
  have hmax : max (fb / 4 * 4) fb = fb := by omega
  have h := forFlat_sas_clear fb bc c (4 * cfg.HEAP_PAGE_COUNT) hc hN
    (4 * (cfg.HEAP_PAGE_COUNT - fb / 4)) (fb / 4 * 4) pHeap.pages (by omega) (by omega)
    (by omega) (by rw [hmax]; exact h1) h2
  rw [hmax] at h
  exact h

/-! ## `block_number_by_addr` and `heap_block_size_impl` -/

theorem block_number_by_addr_of_ge (cfg : Config) (pHeap : Heap_t) (p : Nat)
    (hp : pHeap.p_base_addr ≤ p) :
    block_number_by_addr cfg pHeap p = u32 ((p - pHeap.p_base_addr) / cfg.HEAP_BLOCK_SIZE) := by
  unfold block_number_by_addr u32
  have h1 : (p : Int) - (pHeap.p_base_addr : Int) = ((p - pHeap.p_base_addr : Nat) : Int) := by
    omega
  rw [h1, Int.tdiv_eq_ediv (Int.natCast_nonneg _) (Int.natCast_nonneg _)]
  norm_cast

theorem block_number_by_addr_block (cfg : Config) (pHeap : Heap_t) (k : Nat)
    (hbs : 0 < cfg.HEAP_BLOCK_SIZE) (hk : k < 4294967296) :
    block_number_by_addr cfg pHeap (pHeap.p_base_addr + k * cfg.HEAP_BLOCK_SIZE) = k := by
  rw [block_number_by_addr_of_ge _ _ _ (by omega)]
  rw [Nat.add_sub_cancel_left, Nat.mul_div_cancel _ hbs, u32_of_lt _ hk]

theorem heap_block_size_body_flat (fb : Nat) (pages : List Nat) (cur cnt : Nat) :
    heap_block_size_body fb pages (cur / 4) (cur % 4) cnt = bs_flat fb pages cur cnt := by
  have hcur : cur / 4 * HEAP_PAGE_BLOCKS + cur % 4 = cur := by
    show cur / 4 * 4 + cur % 4 = cur
    omega
  unfold heap_block_size_body bs_flat
  simp only [hcur]
  have h3 : (List.getD pages (cur / 4) 0 &&& BIT_BLOCK_HAS_NEXT (cur % 4) = 0) ↔
      block_has_next pages cur = false := by
    unfold block_has_next
    simp [HEAP_PAGE_BLOCKS]
  by_cases h1 : cur ≥ fb
  · simp only [h1, if_true]
    by_cases h4 : block_has_next pages cur = false
    · rw [if_pos (h3.2 h4), if_pos h4]
    · rw [if_neg (fun h => h4 (h3.1 h)), if_neg h4]
  · simp only [h1, if_false]

theorem forFlat_bs (fb c N : Nat) (pages : List Nat) (hch : Chain pages N fb c) :
    ∀ (k cur cnt : Nat), cur + k = N → cur < fb + c → cnt + fb = max cur fb →
      (forFlat (bs_flat fb pages) k cur cnt).val = c := by
  obtain ⟨hc, hN, h1, h2⟩ := hch
  intro k
  induction k with
  | zero => intro cur cnt h1 h2 _; omega
  | succ k ih =>
    intro cur cnt hk hcur hcnt
    simp only [forFlat]
    unfold bs_flat
    by_cases hge : cur ≥ fb
    · rw [if_pos hge]
      by_cases hlast : cur = fb + c - 1
      · by_cases hn : block_has_next pages cur = false
        · rw [if_pos hn]
          simp only [Ctl.val]
          omega
        · rw [if_neg hn]
          have hk0 : k = 0 := by
            by_contra hk0
            apply hn
            have := h2 (by omega)
            rw [hlast]; exact this
          subst hk0
          simp only [forFlat, Ctl.val]
          omega
      · have hn : ¬ (block_has_next pages cur = false) := by
          rw [h1 cur (by omega) (by omega)]; simp
        rw [if_neg hn]
        exact ih (cur + 1) (cnt + 1) (by omega) (by omega) (by omega)
    · rw [if_neg hge]
      exact ih (cur + 1) cnt (by omega) (by omega) (by omega)

theorem heap_block_size_impl_eq (cfg : Config) (pHeap : Heap_t) (p : Nat) :
    heap_block_size_impl cfg pHeap p =
      u32 ((forFlat (bs_flat (block_number_by_addr cfg pHeap p) pHeap.pages)
        (4 * (cfg.HEAP_PAGE_COUNT - block_number_by_addr cfg pHeap p / 4))
        (block_number_by_addr cfg pHeap p / 4 * 4) 0).val * cfg.HEAP_BLOCK_SIZE) := by
  unfold heap_block_size_impl
  simp only [HEAP_PAGE_BLOCKS]
  rw [forPages_eq_forFlat]
  congr 4
  funext cur cnt
  exact heap_block_size_body_flat _ _ cur cnt

/-- The size reported for an address whose block starts a walk of `c` blocks. -/
theorem heap_block_size_impl_chain (cfg : Config) (pHeap : Heap_t) (p c : Nat)
    (hch : Chain pHeap.pages (4 * cfg.HEAP_PAGE_COUNT) (block_number_by_addr cfg pHeap p) c) :
    heap_block_size_impl cfg pHeap p = u32 (c * cfg.HEAP_BLOCK_SIZE) := by
  rw [heap_block_size_impl_eq]
  have h := hch
  obtain ⟨hc, hN, _, _⟩ := h
  rw [forFlat_bs _ c (4 * cfg.HEAP_PAGE_COUNT) _ hch _ _ 0 (by omega) (by omega) (by omega)]

/-- The size reported for an address whose block number is not in the arena. -/
theorem heap_block_size_impl_outside (cfg : Config) (pHeap : Heap_t) (p : Nat)
    (h : 4 * cfg.HEAP_PAGE_COUNT ≤ block_number_by_addr cfg pHeap p) :
    heap_block_size_impl cfg pHeap p = 0 := by
  rw [heap_block_size_impl_eq]
  have : cfg.HEAP_PAGE_COUNT - block_number_by_addr cfg pHeap p / 4 = 0 := by omega
  rw [this]
  simp [forFlat, Ctl.val, u32]

/-! ## The scan of `heap_alloc_impl` -/

theorem heap_alloc_body_flat (n : Nat) (pages : List Nat) (cur : Nat) (s : Nat × Nat) :
    heap_alloc_body n pages (cur / 4) (cur % 4) s = alloc_flat n pages cur s := by
  have hcur : cur / 4 * HEAP_PAGE_BLOCKS + cur % 4 = cur := by
    show cur / 4 * 4 + cur % 4 = cur
    omega
  have h3 : (List.getD pages (cur / 4) 0 &&& BIT_BLOCK_ALLOCATED (cur % 4) = 0) ↔
      block_allocated pages cur = false := by
    unfold block_allocated
    simp [HEAP_PAGE_BLOCKS]
  unfold heap_alloc_body alloc_flat
  simp only [hcur]
  by_cases h4 : block_allocated pages cur = false
  · rw [if_pos (h3.2 h4), if_pos h4]
  · rw [if_neg (fun h => h4 (h3.1 h)), if_neg h4]

theorem heap_alloc_impl_eq (cfg : Config) (pHeap : Heap_t) (n_bytes : Nat) :
    heap_alloc_impl cfg pHeap n_bytes =
      match forFlat (alloc_flat (n_blocks_of cfg n_bytes) pHeap.pages)
        (4 * cfg.HEAP_PAGE_COUNT) 0 (0, 0) with
      | .stop s =>
        (set_allocation_state cfg pHeap s.1 (n_blocks_of cfg n_bytes) true,
          pHeap.p_base_addr + u32 (s.1 * cfg.HEAP_BLOCK_SIZE))
      | .next _ => (pHeap, 0) := by
  unfold heap_alloc_impl
  simp only []
  rw [forPages_eq_forFlat]
  have hb : (fun cur => heap_alloc_body (n_blocks_of cfg n_bytes) pHeap.pages (cur / 4) (cur % 4))
      = alloc_flat (n_blocks_of cfg n_bytes) pHeap.pages := by
    funext cur s
    exact heap_alloc_body_flat _ _ cur s
  rw [hb]

theorem alloc_flat_free (n : Nat) (pages : List Nat) (cur fb fr : Nat)
    (h : block_allocated pages cur = false) :
    alloc_flat n pages cur (fb, fr) =
      if fr + 1 ≥ n then .stop ((if fr = 0 then cur else fb), fr + 1)
      else .next ((if fr = 0 then cur else fb), fr + 1) := by
  unfold alloc_flat
  simp only [h, if_true]

theorem alloc_flat_used (n : Nat) (pages : List Nat) (cur : Nat) (s : Nat × Nat)
    (h : block_allocated pages cur = true) :
    alloc_flat n pages cur s = if 0 ≥ n then .stop (0, 0) else .next (0, 0) := by
  unfold alloc_flat
  simp only [h, Bool.true_eq_false, if_false]

/-- The scan for `n ≥ 1` free blocks in a row: it stops at the least block number that starts
such a run, and runs to the end of the arena only when there is none. -/
theorem forFlat_alloc (n N : Nat) (pages : List Nat) (hn : 1 ≤ n) :
    ∀ (k cur fb fr : Nat), cur + k = N → fr < n → fr ≤ cur →
      (∀ i, cur - fr ≤ i → i < cur → block_allocated pages i = false) →
      (fr ≠ 0 → fb = cur - fr) →
      (∀ j, j < cur - fr → ∃ i, j ≤ i ∧ i < j + n ∧ i < cur ∧ block_allocated pages i = true) →
      match forFlat (alloc_flat n pages) k cur (fb, fr) with
      | .stop s => s.2 = n ∧ FreeRun pages N s.1 n ∧ ∀ j, FreeRun pages N j n → s.1 ≤ j
      | .next _ => ∀ j, ¬ FreeRun pages N j n := by
  intro k
  induction k with
  | zero =>
    intro cur fb fr hk hfr hle hrun hfb hblk
    simp only [forFlat]
    intro j hj
    obtain ⟨hj1, hj2⟩ := hj
    by_cases hjlt : j < cur - fr
    · obtain ⟨i, hi1, hi2, hi3, hi4⟩ := hblk j hjlt
      rw [hj2 i hi1 hi2] at hi4
      exact Bool.noConfusion hi4
    · omega
  | succ k ih =>
    intro cur fb fr hk hfr hle hrun hfb hblk
    simp only [forFlat]
    by_cases hfree : block_allocated pages cur = false
    · rw [alloc_flat_free _ _ _ _ _ hfree]
      have hfb2 : (if fr = 0 then cur else fb) = cur - fr := by
        by_cases h0 : fr = 0
        · simp [h0]
        · rw [if_neg h0]; exact hfb h0
      rw [hfb2]
      by_cases hstop : fr + 1 ≥ n
      · rw [if_pos hstop]
        simp only []
        refine ⟨by omega, ⟨by omega, ?_⟩, ?_⟩
        · intro i hi1 hi2
          by_cases hic : i = cur
          · rw [hic]; exact hfree
          · exact hrun i hi1 (by omega)
        · intro j hj
          by_contra hlt
          obtain ⟨i, hi1, hi2, _, hi4⟩ := hblk j (by omega)
          rw [hj.2 i hi1 hi2] at hi4
          exact Bool.noConfusion hi4
      · rw [if_neg hstop]
        simp only []
        apply ih (cur + 1) (cur - fr) (fr + 1) (by omega) (by omega) (by omega)
        · intro i hi1 hi2
          by_cases hic : i = cur
          · rw [hic]; exact hfree
          · exact hrun i (by omega) (by omega)
        · intro _; omega
        · intro j hj
          obtain ⟨i, hi1, hi2, hi3, hi4⟩ := hblk j (by omega)
          exact ⟨i, hi1, hi2, by omega, hi4⟩
    · have hal : block_allocated pages cur = true := by
        cases h : block_allocated pages cur
        · exact absurd h hfree
        · rfl
      have hnot : ¬ (0 ≥ n) := by omega
      rw [alloc_flat_used _ _ _ _ hal, if_neg hnot]
      simp only []
      apply ih (cur + 1) 0 0 (by omega) (by omega) (by omega)
      · intro i hi1 hi2; omega
      · intro h; exact absurd rfl h
      · intro j hj
        by_cases hjlt : j < cur - fr
        · obtain ⟨i, hi1, hi2, hi3, hi4⟩ := hblk j hjlt
          exact ⟨i, hi1, hi2, by omega, hi4⟩
        · exact ⟨cur, by omega, by omega, by omega, hal⟩

/-- The scan from the first block of the arena. -/
theorem forFlat_alloc_zero (n N : Nat) (pages : List Nat) (hn : 1 ≤ n) :
    match forFlat (alloc_flat n pages) N 0 (0, 0) with
    | .stop s => s.2 = n ∧ FreeRun pages N s.1 n ∧ ∀ j, FreeRun pages N j n → s.1 ≤ j
    | .next _ => ∀ j, ¬ FreeRun pages N j n := by
  apply forFlat_alloc n N pages hn N 0 0 0 (by omega) (by omega) (by omega)
  · intro i _ hi; omega
  · intro h; exact absurd rfl h
  · intro j hj; omega

/-! ## `heap_available_space_impl` counts the free blocks -/

theorem forFlat_avail (pages : List Nat) :
    ∀ (k cur : Nat),
      forFlat (fun cur => heap_available_space_body pages (cur / 4) (cur % 4)) k cur
        (free_count pages cur) = .next (free_count pages (cur + k)) := by
  intro k
  induction k with
  | zero => intro cur; rfl
  | succ k ih =>
    intro cur
    have h3 : (List.getD pages (cur / 4) 0 &&& BIT_BLOCK_ALLOCATED (cur % 4) = 0) ↔
        block_allocated pages cur = false := by
      unfold block_allocated
      simp [HEAP_PAGE_BLOCKS]
    have hk : cur + (k + 1) = cur + 1 + k := by omega
    simp only [forFlat]
    unfold heap_available_space_body
    by_cases h4 : block_allocated pages cur = false
    · rw [if_pos (h3.2 h4)]
      simp only []
      have : free_count pages cur + 1 = free_count pages (cur + 1) := by
        simp [free_count, h4]
      rw [this, hk]
      exact ih (cur + 1)
    · rw [if_neg (fun h => h4 (h3.1 h))]
      simp only []
      have : free_count pages cur = free_count pages (cur + 1) := by
        simp [free_count, h4]
      rw [this, hk]
      exact ih (cur + 1)

theorem heap_available_space_impl_eq (cfg : Config) (pHeap : Heap_t) :
    heap_available_space_impl cfg pHeap =
      u32 (free_count pHeap.pages (4 * cfg.HEAP_PAGE_COUNT) * cfg.HEAP_BLOCK_SIZE) := by
  unfold heap_available_space_impl
  simp only []
  rw [forPages_eq_forFlat]
  have h := forFlat_avail pHeap.pages (4 * cfg.HEAP_PAGE_COUNT) 0
  simp only [free_count, Nat.zero_add, Nat.zero_mul] at h
  rw [h]
  rfl

theorem free_count_le (pages : List Nat) : ∀ m, free_count pages m ≤ m := by
  intro m
  induction m with
  | zero => simp [free_count]
  | succ m ih =>
    simp only [free_count]
    split <;> omega

/-- Two flag arrays that differ on `[a, a + n)` only, where the first is free and the second
allocated: the second has `n` free blocks less. -/
theorem free_count_mark (pages pages' : List Nat) (a n : Nat)
    (hin : ∀ i, a ≤ i → i < a + n →
      block_allocated pages i = false ∧ block_allocated pages' i = true)
    (hout : ∀ i, ¬ (a ≤ i ∧ i < a + n) → block_allocated pages' i = block_allocated pages i) :
    ∀ m, free_count pages' m + (min m (a + n) - min m a) = free_count pages m := by
  intro m
  induction m with
  | zero => simp [free_count]
  | succ m ih =>
    simp only [free_count]
    by_cases hm : a ≤ m ∧ m < a + n
    · obtain ⟨h1, h2⟩ := hin m hm.1 hm.2
      rw [h1, h2]
      simp only [if_true, Bool.false_eq_true, if_false]
      omega
    · rw [hout m hm]
      omega

/-! ## Parameters -/

theorem n_blocks_of_eq_ceil_div (cfg : Config) (n_bytes : Nat) (hbs : 0 < cfg.HEAP_BLOCK_SIZE) :
    n_blocks_of cfg n_bytes = ceil_div n_bytes cfg.HEAP_BLOCK_SIZE := by
  unfold n_blocks_of ceil_div
  generalize cfg.HEAP_BLOCK_SIZE = b at hbs
  have hdm := Nat.div_add_mod n_bytes b
  have hlt := Nat.mod_lt n_bytes hbs
  generalize n_bytes / b = q at hdm
  generalize n_bytes % b = r at hdm hlt
  symm
  by_cases hr : r = 0
  · subst hr
    simp only [ne_eq, not_true_eq_false, if_false, Nat.add_zero] at hdm ⊢
    apply Nat.div_eq_of_lt_le
    · rw [← hdm, Nat.mul_comm]; omega
    · rw [← hdm, Nat.succ_mul, Nat.mul_comm]; omega
  · rw [if_pos hr]
    apply Nat.div_eq_of_lt_le
    · rw [← hdm, Nat.add_mul, Nat.mul_comm]; omega
    · rw [← hdm, Nat.succ_mul, Nat.add_mul, Nat.mul_comm]; omega

theorem Config.Valid.blocks (cfg : Config) (hv : cfg.Valid) :
    4 * cfg.HEAP_PAGE_COUNT = cfg.HEAP_BLOCK_COUNT := by
  obtain ⟨_, _, h3⟩ := hv
  unfold Config.HEAP_PAGE_COUNT
  unfold HEAP_PAGE_BLOCKS at h3 ⊢
  omega

theorem Config.Valid.bytes (cfg : Config) (hv : cfg.Valid) (k : Nat)
    (hk : k ≤ cfg.HEAP_BLOCK_COUNT) : k * cfg.HEAP_BLOCK_SIZE < 4294967296 := by
  obtain ⟨_, h2, _⟩ := hv
  have h1 : cfg.HEAP_BLOCK_COUNT * cfg.HEAP_BLOCK_SIZE ≤ cfg.HEAP_TOTAL_SIZE :=
    Nat.div_mul_le_self _ _
  have h3 : k * cfg.HEAP_BLOCK_SIZE ≤ cfg.HEAP_BLOCK_COUNT * cfg.HEAP_BLOCK_SIZE :=
    Nat.mul_le_mul_right _ hk
  omega

theorem Config.Valid.count_lt (cfg : Config) (hv : cfg.Valid) :
    cfg.HEAP_BLOCK_COUNT < 4294967296 := by
  have h := hv.bytes cfg cfg.HEAP_BLOCK_COUNT (Nat.le_refl _)
  have hbs := hv.1
  have : cfg.HEAP_BLOCK_COUNT * 1 ≤ cfg.HEAP_BLOCK_COUNT * cfg.HEAP_BLOCK_SIZE :=
    Nat.mul_le_mul_left _ hbs
  omega

/-! ## Allocation -/

/-- What `heap_alloc_impl` does for a request of at least one block: either it finds the least
block number `k0` that starts a run of `n` free blocks, marks the run and returns its address, or
there is no such run and it returns 0 and the heap it was given. -/
theorem heap_alloc_impl_cases (cfg : Config) (hv : cfg.Valid) (pHeap : Heap_t) (n_bytes : Nat)
    (hn : 1 ≤ n_blocks_of cfg n_bytes) :
    (∃ k0, FreeRun pHeap.pages cfg.HEAP_BLOCK_COUNT k0 (n_blocks_of cfg n_bytes) ∧
      (∀ j, FreeRun pHeap.pages cfg.HEAP_BLOCK_COUNT j (n_blocks_of cfg n_bytes) → k0 ≤ j) ∧
      heap_alloc_impl cfg pHeap n_bytes =
        (set_allocation_state cfg pHeap k0 (n_blocks_of cfg n_bytes) true,
          pHeap.p_base_addr + k0 * cfg.HEAP_BLOCK_SIZE)) ∨
    ((∀ j, ¬ FreeRun pHeap.pages cfg.HEAP_BLOCK_COUNT j (n_blocks_of cfg n_bytes)) ∧
      heap_alloc_impl cfg pHeap n_bytes = (pHeap, 0)) := by
  rw [heap_alloc_impl_eq, hv.blocks]
  have h := forFlat_alloc_zero (n_blocks_of cfg n_bytes) cfg.HEAP_BLOCK_COUNT pHeap.pages hn
  cases hr : forFlat (alloc_flat (n_blocks_of cfg n_bytes) pHeap.pages)
      cfg.HEAP_BLOCK_COUNT 0 (0, 0) with
  | stop s =>
    rw [hr] at h
    simp only [] at h
    left
    refine ⟨s.1, h.2.1, h.2.2, ?_⟩
    simp only []
    have hlt : s.1 ≤ cfg.HEAP_BLOCK_COUNT := by
      have := h.2.1.1
      omega
    rw [u32_of_lt _ (hv.bytes cfg s.1 hlt)]
  | next s =>
    rw [hr] at h
    simp only [] at h
    right
    exact ⟨h, rfl⟩

/-- C1 (first fit). For every tracker state and every request whose block count
`n = ceil (n_bytes / HEAP_BLOCK_SIZE)` is at least 1: if some block number `k` starts a run of
`n` free blocks inside the arena, `heap_alloc_impl` returns `base + k0 * HEAP_BLOCK_SIZE` for the
least block number `k0` that starts such a run. -/
theorem heap_alloc_impl_first_fit (cfg : Config) (hv : cfg.Valid) (pHeap : Heap_t)
    (n_bytes n k : Nat) (hceil : n = ceil_div n_bytes cfg.HEAP_BLOCK_SIZE) (hn : 1 ≤ n)
    (hk : k + n ≤ cfg.HEAP_BLOCK_COUNT)
    (hfree : ∀ i, k ≤ i → i < k + n → block_allocated pHeap.pages i = false) :
    ∃ k0, (heap_alloc_impl cfg pHeap n_bytes).2 = pHeap.p_base_addr + k0 * cfg.HEAP_BLOCK_SIZE ∧
      (k0 + n ≤ cfg.HEAP_BLOCK_COUNT ∧
        ∀ i, k0 ≤ i → i < k0 + n → block_allocated pHeap.pages i = false) ∧
      (∀ j, (j + n ≤ cfg.HEAP_BLOCK_COUNT ∧
        ∀ i, j ≤ i → i < j + n → block_allocated pHeap.pages i = false) → k0 ≤ j) := by
  rw [← n_blocks_of_eq_ceil_div cfg n_bytes hv.1] at hceil
  subst hceil
  rcases heap_alloc_impl_cases cfg hv pHeap n_bytes hn with ⟨k0, h1, h2, h3⟩ | ⟨h1, _⟩
  · exact ⟨k0, by rw [h3], h1, h2⟩
  · exact absurd ⟨hk, hfree⟩ (h1 k)

theorem heap_alloc_impl_first_fit_witness :
    defaultConfig.Valid ∧ 3 = ceil_div 192 defaultConfig.HEAP_BLOCK_SIZE ∧ 1 ≤ 3 ∧
    9 + 3 ≤ defaultConfig.HEAP_BLOCK_COUNT ∧
    (∃ k0, (heap_alloc_impl defaultConfig heapAfterFree 192).2 =
        heapAfterFree.p_base_addr + k0 * defaultConfig.HEAP_BLOCK_SIZE ∧
      (k0 + 3 ≤ defaultConfig.HEAP_BLOCK_COUNT ∧
        ∀ i, k0 ≤ i → i < k0 + 3 → block_allocated heapAfterFree.pages i = false) ∧
      (∀ j, (j + 3 ≤ defaultConfig.HEAP_BLOCK_COUNT ∧
        ∀ i, j ≤ i → i < j + 3 → block_allocated heapAfterFree.pages i = false) → k0 ≤ j)) :=
  ⟨by decide, by decide, by decide, by decide,
    heap_alloc_impl_first_fit defaultConfig (by decide) heapAfterFree 192 3 9 (by decide)
      (by decide) (by decide) (by intro i h1 h2; interval_cases i <;> decide)⟩

/-! ## Every operation keeps a heap well formed -/

theorem sas_flat_wf (fb bc : Nat) (al : Bool) (cur : Nat) (pages : List Nat) :
    (sas_flat fb bc al cur pages).val.length = pages.length ∧
    ((∀ p ∈ pages, p < 256) → ∀ p ∈ (sas_flat fb bc al cur pages).val, p < 256) := by
  unfold sas_flat
  split
  · split
    · split
      · exact ⟨by simp [Ctl.val, length_clear_next_block, length_mark_block],
          fun h => bytes_clear_next_block _ _ (bytes_mark_block _ _ h)⟩
      · exact ⟨by simp [Ctl.val, length_mark_block], fun h => bytes_mark_block _ _ h⟩
    · split
      · split
        · exact ⟨by simp [Ctl.val, length_clear_block], fun h => bytes_clear_block _ _ h⟩
        · exact ⟨by simp [Ctl.val, length_clear_block], fun h => bytes_clear_block _ _ h⟩
      · exact ⟨rfl, fun h => h⟩
  · exact ⟨rfl, fun h => h⟩

theorem forFlat_sas_wf (fb bc : Nat) (al : Bool) :
    ∀ (k cur : Nat) (pages : List Nat),
      (forFlat (sas_flat fb bc al) k cur pages).val.length = pages.length ∧
      ((∀ p ∈ pages, p < 256) → ∀ p ∈ (forFlat (sas_flat fb bc al) k cur pages).val, p < 256) := by
  intro k
  induction k with
  | zero => intro cur pages; exact ⟨rfl, fun h => h⟩
  | succ k ih =>
    intro cur pages
    have hs := sas_flat_wf fb bc al cur pages
    simp only [forFlat]
    cases hb : sas_flat fb bc al cur pages with
    | next s1 =>
      rw [hb] at hs
      simp only [Ctl.val] at hs
      obtain ⟨i1, i2⟩ := ih (cur + 1) s1
      exact ⟨by rw [i1, hs.1], fun h => i2 (hs.2 h)⟩
    | stop s1 =>
      rw [hb] at hs
      exact hs

theorem set_allocation_state_wf (cfg : Config) (pHeap : Heap_t) (fb bc : Nat) (al : Bool)
    (hwf : pHeap.WF cfg) : (set_allocation_state cfg pHeap fb bc al).WF cfg := by
  unfold Heap_t.WF at hwf ⊢
  rw [set_allocation_state_pages]
  obtain ⟨h1, h2⟩ := forFlat_sas_wf fb bc al (4 * (cfg.HEAP_PAGE_COUNT - fb / 4)) (fb / 4 * 4)
    pHeap.pages
  exact ⟨by rw [h1]; exact hwf.1, h2 hwf.2⟩

theorem heap_init_impl_wf (cfg : Config) (base : Nat) : (heap_init_impl cfg base).WF cfg := by
  unfold Heap_t.WF heap_init_impl
  refine ⟨by simp, ?_⟩
  intro p hp
  rw [List.eq_of_mem_replicate hp]
  decide

theorem heap_alloc_impl_wf (cfg : Config) (pHeap : Heap_t) (n_bytes : Nat)
    (hwf : pHeap.WF cfg) : (heap_alloc_impl cfg pHeap n_bytes).1.WF cfg := by
  unfold heap_alloc_impl
  simp only []
  split
  · exact set_allocation_state_wf _ _ _ _ _ hwf
  · exact hwf

theorem heap_free_impl_wf (cfg : Config) (pHeap : Heap_t) (p : Nat)
    (hwf : pHeap.WF cfg) : (heap_free_impl cfg pHeap p).WF cfg := by
  unfold heap_free_impl
  split
  · exact set_allocation_state_wf _ _ _ _ _ hwf
  · exact hwf

theorem heap_truncate_impl_wf (cfg : Config) (pHeap : Heap_t) (p n_bytes : Nat)
    (hwf : pHeap.WF cfg) : (heap_truncate_impl cfg pHeap p n_bytes).WF cfg := by
  unfold heap_truncate_impl
  split
  · exact set_allocation_state_wf _ _ _ _ _ (set_allocation_state_wf _ _ _ _ _ hwf)
  · exact hwf

theorem Reachable.wf (cfg : Config) (pHeap : Heap_t) (h : Reachable cfg pHeap) :
    pHeap.WF cfg := by
  induction h with
  | init base => exact heap_init_impl_wf cfg base
  | alloc pHeap n _ _ ih => exact heap_alloc_impl_wf cfg pHeap n ih
  | free pHeap p _ ih => exact heap_free_impl_wf cfg pHeap p ih
  | truncate pHeap p n _ _ ih => exact heap_truncate_impl_wf cfg pHeap p n ih

/-- C3 (a failed allocation changes nothing). For every tracker state and every request whose
block count `n = ceil (n_bytes / HEAP_BLOCK_SIZE)` exceeds the length of every run of free
blocks (each window of `n` blocks of the arena holds an allocated block), `heap_alloc_impl`
returns the null address and the tracker state it was given, unchanged. -/
theorem heap_alloc_impl_fail_atomic (cfg : Config) (hv : cfg.Valid) (pHeap : Heap_t)
    (n_bytes n : Nat) (hceil : n = ceil_div n_bytes cfg.HEAP_BLOCK_SIZE)
    (hno : ∀ k, k + n ≤ cfg.HEAP_BLOCK_COUNT →
      ∃ i, k ≤ i ∧ i < k + n ∧ block_allocated pHeap.pages i = true) :
    heap_alloc_impl cfg pHeap n_bytes = (pHeap, 0) := by
  rw [← n_blocks_of_eq_ceil_div cfg n_bytes hv.1] at hceil
  subst hceil
  have hn : 1 ≤ n_blocks_of cfg n_bytes := by
    by_contra h0
    have h0 : n_blocks_of cfg n_bytes = 0 := by omega
    obtain ⟨i, h1, h2, _⟩ := hno 0 (by omega)
    omega
  rcases heap_alloc_impl_cases cfg hv pHeap n_bytes hn with ⟨k0, h1, _, _⟩ | ⟨_, h2⟩
  · obtain ⟨i, hi1, hi2, hi3⟩ := hno k0 h1.1
    rw [h1.2 i hi1 hi2] at hi3
    exact Bool.noConfusion hi3
  · exact h2

theorem heap_alloc_impl_fail_atomic_witness :
    defaultConfig.Valid ∧ 128 = ceil_div 8192 defaultConfig.HEAP_BLOCK_SIZE ∧
    (∀ k, k + 128 ≤ defaultConfig.HEAP_BLOCK_COUNT →
      ∃ i, k ≤ i ∧ i < k + 128 ∧ block_allocated heapTwoBlocks.pages i = true) ∧
    heap_alloc_impl defaultConfig heapTwoBlocks 8192 = (heapTwoBlocks, 0) :=
  have hno : ∀ k, k + 128 ≤ defaultConfig.HEAP_BLOCK_COUNT →
      ∃ i, k ≤ i ∧ i < k + 128 ∧ block_allocated heapTwoBlocks.pages i = true := by
    intro k hk
    have hk0 : k = 0 := by
      have : defaultConfig.HEAP_BLOCK_COUNT = 128 := by decide
      omega
    subst hk0
    exact ⟨0, by decide, by decide, by decide⟩
  ⟨by decide, by decide, hno,
    heap_alloc_impl_fail_atomic defaultConfig (by decide) heapTwoBlocks 8192 128 (by decide) hno⟩

theorem heap_alloc_impl_success (cfg : Config) (hv : cfg.Valid) (pHeap : Heap_t) (n_bytes : Nat)
    (hn : 1 ≤ n_blocks_of cfg n_bytes) (hp : (heap_alloc_impl cfg pHeap n_bytes).2 ≠ 0) :
    ∃ k0, FreeRun pHeap.pages cfg.HEAP_BLOCK_COUNT k0 (n_blocks_of cfg n_bytes) ∧
      (∀ j, FreeRun pHeap.pages cfg.HEAP_BLOCK_COUNT j (n_blocks_of cfg n_bytes) → k0 ≤ j) ∧
      heap_alloc_impl cfg pHeap n_bytes =
        (set_allocation_state cfg pHeap k0 (n_blocks_of cfg n_bytes) true,
          pHeap.p_base_addr + k0 * cfg.HEAP_BLOCK_SIZE) := by
  rcases heap_alloc_impl_cases cfg hv pHeap n_bytes hn with h | ⟨_, h2⟩
  · exact h
  · rw [h2] at hp
    exact absurd rfl hp

theorem free_count_congr (pages pages' : List Nat) :
    ∀ m, (∀ i, i < m → block_allocated pages' i = block_allocated pages i) →
      free_count pages' m = free_count pages m := by
  intro m
  induction m with
  | zero => intro _; rfl
  | succ m ih =>
    intro h
    simp only [free_count]
    rw [ih (fun i hi => h i (by omega)), h m (by omega)]

theorem available_space_lt (cfg : Config) (hv : cfg.Valid) (pages : List Nat) :
    free_count pages (4 * cfg.HEAP_PAGE_COUNT) * cfg.HEAP_BLOCK_SIZE < 4294967296 := by
  apply hv.bytes
  rw [← hv.blocks]
  exact free_count_le _ _

/-- The state after marking a run of free blocks: flags and available space. -/
theorem set_allocation_state_mark_free (cfg : Config) (hv : cfg.Valid) (pHeap : Heap_t)
    (hwf : pHeap.WF cfg) (k n : Nat) (hn : 1 ≤ n)
    (hrun : FreeRun pHeap.pages cfg.HEAP_BLOCK_COUNT k n) :
    (∀ i, k ≤ i → i < k + n →
      block_allocated (set_allocation_state cfg pHeap k n true).pages i = true ∧
      block_has_next (set_allocation_state cfg pHeap k n true).pages i =
        decide (i + 1 < k + n)) ∧
    (∀ i, ¬ (k ≤ i ∧ i < k + n) →
      block_allocated (set_allocation_state cfg pHeap k n true).pages i =
        block_allocated pHeap.pages i ∧
      block_has_next (set_allocation_state cfg pHeap k n true).pages i =
        block_has_next pHeap.pages i) ∧
    heap_available_space_impl cfg (set_allocation_state cfg pHeap k n true) +
      n * cfg.HEAP_BLOCK_SIZE = heap_available_space_impl cfg pHeap := by
  have hN : k + n ≤ 4 * cfg.HEAP_PAGE_COUNT := by rw [hv.blocks]; exact hrun.1
  have h32 : k + n < 4294967296 := by
    have := hv.count_lt
    have := hrun.1
    omega
  obtain ⟨_, m2, m3, _⟩ := set_allocation_state_mark cfg pHeap k n hwf.1 hn hN h32
  refine ⟨?_, ?_, ?_⟩
  · intro i h1 h2
    rw [m2 i, m3 i, if_pos ⟨h1, h2⟩, if_pos ⟨h1, h2⟩]
    exact ⟨rfl, rfl⟩
  · intro i hi
    rw [m2 i, m3 i, if_neg hi, if_neg hi]
    exact ⟨rfl, rfl⟩
  · rw [heap_available_space_impl_eq, heap_available_space_impl_eq,
      u32_of_lt _ (available_space_lt cfg hv _), u32_of_lt _ (available_space_lt cfg hv _)]
    have hc := free_count_mark pHeap.pages (set_allocation_state cfg pHeap k n true).pages k n
      (by
        intro i h1 h2
        refine ⟨hrun.2 i h1 h2, ?_⟩
        rw [m2 i, if_pos ⟨h1, h2⟩])
      (by
        intro i hi
        rw [m2 i, if_neg hi])
      (4 * cfg.HEAP_PAGE_COUNT)
    have hmin : min (4 * cfg.HEAP_PAGE_COUNT) (k + n) - min (4 * cfg.HEAP_PAGE_COUNT) k = n := by
      omega
    rw [hmin] at hc
    rw [← hc, Nat.add_mul]

/-- C10 (effect of a successful allocation). For every tracker state and every request of
`n = ceil (n_bytes / HEAP_BLOCK_SIZE) ≥ 1` blocks for which `heap_alloc_impl` returns an
address, the address is that of a block `k` with: the blocks of `[k, k + n)` were all free; they
are all allocated afterwards, with `has_next` set on `k .. k + n - 2` and clear on
`k + n - 1`; the flags of every other block are unchanged; and the available space has gone
down by exactly `n * HEAP_BLOCK_SIZE`. -/
theorem heap_alloc_impl_frame (cfg : Config) (hv : cfg.Valid) (pHeap : Heap_t)
    (hwf : pHeap.WF cfg) (n_bytes n : Nat) (hceil : n = ceil_div n_bytes cfg.HEAP_BLOCK_SIZE)
    (hn : 1 ≤ n) (hp : (heap_alloc_impl cfg pHeap n_bytes).2 ≠ 0) :
    ∃ k, (heap_alloc_impl cfg pHeap n_bytes).2 = pHeap.p_base_addr + k * cfg.HEAP_BLOCK_SIZE ∧
      k + n ≤ cfg.HEAP_BLOCK_COUNT ∧
      (∀ i, k ≤ i → i < k + n → block_allocated pHeap.pages i = false) ∧
      (∀ i, k ≤ i → i < k + n →
        block_allocated (heap_alloc_impl cfg pHeap n_bytes).1.pages i = true ∧
        block_has_next (heap_alloc_impl cfg pHeap n_bytes).1.pages i = decide (i + 1 < k + n)) ∧
      (∀ i, ¬ (k ≤ i ∧ i < k + n) →
        block_allocated (heap_alloc_impl cfg pHeap n_bytes).1.pages i =
          block_allocated pHeap.pages i ∧
        block_has_next (heap_alloc_impl cfg pHeap n_bytes).1.pages i =
          block_has_next pHeap.pages i) ∧
      heap_available_space_impl cfg (heap_alloc_impl cfg pHeap n_bytes).1 +
        n * cfg.HEAP_BLOCK_SIZE = heap_available_space_impl cfg pHeap := by
  rw [← n_blocks_of_eq_ceil_div cfg n_bytes hv.1] at hceil
  subst hceil
  obtain ⟨k, hrun, _, heq⟩ := heap_alloc_impl_success cfg hv pHeap n_bytes hn hp
  obtain ⟨f1, f2, f3⟩ := set_allocation_state_mark_free cfg hv pHeap hwf k _ hn hrun
  rw [heq]
  exact ⟨k, rfl, hrun.1, hrun.2, f1, f2, f3⟩

theorem heap_alloc_impl_frame_witness :
    defaultConfig.Valid ∧ heapAfterFree.WF defaultConfig ∧
    2 = ceil_div 85 defaultConfig.HEAP_BLOCK_SIZE ∧ 1 ≤ 2 ∧
    (heap_alloc_impl defaultConfig heapAfterFree 85).2 ≠ 0 ∧
    ∃ k, (heap_alloc_impl defaultConfig heapAfterFree 85).2 =
        heapAfterFree.p_base_addr + k * defaultConfig.HEAP_BLOCK_SIZE ∧
      k + 2 ≤ defaultConfig.HEAP_BLOCK_COUNT ∧
      (∀ i, k ≤ i → i < k + 2 → block_allocated heapAfterFree.pages i = false) ∧
      (∀ i, k ≤ i → i < k + 2 →
        block_allocated (heap_alloc_impl defaultConfig heapAfterFree 85).1.pages i = true ∧
        block_has_next (heap_alloc_impl defaultConfig heapAfterFree 85).1.pages i =
          decide (i + 1 < k + 2)) ∧
      (∀ i, ¬ (k ≤ i ∧ i < k + 2) →
        block_allocated (heap_alloc_impl defaultConfig heapAfterFree 85).1.pages i =
          block_allocated heapAfterFree.pages i ∧
        block_has_next (heap_alloc_impl defaultConfig heapAfterFree 85).1.pages i =
          block_has_next heapAfterFree.pages i) ∧
      heap_available_space_impl defaultConfig (heap_alloc_impl defaultConfig heapAfterFree 85).1 +
        2 * defaultConfig.HEAP_BLOCK_SIZE = heap_available_space_impl defaultConfig heapAfterFree :=
  ⟨by decide, by decide, by decide, by decide, by decide,
    heap_alloc_impl_frame defaultConfig (by decide) heapAfterFree (by decide) 85 2 (by decide)
      (by decide) (by decide)⟩

theorem n_blocks_of_pos (cfg : Config) (n_bytes : Nat) (hbs : 0 < cfg.HEAP_BLOCK_SIZE)
    (h0 : 0 < n_bytes) : 1 ≤ n_blocks_of cfg n_bytes := by
  unfold n_blocks_of
  by_cases hr : n_bytes % cfg.HEAP_BLOCK_SIZE ≠ 0
  · rw [if_pos hr]; exact Nat.le_add_left _ _
  · rw [if_neg hr]
    have hdvd : cfg.HEAP_BLOCK_SIZE ∣ n_bytes := Nat.dvd_of_mod_eq_zero (by omega)
    have := Nat.div_pos (Nat.le_of_dvd h0 hdvd) hbs
    omega

/-- After a run of `n ≥ 1` blocks is marked from `k`, the walk along `has_next` from `k` visits
exactly these `n` blocks. -/
theorem chain_after_mark (cfg : Config) (hv : cfg.Valid) (pHeap : Heap_t)
    (hwf : pHeap.WF cfg) (k n : Nat) (hn : 1 ≤ n) (hN : k + n ≤ cfg.HEAP_BLOCK_COUNT) :
    Chain (set_allocation_state cfg pHeap k n true).pages (4 * cfg.HEAP_PAGE_COUNT) k n := by
  have hN2 : k + n ≤ 4 * cfg.HEAP_PAGE_COUNT := by rw [hv.blocks]; exact hN
  have h32 : k + n < 4294967296 := by
    have := hv.count_lt
    omega
  obtain ⟨_, _, m3, _⟩ := set_allocation_state_mark cfg pHeap k n hwf.1 hn hN2 h32
  refine ⟨hn, hN2, ?_, ?_⟩
  · intro i h1 h2
    rw [m3 i, if_pos ⟨h1, by omega⟩]
    simpa using h2
  · intro _
    rw [m3, if_pos ⟨by omega, by omega⟩]
    simp
    omega

/-- C2 (size of a fresh allocation). For every tracker state reachable from
`heap_init_impl` and every `n_bytes` with `0 < n_bytes ≤ HEAP_TOTAL_SIZE` for which
`heap_alloc_impl` returns an address `p`, `heap_block_size_impl` of `p` in the new state is
`ceil (n_bytes / HEAP_BLOCK_SIZE) * HEAP_BLOCK_SIZE`. -/
theorem heap_block_size_impl_alloc (cfg : Config) (hv : cfg.Valid) (pHeap : Heap_t)
    (hr : Reachable cfg pHeap) (n_bytes : Nat) (h0 : 0 < n_bytes)
    (_hle : n_bytes ≤ cfg.HEAP_TOTAL_SIZE)
    (hp : (heap_alloc_impl cfg pHeap n_bytes).2 ≠ 0) :
    heap_block_size_impl cfg (heap_alloc_impl cfg pHeap n_bytes).1
        (heap_alloc_impl cfg pHeap n_bytes).2 =
      ceil_div n_bytes cfg.HEAP_BLOCK_SIZE * cfg.HEAP_BLOCK_SIZE := by
  have hwf := hr.wf
  have hn := n_blocks_of_pos cfg n_bytes hv.1 h0
  rw [← n_blocks_of_eq_ceil_div cfg n_bytes hv.1]
  obtain ⟨k, hrun, _, heq⟩ := heap_alloc_impl_success cfg hv pHeap n_bytes hn hp
  rw [heq]
  simp only []
  have hch := chain_after_mark cfg hv pHeap hwf k _ hn hrun.1
  have hk32 : k < 4294967296 := by
    have := hv.count_lt
    have := hrun.1
    omega
  have hbn : block_number_by_addr cfg (set_allocation_state cfg pHeap k (n_blocks_of cfg n_bytes) true)
      (pHeap.p_base_addr + k * cfg.HEAP_BLOCK_SIZE) = k := by
    have := block_number_by_addr_block cfg
      (set_allocation_state cfg pHeap k (n_blocks_of cfg n_bytes) true) k hv.1 hk32
    rw [set_allocation_state_base] at this
    exact this
  rw [heap_block_size_impl_chain cfg _ _ (n_blocks_of cfg n_bytes) (by rw [hbn]; exact hch)]
  exact u32_of_lt _ (hv.bytes cfg _ (by have := hrun.1; omega))

theorem heap_block_size_impl_alloc_witness :
    defaultConfig.Valid ∧ Reachable defaultConfig heapTwoBlocks ∧ 0 < 85 ∧
    85 ≤ defaultConfig.HEAP_TOTAL_SIZE ∧
    (heap_alloc_impl defaultConfig heapTwoBlocks 85).2 ≠ 0 ∧
    heap_block_size_impl defaultConfig (heap_alloc_impl defaultConfig heapTwoBlocks 85).1
        (heap_alloc_impl defaultConfig heapTwoBlocks 85).2 =
      ceil_div 85 defaultConfig.HEAP_BLOCK_SIZE * defaultConfig.HEAP_BLOCK_SIZE :=
  have hr : Reachable defaultConfig heapTwoBlocks :=
    Reachable.alloc _ 128 (by decide) (Reachable.init 1000)
  ⟨by decide, hr, by decide, by decide, by decide,
    heap_block_size_impl_alloc defaultConfig (by decide) heapTwoBlocks hr 85 (by decide)
      (by decide) (by decide)⟩

/-- Releasing the address of a chunk of `c` blocks that starts at block `k` of the arena. -/
theorem heap_free_impl_chain (cfg : Config) (hv : cfg.Valid) (pHeap : Heap_t)
    (hwf : pHeap.WF cfg) (k c : Nat)
    (hch : Chain pHeap.pages (4 * cfg.HEAP_PAGE_COUNT) k c) :
    (∀ i, block_allocated
        (heap_free_impl cfg pHeap (pHeap.p_base_addr + k * cfg.HEAP_BLOCK_SIZE)).pages i =
      if k ≤ i ∧ i < k + c then false else block_allocated pHeap.pages i) ∧
    (∀ i, block_has_next
        (heap_free_impl cfg pHeap (pHeap.p_base_addr + k * cfg.HEAP_BLOCK_SIZE)).pages i =
      if k ≤ i ∧ i < k + c then false else block_has_next pHeap.pages i) := by
  have hkN : k + c ≤ cfg.HEAP_BLOCK_COUNT := by rw [← hv.blocks]; exact hch.2.1
  have hk32 : k < 4294967296 := by
    have := hv.count_lt
    omega
  have hin : pHeap.p_base_addr + k * cfg.HEAP_BLOCK_SIZE ≥ pHeap.p_base_addr ∧
      pHeap.p_base_addr + k * cfg.HEAP_BLOCK_SIZE ≤ pHeap.p_base_addr + cfg.HEAP_TOTAL_SIZE := by
    have h1 : cfg.HEAP_BLOCK_COUNT * cfg.HEAP_BLOCK_SIZE ≤ cfg.HEAP_TOTAL_SIZE :=
      Nat.div_mul_le_self _ _
    have h3 : k * cfg.HEAP_BLOCK_SIZE ≤ cfg.HEAP_BLOCK_COUNT * cfg.HEAP_BLOCK_SIZE :=
      Nat.mul_le_mul_right _ (by omega)
    omega
  unfold heap_free_impl
  rw [if_pos hin]
  simp only []
  rw [block_number_by_addr_block cfg pHeap k hv.1 hk32]
  obtain ⟨_, c2, c3, _⟩ := set_allocation_state_clear cfg pHeap k 0 c hwf.1 hch
  exact ⟨c2, c3⟩

/-- C5, as stated, fails for a request of 0 bytes: on the heap with block 0 in use,
`heap_alloc_impl` with 0 bytes returns the address of block 0 (the arena base, 1000) and
changes nothing, and releasing that address frees the live block, so the available space
goes from 8128 to 8192. -/
theorem heap_free_impl_alloc_zero_counterexample :
    Reachable defaultConfig heapOneBlock ∧
    (heap_alloc_impl defaultConfig heapOneBlock 0).2 = 1000 ∧
    heap_available_space_impl defaultConfig heapOneBlock = 8128 ∧
    heap_available_space_impl defaultConfig
      (heap_free_impl defaultConfig (heap_alloc_impl defaultConfig heapOneBlock 0).1
        (heap_alloc_impl defaultConfig heapOneBlock 0).2) = 8192 :=
  ⟨Reachable.alloc _ 64 (by decide) (Reachable.init 1000), by decide, by decide, by decide⟩

/-- C5, amended (allocate, then free). For every tracker state reachable from
`heap_init_impl` and every request of `n_bytes > 0` for which `heap_alloc_impl` returns an
address `p`, `heap_free_impl` of `p` right afterwards makes the available space equal to the
value it had before the allocation. -/
theorem heap_free_impl_alloc_available_space (cfg : Config) (hv : cfg.Valid) (pHeap : Heap_t)
    (hr : Reachable cfg pHeap) (n_bytes : Nat) (h0 : 0 < n_bytes)
    (hp : (heap_alloc_impl cfg pHeap n_bytes).2 ≠ 0) :
    heap_available_space_impl cfg
        (heap_free_impl cfg (heap_alloc_impl cfg pHeap n_bytes).1
          (heap_alloc_impl cfg pHeap n_bytes).2) =
      heap_available_space_impl cfg pHeap := by
  have hwf := hr.wf
  have hn := n_blocks_of_pos cfg n_bytes hv.1 h0
  obtain ⟨k, hrun, _, heq⟩ := heap_alloc_impl_success cfg hv pHeap n_bytes hn hp
  rw [heq]
  simp only []
  have hch := chain_after_mark cfg hv pHeap hwf k _ hn hrun.1
  have hwf1 := set_allocation_state_wf cfg pHeap k (n_blocks_of cfg n_bytes) true hwf
  obtain ⟨f1, _⟩ := heap_free_impl_chain cfg hv _ hwf1 k _ hch
  rw [set_allocation_state_base] at f1
  obtain ⟨_, m2, _⟩ := set_allocation_state_mark_free cfg hv pHeap hwf k _ hn hrun
  rw [heap_available_space_impl_eq, heap_available_space_impl_eq]
  congr 2
  apply free_count_congr
  intro i _
  rw [f1 i]
  by_cases hi : k ≤ i ∧ i < k + n_blocks_of cfg n_bytes
  · rw [if_pos hi, hrun.2 i hi.1 hi.2]
  · rw [if_neg hi]
    exact (m2 i hi).1

theorem heap_free_impl_alloc_available_space_witness :
    defaultConfig.Valid ∧ Reachable defaultConfig heapOneBlock ∧ 0 < 13 ∧
    (heap_alloc_impl defaultConfig heapOneBlock 13).2 ≠ 0 ∧
    heap_available_space_impl defaultConfig
        (heap_free_impl defaultConfig (heap_alloc_impl defaultConfig heapOneBlock 13).1
          (heap_alloc_impl defaultConfig heapOneBlock 13).2) =
      heap_available_space_impl defaultConfig heapOneBlock :=
  have hr : Reachable defaultConfig heapOneBlock :=
    Reachable.alloc _ 64 (by decide) (Reachable.init 1000)
  ⟨by decide, hr, by decide, by decide,
    heap_free_impl_alloc_available_space defaultConfig (by decide) heapOneBlock hr 13
      (by decide) (by decide)⟩

/-- C7 (no growth in place). For every tracker state, every address `p` and every `n_bytes`
not below `heap_block_size_impl` of `p`, `heap_truncate_impl` returns the tracker state it was
given: all block flags and the base address are unchanged. -/
theorem heap_truncate_impl_not_smaller (cfg : Config) (pHeap : Heap_t) (p n_bytes : Nat)
    (h : n_bytes ≥ heap_block_size_impl cfg pHeap p) :
    heap_truncate_impl cfg pHeap p n_bytes = pHeap := by
  unfold heap_truncate_impl
  rw [if_neg (by omega)]

theorem heap_truncate_impl_not_smaller_witness :
    192 ≥ heap_block_size_impl defaultConfig heapAfterFree 1000 ∧
    heap_truncate_impl defaultConfig heapAfterFree 1000 192 = heapAfterFree :=
  ⟨by decide, heap_truncate_impl_not_smaller defaultConfig heapAfterFree 1000 192 (by decide)⟩

/-- C8 (addresses outside the arena). For every tracker state and every address `p` below the
base address or above `base + HEAP_TOTAL_SIZE`, `heap_free_impl` returns the tracker state it
was given, unchanged. -/
theorem heap_free_impl_outside (cfg : Config) (pHeap : Heap_t) (p : Nat)
    (h : p < pHeap.p_base_addr ∨ pHeap.p_base_addr + cfg.HEAP_TOTAL_SIZE < p) :
    heap_free_impl cfg pHeap p = pHeap := by
  unfold heap_free_impl
  rw [if_neg (by omega)]

theorem heap_free_impl_outside_witness :
    (999 < heapAfterFree.p_base_addr ∨
      heapAfterFree.p_base_addr + defaultConfig.HEAP_TOTAL_SIZE < 999) ∧
    heap_free_impl defaultConfig heapAfterFree 999 = heapAfterFree :=
  ⟨Or.inl (by decide), heap_free_impl_outside defaultConfig heapAfterFree 999 (Or.inl (by decide))⟩

/-! ## A sequence of allocations on a fresh heap -/

theorem block_allocated_init (cfg : Config) (base i : Nat) :
    block_allocated (heap_init_impl cfg base).pages i = false := by
  unfold block_allocated heap_init_impl
  have : (List.replicate cfg.HEAP_PAGE_COUNT 0).getD (i / HEAP_PAGE_BLOCKS) 0 = 0 := by
    rw [List.getD_eq_getElem?_getD]
    cases h : (List.replicate cfg.HEAP_PAGE_COUNT 0)[i / HEAP_PAGE_BLOCKS]? with
    | none => rfl
    | some v =>
      simp only [Option.getD_some]
      exact List.eq_of_mem_replicate (List.getElem?_mem h)
  simp [this]

theorem block_has_next_init (cfg : Config) (base i : Nat) :
    block_has_next (heap_init_impl cfg base).pages i = false := by
  unfold block_has_next heap_init_impl
  have : (List.replicate cfg.HEAP_PAGE_COUNT 0).getD (i / HEAP_PAGE_BLOCKS) 0 = 0 := by
    rw [List.getD_eq_getElem?_getD]
    cases h : (List.replicate cfg.HEAP_PAGE_COUNT 0)[i / HEAP_PAGE_BLOCKS]? with
    | none => rfl
    | some v =>
      simp only [Option.getD_some]
      exact List.eq_of_mem_replicate (List.getElem?_mem h)
  simp [this]

/-- On a heap whose first `t` blocks are in use and whose other blocks are free, a request of
`c ≥ 1` blocks that fits is placed at block `t`. -/
theorem heap_alloc_impl_packed (cfg : Config) (hv : cfg.Valid) (pHeap : Heap_t)
    (hwf : pHeap.WF cfg) (t s : Nat)
    (hfl : ∀ i, block_allocated pHeap.pages i = decide (i < t)) (hs : 0 < s)
    (hfit : t + ceil_div s cfg.HEAP_BLOCK_SIZE ≤ cfg.HEAP_BLOCK_COUNT) :
    (heap_alloc_impl cfg pHeap s).2 = pHeap.p_base_addr + cfg.HEAP_BLOCK_SIZE * t ∧
    (heap_alloc_impl cfg pHeap s).1.WF cfg ∧
    (heap_alloc_impl cfg pHeap s).1.p_base_addr = pHeap.p_base_addr ∧
    (∀ i, block_allocated (heap_alloc_impl cfg pHeap s).1.pages i =
      decide (i < t + ceil_div s cfg.HEAP_BLOCK_SIZE)) := by
  have hn := n_blocks_of_pos cfg s hv.1 hs
  rw [← n_blocks_of_eq_ceil_div cfg s hv.1] at hfit ⊢
  have hrun : FreeRun pHeap.pages cfg.HEAP_BLOCK_COUNT t (n_blocks_of cfg s) := by
    refine ⟨hfit, ?_⟩
    intro i h1 _
    rw [hfl i]
    simpa using h1
  rcases heap_alloc_impl_cases cfg hv pHeap s hn with ⟨k0, h1, h2, h3⟩ | ⟨h1, _⟩
  · have hle : k0 ≤ t := h2 t hrun
    have hge : t ≤ k0 := by
      by_contra hlt
      have := h1.2 k0 (Nat.le_refl _) (by omega)
      rw [hfl k0] at this
      simp at this
      omega
    have hk : k0 = t := by omega
    subst hk
    obtain ⟨_, m2, _⟩ := set_allocation_state_mark_free cfg hv pHeap hwf k0 _ hn hrun
    obtain ⟨m1, _, _⟩ := set_allocation_state_mark_free cfg hv pHeap hwf k0 _ hn hrun
    rw [h3]
    refine ⟨by simp only []; rw [Nat.mul_comm], set_allocation_state_wf _ _ _ _ _ hwf, rfl, ?_⟩
    intro i
    simp only []
    by_cases hi : k0 ≤ i ∧ i < k0 + n_blocks_of cfg s
    · rw [(m1 i hi.1 hi.2).1]
      symm
      simpa using hi.2
    · rw [(m2 i hi).1, hfl i]
      have : (i < k0) ↔ (i < k0 + n_blocks_of cfg s) := by omega
      simp [this]
  · exact absurd hrun (h1 t)

theorem alloc_all_packed (cfg : Config) (hv : cfg.Valid) :
    ∀ (sizes : List Nat) (pHeap : Heap_t) (t : Nat), pHeap.WF cfg →
      (∀ i, block_allocated pHeap.pages i = decide (i < t)) →
      (∀ s ∈ sizes, 0 < s) →
      t + (sizes.map (fun s => ceil_div s cfg.HEAP_BLOCK_SIZE)).sum ≤ cfg.HEAP_BLOCK_COUNT →
      (alloc_all cfg pHeap sizes).2 = packed_addrs cfg pHeap.p_base_addr t sizes ∧
      (∀ i, block_allocated (alloc_all cfg pHeap sizes).1.pages i =
        decide (i < t + (sizes.map (fun s => ceil_div s cfg.HEAP_BLOCK_SIZE)).sum)) := by
  intro sizes
  induction sizes with
  | nil =>
    intro pHeap t _ hfl _ _
    exact ⟨rfl, by simpa [alloc_all] using hfl⟩
  | cons s ss ih =>
    intro pHeap t hwf hfl hpos hsum
    simp only [List.map_cons, List.sum_cons] at hsum ⊢
    obtain ⟨a1, a2, a3, a4⟩ := heap_alloc_impl_packed cfg hv pHeap hwf t s hfl
      (hpos s (List.mem_cons_self _ _)) (by omega)
    obtain ⟨i1, i2⟩ := ih (heap_alloc_impl cfg pHeap s).1 (t + ceil_div s cfg.HEAP_BLOCK_SIZE)
      a2 a4 (fun x hx => hpos x (List.mem_cons_of_mem _ hx)) (by omega)
    simp only [alloc_all, packed_addrs]
    refine ⟨by rw [a1, i1, a3], ?_⟩
    intro i
    rw [i2 i, Nat.add_assoc]

theorem packed_addrs_aligned (cfg : Config) (base : Nat) :
    ∀ (sizes : List Nat) (t : Nat), ∀ p ∈ packed_addrs cfg base t sizes,
      base ≤ p ∧ (p - base) % cfg.HEAP_BLOCK_SIZE = 0 := by
  intro sizes
  induction sizes with
  | nil => intro t p hp; simp [packed_addrs] at hp
  | cons s ss ih =>
    intro t p hp
    simp only [packed_addrs, List.mem_cons] at hp
    rcases hp with hp | hp
    · subst hp
      exact ⟨by omega, by rw [Nat.add_sub_cancel_left]; exact Nat.mul_mod_right _ _⟩
    · exact ih _ p hp

theorem packed_addrs_ge (cfg : Config) (base : Nat) :
    ∀ (sizes : List Nat) (t : Nat), ∀ r ∈ byte_ranges cfg (packed_addrs cfg base t sizes) sizes,
      base + cfg.HEAP_BLOCK_SIZE * t ≤ r.1 := by
  intro sizes
  induction sizes with
  | nil => intro t r hr; simp [packed_addrs, byte_ranges] at hr
  | cons s ss ih =>
    intro t r hr
    simp only [packed_addrs, byte_ranges, List.mem_cons] at hr
    rcases hr with hr | hr
    · subst hr; exact Nat.le_refl _
    · have := ih _ r hr
      rw [Nat.mul_add] at this
      omega

theorem packed_addrs_disjoint (cfg : Config) (base : Nat) :
    ∀ (sizes : List Nat) (t : Nat),
      (byte_ranges cfg (packed_addrs cfg base t sizes) sizes).Pairwise
        (fun a b => a.2 ≤ b.1) := by
  intro sizes
  induction sizes with
  | nil => intro t; simp [packed_addrs, byte_ranges]
  | cons s ss ih =>
    intro t
    simp only [packed_addrs, byte_ranges, List.pairwise_cons]
    refine ⟨?_, ih _⟩
    intro r hr
    have := packed_addrs_ge cfg base ss _ r hr
    rw [Nat.mul_add, Nat.mul_comm cfg.HEAP_BLOCK_SIZE (ceil_div s cfg.HEAP_BLOCK_SIZE)] at this
    omega

/-- C4 (allocations on a fresh heap). From a freshly initialised tracker, for every list of
request sizes, each positive, whose block counts `c_i = ceil (s_i / HEAP_BLOCK_SIZE)` sum to
at most `HEAP_BLOCK_COUNT`, the allocations made in order all succeed (in the final state
exactly the first `c_1 + ... + c_m` blocks are in use) and return the addresses
`base + HEAP_BLOCK_SIZE * (c_1 + ... + c_(i-1))`; hence every returned address is block
aligned, and the byte ranges of the allocations are pairwise disjoint (each ends where the
later ones start, or before). -/
theorem alloc_all_fresh (cfg : Config) (hv : cfg.Valid) (base : Nat) (sizes : List Nat)
    (hpos : ∀ s ∈ sizes, 0 < s)
    (hsum : (sizes.map (fun s => ceil_div s cfg.HEAP_BLOCK_SIZE)).sum ≤ cfg.HEAP_BLOCK_COUNT) :
    (alloc_all cfg (heap_init_impl cfg base) sizes).2 = packed_addrs cfg base 0 sizes ∧
    (∀ i, block_allocated (alloc_all cfg (heap_init_impl cfg base) sizes).1.pages i =
      decide (i < (sizes.map (fun s => ceil_div s cfg.HEAP_BLOCK_SIZE)).sum)) ∧
    (∀ p ∈ (alloc_all cfg (heap_init_impl cfg base) sizes).2,
      base ≤ p ∧ (p - base) % cfg.HEAP_BLOCK_SIZE = 0) ∧
    (byte_ranges cfg (alloc_all cfg (heap_init_impl cfg base) sizes).2 sizes).Pairwise
      (fun a b => a.2 ≤ b.1) := by
  have h := alloc_all_packed cfg hv sizes (heap_init_impl cfg base) 0 (heap_init_impl_wf cfg base)
    (by intro i; rw [block_allocated_init]; simp) hpos (by omega)
  have hb : (heap_init_impl cfg base).p_base_addr = base := rfl
  rw [hb] at h
  obtain ⟨h1, h2⟩ := h
  rw [h1]
  refine ⟨rfl, ?_, packed_addrs_aligned cfg base sizes 0, packed_addrs_disjoint cfg base sizes 0⟩
  intro i
  rw [h2 i, Nat.zero_add]

theorem alloc_all_fresh_witness :
    defaultConfig.Valid ∧ (∀ s ∈ [128, 13, 85, 192], 0 < s) ∧
    (([128, 13, 85, 192] : List Nat).map
      (fun s => ceil_div s defaultConfig.HEAP_BLOCK_SIZE)).sum ≤ defaultConfig.HEAP_BLOCK_COUNT ∧
    (alloc_all defaultConfig (heap_init_impl defaultConfig 1000) [128, 13, 85, 192]).2 =
      packed_addrs defaultConfig 1000 0 [128, 13, 85, 192] ∧
    (∀ i, block_allocated
        (alloc_all defaultConfig (heap_init_impl defaultConfig 1000) [128, 13, 85, 192]).1.pages i =
      decide (i < (([128, 13, 85, 192] : List Nat).map
        (fun s => ceil_div s defaultConfig.HEAP_BLOCK_SIZE)).sum)) ∧
    (∀ p ∈ (alloc_all defaultConfig (heap_init_impl defaultConfig 1000) [128, 13, 85, 192]).2,
      1000 ≤ p ∧ (p - 1000) % defaultConfig.HEAP_BLOCK_SIZE = 0) ∧
    (byte_ranges defaultConfig
      (alloc_all defaultConfig (heap_init_impl defaultConfig 1000) [128, 13, 85, 192]).2
      [128, 13, 85, 192]).Pairwise (fun a b => a.2 ≤ b.1) :=
  ⟨by decide, by decide, by decide,
    alloc_all_fresh defaultConfig (by decide) 1000 [128, 13, 85, 192] (by decide) (by decide)⟩

/-! ## Chunks -/

theorem IsChunk.chain {pages : List Nat} {N f c : Nat} (h : IsChunk pages N f c) :
    Chain pages N f c :=
  ⟨h.1, h.2.1, h.2.2.2.1, fun _ => h.2.2.2.2.1⟩

/-- Two chunks with different first blocks do not overlap. -/
theorem IsChunk.disjoint {pages : List Nat} {N f c g d : Nat} (h1 : IsChunk pages N f c)
    (h2 : IsChunk pages N g d) (hne : g ≠ f) : g + d ≤ f ∨ f + c ≤ g := by
  obtain ⟨_, _, _, hn1, _, hs1⟩ := h1
  obtain ⟨_, _, _, hn2, _, hs2⟩ := h2
  by_contra hcon
  rcases Nat.lt_or_gt_of_ne hne with hlt | hgt
  · have ha := hn2 (f - 1) (by omega) (by omega)
    rw [hs1 (f - 1) (by omega)] at ha
    exact Bool.noConfusion ha
  · have ha := hn1 (g - 1) (by omega) (by omega)
    rw [hs2 (g - 1) (by omega)] at ha
    exact Bool.noConfusion ha

/-- Clearing a chunk keeps the `has_next` flags well formed and keeps every other chunk. -/
theorem inv_clear (pages pages' : List Nat) (N f c : Nat)
    (hA : ∀ i, block_allocated pages' i =
      if f ≤ i ∧ i < f + c then false else block_allocated pages i)
    (hH : ∀ i, block_has_next pages' i =
      if f ≤ i ∧ i < f + c then false else block_has_next pages i)
    (hch : IsChunk pages N f c) (hwf : ChainsWF pages N) :
    ChainsWF pages' N ∧
    ∀ g d, IsChunk pages N g d → g ≠ f → IsChunk pages' N g d := by
  constructor
  · intro i hi
    rw [hH i] at hi
    by_cases hr : f ≤ i ∧ i < f + c
    · rw [if_pos hr] at hi; exact Bool.noConfusion hi
    · rw [if_neg hr] at hi
      obtain ⟨w1, w2, w3⟩ := hwf i hi
      have hr2 : ¬ (f ≤ i + 1 ∧ i + 1 < f + c) := by
        intro hin
        have hif : i + 1 = f := by omega
        have := hch.2.2.2.2.2 i hif
        rw [this] at hi
        exact Bool.noConfusion hi
      rw [hA i, hA (i + 1), if_neg hr, if_neg hr2]
      exact ⟨w1, w2, w3⟩
  · intro g d hg hne
    have hdis := hch.disjoint hg hne
    obtain ⟨g1, g2, g3, g4, g5, g6⟩ := hg
    refine ⟨g1, g2, ?_, ?_, ?_, ?_⟩
    · intro i h1 h2
      rw [hA i, if_neg (by omega)]
      exact g3 i h1 h2
    · intro i h1 h2
      rw [hH i, if_neg (by omega)]
      exact g4 i h1 h2
    · rw [hH, if_neg (by omega)]
      exact g5
    · intro j hj
      rw [hH j]
      by_cases hr : f ≤ j ∧ j < f + c
      · rw [if_pos hr]
      · rw [if_neg hr]; exact g6 j hj

/-- Marking a run of free blocks keeps the `has_next` flags well formed, makes the run a chunk
and keeps every chunk there was. -/
theorem inv_mark (pages pages' : List Nat) (N k n : Nat)
    (hA : ∀ i, block_allocated pages' i =
      if k ≤ i ∧ i < k + n then true else block_allocated pages i)
    (hH : ∀ i, block_has_next pages' i =
      if k ≤ i ∧ i < k + n then decide (i + 1 < k + n) else block_has_next pages i)
    (hn : 1 ≤ n) (hrun : FreeRun pages N k n) (hwf : ChainsWF pages N) :
    ChainsWF pages' N ∧ IsChunk pages' N k n ∧
    ∀ g d, IsChunk pages N g d → IsChunk pages' N g d := by
  obtain ⟨hN, hfree⟩ := hrun
  refine ⟨?_, ?_, ?_⟩
  · intro i hi
    rw [hH i] at hi
    by_cases hr : k ≤ i ∧ i < k + n
    · rw [if_pos hr] at hi
      have hi2 : i + 1 < k + n := by simpa using hi
      rw [hA i, hA (i + 1), if_pos hr, if_pos (by omega)]
      exact ⟨rfl, by omega, rfl⟩
    · rw [if_neg hr] at hi
      obtain ⟨w1, w2, w3⟩ := hwf i hi
      refine ⟨?_, w2, ?_⟩
      · rw [hA i, if_neg hr]; exact w1
      · rw [hA (i + 1)]
        split
        · rfl
        · exact w3
  · refine ⟨hn, hN, ?_, ?_, ?_, ?_⟩
    · intro i h1 h2
      rw [hA i, if_pos ⟨h1, h2⟩]
    · intro i h1 h2
      rw [hH i, if_pos ⟨h1, by omega⟩]
      simpa using h2
    · rw [hH, if_pos ⟨by omega, by omega⟩]
      simp
      omega
    · intro j hj
      rw [hH j, if_neg (by omega)]
      cases hjn : block_has_next pages j with
      | false => rfl
      | true =>
        have := (hwf j hjn).2.2
        rw [hj, hfree k (Nat.le_refl _) (by omega)] at this
        exact Bool.noConfusion this
  · intro g d hg
    obtain ⟨g1, g2, g3, g4, g5, g6⟩ := hg
    have hdis : g + d ≤ k ∨ k + n ≤ g := by
      by_contra hcon
      have h1 := g3 (max g k) (by omega) (by omega)
      rw [hfree (max g k) (by omega) (by omega)] at h1
      exact Bool.noConfusion h1
    refine ⟨g1, g2, ?_, ?_, ?_, ?_⟩
    · intro i h1 h2
      rw [hA i, if_neg (by omega)]
      exact g3 i h1 h2
    · intro i h1 h2
      rw [hH i, if_neg (by omega)]
      exact g4 i h1 h2
    · rw [hH, if_neg (by omega)]
      exact g5
    · intro j hj
      rw [hH j]
      by_cases hr : k ≤ j ∧ j < k + n
      · rw [if_pos hr]
        have : ¬ (j + 1 < k + n) := by omega
        simp [this]
      · rw [if_neg hr]; exact g6 j hj

/-! ## The operations on a chunk -/

theorem ceil_div_le (n c b : Nat) (hb : 0 < b) (h : n < c * b) : ceil_div n b ≤ c := by
  unfold ceil_div
  have : (n + b - 1) / b < c + 1 := by
    rw [Nat.div_lt_iff_lt_mul hb, Nat.succ_mul]
    omega
  omega

theorem ceil_div_pos (n b : Nat) (hb : 0 < b) (h : 0 < n) : 1 ≤ ceil_div n b := by
  unfold ceil_div
  exact Nat.div_pos (by omega) hb

/-- The size reported for the first block of a chunk of `c` blocks. -/
theorem heap_block_size_impl_chunk (cfg : Config) (hv : cfg.Valid) (pHeap : Heap_t) (f c : Nat)
    (hch : IsChunk pHeap.pages cfg.HEAP_BLOCK_COUNT f c) :
    heap_block_size_impl cfg pHeap (pHeap.p_base_addr + f * cfg.HEAP_BLOCK_SIZE) =
      c * cfg.HEAP_BLOCK_SIZE := by
  have hc := hch.chain
  have hk32 : f < 4294967296 := by
    have := hv.count_lt
    have := hch.2.1
    omega
  rw [← hv.blocks] at hc
  rw [heap_block_size_impl_chain cfg pHeap _ c
    (by rw [block_number_by_addr_block cfg pHeap f hv.1 hk32]; exact hc)]
  exact u32_of_lt _ (hv.bytes cfg _ (by have := hch.2.1; omega))

/-- Releasing the first block of a chunk. -/
theorem heap_free_impl_chunk (cfg : Config) (hv : cfg.Valid) (pHeap : Heap_t)
    (hwf : pHeap.WF cfg) (hcw : ChainsWF pHeap.pages cfg.HEAP_BLOCK_COUNT) (f c : Nat)
    (hch : IsChunk pHeap.pages cfg.HEAP_BLOCK_COUNT f c) :
    (∀ i, block_allocated
        (heap_free_impl cfg pHeap (pHeap.p_base_addr + f * cfg.HEAP_BLOCK_SIZE)).pages i =
      if f ≤ i ∧ i < f + c then false else block_allocated pHeap.pages i) ∧
    (∀ i, block_has_next
        (heap_free_impl cfg pHeap (pHeap.p_base_addr + f * cfg.HEAP_BLOCK_SIZE)).pages i =
      if f ≤ i ∧ i < f + c then false else block_has_next pHeap.pages i) ∧
    ChainsWF (heap_free_impl cfg pHeap (pHeap.p_base_addr + f * cfg.HEAP_BLOCK_SIZE)).pages
      cfg.HEAP_BLOCK_COUNT ∧
    (∀ g d, IsChunk pHeap.pages cfg.HEAP_BLOCK_COUNT g d → g ≠ f →
      IsChunk (heap_free_impl cfg pHeap (pHeap.p_base_addr + f * cfg.HEAP_BLOCK_SIZE)).pages
        cfg.HEAP_BLOCK_COUNT g d) := by
  have hc := hch.chain
  rw [← hv.blocks] at hc
  obtain ⟨f1, f2⟩ := heap_free_impl_chain cfg hv pHeap hwf f c hc
  obtain ⟨i1, i2⟩ := inv_clear _ _ _ f c f1 f2 hch hcw
  exact ⟨f1, f2, i1, i2⟩

theorem heap_free_impl_base (cfg : Config) (pHeap : Heap_t) (p : Nat) :
    (heap_free_impl cfg pHeap p).p_base_addr = pHeap.p_base_addr := by
  unfold heap_free_impl
  split <;> rfl

theorem heap_truncate_impl_base (cfg : Config) (pHeap : Heap_t) (p n : Nat) :
    (heap_truncate_impl cfg pHeap p n).p_base_addr = pHeap.p_base_addr := by
  unfold heap_truncate_impl
  split <;> rfl

theorem heap_alloc_impl_base (cfg : Config) (pHeap : Heap_t) (n : Nat) :
    (heap_alloc_impl cfg pHeap n).1.p_base_addr = pHeap.p_base_addr := by
  unfold heap_alloc_impl
  simp only []
  split <;> rfl

/-- Truncating a chunk of `c` blocks to `n_bytes` with `0 < n_bytes < c * HEAP_BLOCK_SIZE`. -/
theorem heap_truncate_impl_chunk (cfg : Config) (hv : cfg.Valid) (pHeap : Heap_t)
    (hwf : pHeap.WF cfg) (hcw : ChainsWF pHeap.pages cfg.HEAP_BLOCK_COUNT) (f c n_bytes : Nat)
    (hch : IsChunk pHeap.pages cfg.HEAP_BLOCK_COUNT f c) (h0 : 0 < n_bytes)
    (hlt : n_bytes < c * cfg.HEAP_BLOCK_SIZE) :
    (∀ i, block_allocated (heap_truncate_impl cfg pHeap
        (pHeap.p_base_addr + f * cfg.HEAP_BLOCK_SIZE) n_bytes).pages i =
      if f ≤ i ∧ i < f + c then decide (i < f + ceil_div n_bytes cfg.HEAP_BLOCK_SIZE)
      else block_allocated pHeap.pages i) ∧
    (∀ i, block_has_next (heap_truncate_impl cfg pHeap
        (pHeap.p_base_addr + f * cfg.HEAP_BLOCK_SIZE) n_bytes).pages i =
      if f ≤ i ∧ i < f + c then decide (i + 1 < f + ceil_div n_bytes cfg.HEAP_BLOCK_SIZE)
      else block_has_next pHeap.pages i) ∧
    ChainsWF (heap_truncate_impl cfg pHeap
      (pHeap.p_base_addr + f * cfg.HEAP_BLOCK_SIZE) n_bytes).pages cfg.HEAP_BLOCK_COUNT ∧
    IsChunk (heap_truncate_impl cfg pHeap
      (pHeap.p_base_addr + f * cfg.HEAP_BLOCK_SIZE) n_bytes).pages cfg.HEAP_BLOCK_COUNT f
      (ceil_div n_bytes cfg.HEAP_BLOCK_SIZE) ∧
    (∀ g d, IsChunk pHeap.pages cfg.HEAP_BLOCK_COUNT g d → g ≠ f →
      IsChunk (heap_truncate_impl cfg pHeap
        (pHeap.p_base_addr + f * cfg.HEAP_BLOCK_SIZE) n_bytes).pages cfg.HEAP_BLOCK_COUNT g d) := by
  have hnb1 := ceil_div_pos n_bytes cfg.HEAP_BLOCK_SIZE hv.1 h0
  have hnbc := ceil_div_le n_bytes c cfg.HEAP_BLOCK_SIZE hv.1 hlt
  have hfc : f + c ≤ cfg.HEAP_BLOCK_COUNT := hch.2.1
  have hcnt := hv.count_lt
  have hk32 : f < 4294967296 := by omega
  have hc := hch.chain
  rw [← hv.blocks] at hc
  have hsize := heap_block_size_impl_chunk cfg hv pHeap f c hch
  unfold heap_truncate_impl
  rw [if_pos (by rw [hsize]; exact hlt)]
  simp only []
  rw [block_number_by_addr_block cfg pHeap f hv.1 hk32, n_blocks_of_eq_ceil_div cfg n_bytes hv.1]
  generalize ceil_div n_bytes cfg.HEAP_BLOCK_SIZE = nb at hnb1 hnbc
  -- first call: erase the chunk
  obtain ⟨_, c2, c3, _⟩ := set_allocation_state_clear cfg pHeap f 0 c hwf.1 hc
  obtain ⟨i1, i2⟩ := inv_clear _ _ _ f c c2 c3 hch hcw
  have hwf1 := set_allocation_state_wf cfg pHeap f 0 false hwf
  have hrun : FreeRun (set_allocation_state cfg pHeap f 0 false).pages cfg.HEAP_BLOCK_COUNT f nb := by
    refine ⟨by omega, ?_⟩
    intro i h1 h2
    rw [c2 i, if_pos ⟨h1, by omega⟩]
  -- second call: mark the new size
  obtain ⟨_, m2, m3, _⟩ := set_allocation_state_mark cfg
    (set_allocation_state cfg pHeap f 0 false) f nb hwf1.1 hnb1
    (by rw [hv.blocks]; omega) (by omega)
  obtain ⟨j1, j2, j3⟩ := inv_mark _ _ _ f nb m2 m3 hnb1 hrun i1
  refine ⟨?_, ?_, j1, j2, fun g d hg hne => j3 g d (i2 g d hg hne)⟩
  · intro i
    rw [m2 i, c2 i]
    by_cases h1 : f ≤ i ∧ i < f + nb
    · rw [if_pos h1, if_pos ⟨h1.1, by omega⟩]
      symm
      simpa using h1.2
    · rw [if_neg h1]
      by_cases h2 : f ≤ i ∧ i < f + c
      · rw [if_pos h2, if_pos h2]
        symm
        simp
        omega
      · rw [if_neg h2, if_neg h2]
  · intro i
    rw [m3 i, c3 i]
    by_cases h1 : f ≤ i ∧ i < f + nb
    · rw [if_pos h1, if_pos ⟨h1.1, by omega⟩]
    · rw [if_neg h1]
      by_cases h2 : f ≤ i ∧ i < f + c
      · rw [if_pos h2, if_pos h2]
        symm
        simp
        omega
      · rw [if_neg h2, if_neg h2]

/-! ## Legitimate use keeps every live handle a chunk -/

theorem heap_truncate_impl_guard_false (cfg : Config) (pHeap : Heap_t) (p n_bytes : Nat)
    (h : n_bytes ≥ heap_block_size_impl cfg pHeap p) :
    heap_truncate_impl cfg pHeap p n_bytes = pHeap := by
  unfold heap_truncate_impl
  rw [if_neg (by omega)]

theorem Legit.inv (cfg : Config) (hv : cfg.Valid) (pHeap : Heap_t) (live : List Nat)
    (h : Legit cfg pHeap live) : LiveInv cfg pHeap live := by
  induction h with
  | init base =>
    refine ⟨heap_init_impl_wf cfg base, ?_, ?_⟩
    · intro i hi
      rw [block_has_next_init] at hi
      exact Bool.noConfusion hi
    · intro p hp
      simp at hp
  | alloc pHeap live n_bytes h0 _ _ ih =>
    obtain ⟨hwf, hcw, hlive⟩ := ih
    have hn := n_blocks_of_pos cfg n_bytes hv.1 h0
    rcases heap_alloc_impl_cases cfg hv pHeap n_bytes hn with ⟨k0, h1, _, h3⟩ | ⟨_, h2⟩
    · have hN : k0 + n_blocks_of cfg n_bytes ≤ 4 * cfg.HEAP_PAGE_COUNT := by
        rw [hv.blocks]; exact h1.1
      have h32 : k0 + n_blocks_of cfg n_bytes < 4294967296 := by
        have := hv.count_lt
        have := h1.1
        omega
      obtain ⟨_, m2, m3, _⟩ := set_allocation_state_mark cfg pHeap k0 _ hwf.1 hn hN h32
      obtain ⟨j1, j2, j3⟩ := inv_mark _ _ _ k0 _ m2 m3 hn h1 hcw
      rw [h3]
      refine ⟨set_allocation_state_wf _ _ _ _ _ hwf, j1, ?_⟩
      intro p hp
      simp only [set_allocation_state_base]
      have hcase : p ∈ live ∨ p = pHeap.p_base_addr + k0 * cfg.HEAP_BLOCK_SIZE := by
        simp only [] at hp
        split at hp
        · exact Or.inl hp
        · rcases List.mem_cons.1 hp with hp | hp
          · exact Or.inr hp
          · exact Or.inl hp
      rcases hcase with hp | hp
      · obtain ⟨f, c, e1, e2⟩ := hlive p hp
        exact ⟨f, c, e1, j3 f c e2⟩
      · exact ⟨k0, _, hp, j2⟩
    · rw [h2]
      simp only [if_true]
      exact ⟨hwf, hcw, hlive⟩
  | free pHeap live p _ hp ih =>
    obtain ⟨hwf, hcw, hlive⟩ := ih
    obtain ⟨f, c, e1, e2⟩ := hlive p hp
    subst e1
    obtain ⟨_, _, f3, f4⟩ := heap_free_impl_chunk cfg hv pHeap hwf hcw f c e2
    refine ⟨heap_free_impl_wf _ _ _ hwf, f3, ?_⟩
    intro q hq
    rw [heap_free_impl_base]
    obtain ⟨hq1, hq2⟩ := List.mem_filter.1 hq
    obtain ⟨g, d, e3, e4⟩ := hlive q hq1
    refine ⟨g, d, e3, f4 g d e4 ?_⟩
    intro hgf
    subst hgf
    subst e3
    simp at hq2
  | truncate pHeap live p n_bytes h0 _ _ hp ih =>
    obtain ⟨hwf, hcw, hlive⟩ := ih
    obtain ⟨f, c, e1, e2⟩ := hlive p hp
    subst e1
    by_cases hsz : n_bytes ≥
        heap_block_size_impl cfg pHeap (pHeap.p_base_addr + f * cfg.HEAP_BLOCK_SIZE)
    · rw [heap_truncate_impl_guard_false cfg pHeap _ n_bytes hsz]
      exact ⟨hwf, hcw, hlive⟩
    · rw [heap_block_size_impl_chunk cfg hv pHeap f c e2] at hsz
      obtain ⟨_, _, t3, t4, t5⟩ := heap_truncate_impl_chunk cfg hv pHeap hwf hcw f c n_bytes e2 h0
        (by omega)
      refine ⟨heap_truncate_impl_wf _ _ _ _ hwf, t3, ?_⟩
      intro q hq
      rw [heap_truncate_impl_base]
      obtain ⟨g, d, e3, e4⟩ := hlive q hq
      by_cases hgf : g = f
      · subst hgf
        exact ⟨g, _, e3, t4⟩
      · exact ⟨g, d, e3, t5 g d e4 hgf⟩

/-! ## Free and truncate on a live allocation -/

/-- C9 (effect of a release). For every state of legitimate use and every live handle `p`,
there are `f` and `c ≥ 1` with `p = base + f * HEAP_BLOCK_SIZE` and
`heap_block_size_impl p = c * HEAP_BLOCK_SIZE` such that `heap_free_impl` of `p` clears
`allocated` and `has_next` on exactly the blocks `f .. f + c - 1` (all allocated before) and
changes no flag of any other block; the available space grows by exactly the size `p` had
before the call; and every other live handle is still the first block of the same chunk, with
the same size. -/
theorem heap_free_impl_live (cfg : Config) (hv : cfg.Valid) (pHeap : Heap_t) (live : List Nat)
    (p : Nat) (hl : Legit cfg pHeap live) (hp : p ∈ live) :
    ∃ f c, p = pHeap.p_base_addr + f * cfg.HEAP_BLOCK_SIZE ∧ 1 ≤ c ∧
      f + c ≤ cfg.HEAP_BLOCK_COUNT ∧
      heap_block_size_impl cfg pHeap p = c * cfg.HEAP_BLOCK_SIZE ∧
      (∀ i, f ≤ i → i < f + c →
        block_allocated pHeap.pages i = true ∧
        block_allocated (heap_free_impl cfg pHeap p).pages i = false ∧
        block_has_next (heap_free_impl cfg pHeap p).pages i = false) ∧
      (∀ i, ¬ (f ≤ i ∧ i < f + c) →
        block_allocated (heap_free_impl cfg pHeap p).pages i = block_allocated pHeap.pages i ∧
        block_has_next (heap_free_impl cfg pHeap p).pages i = block_has_next pHeap.pages i) ∧
      heap_available_space_impl cfg (heap_free_impl cfg pHeap p) =
        heap_available_space_impl cfg pHeap + heap_block_size_impl cfg pHeap p ∧
      (∀ q ∈ live, q ≠ p → ∃ g d, q = pHeap.p_base_addr + g * cfg.HEAP_BLOCK_SIZE ∧
        IsChunk pHeap.pages cfg.HEAP_BLOCK_COUNT g d ∧
        IsChunk (heap_free_impl cfg pHeap p).pages cfg.HEAP_BLOCK_COUNT g d ∧
        heap_block_size_impl cfg (heap_free_impl cfg pHeap p) q =
          heap_block_size_impl cfg pHeap q) := by
  obtain ⟨hwf, hcw, hlive⟩ := hl.inv cfg hv
  obtain ⟨f, c, e1, e2⟩ := hlive p hp
  subst e1
  obtain ⟨f1, f2, _, f4⟩ := heap_free_impl_chunk cfg hv pHeap hwf hcw f c e2
  have hsize := heap_block_size_impl_chunk cfg hv pHeap f c e2
  refine ⟨f, c, rfl, e2.1, e2.2.1, hsize, ?_, ?_, ?_, ?_⟩
  · intro i h1 h2
    rw [f1 i, f2 i, if_pos ⟨h1, h2⟩, if_pos ⟨h1, h2⟩]
    exact ⟨e2.2.2.1 i h1 h2, rfl, rfl⟩
  · intro i hi
    rw [f1 i, f2 i, if_neg hi, if_neg hi]
    exact ⟨rfl, rfl⟩
  · rw [hsize, heap_available_space_impl_eq, heap_available_space_impl_eq,
      u32_of_lt _ (available_space_lt cfg hv _), u32_of_lt _ (available_space_lt cfg hv _)]
    have hc := free_count_mark
      (heap_free_impl cfg pHeap (pHeap.p_base_addr + f * cfg.HEAP_BLOCK_SIZE)).pages
      pHeap.pages f c
      (by
        intro i h1 h2
        rw [f1 i, if_pos ⟨h1, h2⟩]
        exact ⟨rfl, e2.2.2.1 i h1 h2⟩)
      (by
        intro i hi
        rw [f1 i, if_neg hi])
      (4 * cfg.HEAP_PAGE_COUNT)
    have hfc : f + c ≤ 4 * cfg.HEAP_PAGE_COUNT := by rw [hv.blocks]; exact e2.2.1
    have hmin : min (4 * cfg.HEAP_PAGE_COUNT) (f + c) - min (4 * cfg.HEAP_PAGE_COUNT) f = c := by
      omega
    rw [hmin] at hc
    rw [← hc, Nat.add_mul]
  · intro q hq hne
    obtain ⟨g, d, e3, e4⟩ := hlive q hq
    have hgf : g ≠ f := by
      intro hgf
      subst hgf
      exact hne e3
    have e5 := f4 g d e4 hgf
    refine ⟨g, d, e3, e4, e5, ?_⟩
    have s1 := heap_block_size_impl_chunk cfg hv pHeap g d e4
    have s2 := heap_block_size_impl_chunk cfg hv _ g d e5
    rw [heap_free_impl_base] at s2
    rw [e3, s1, s2]

theorem Legit.of_eq {cfg : Config} {pHeap : Heap_t} {live live' : List Nat}
    (hl : Legit cfg pHeap live) (e : live = live') : Legit cfg pHeap live' :=
  e ▸ hl

theorem legit_heapAfterFree : Legit defaultConfig heapAfterFree [1384, 1000] :=
  (Legit.free _ _ 1192
    (Legit.alloc _ _ 192 (by decide) (by decide)
      (Legit.alloc _ _ 192 (by decide) (by decide)
        (Legit.alloc _ _ 192 (by decide) (by decide) (Legit.init 1000))))
    (by decide)).of_eq (by decide)

theorem heap_free_impl_live_witness :
    defaultConfig.Valid ∧ Legit defaultConfig heapAfterFree [1384, 1000] ∧
    1384 ∈ [1384, 1000] ∧
    ∃ f c, 1384 = heapAfterFree.p_base_addr + f * defaultConfig.HEAP_BLOCK_SIZE ∧ 1 ≤ c ∧
      f + c ≤ defaultConfig.HEAP_BLOCK_COUNT ∧
      heap_block_size_impl defaultConfig heapAfterFree 1384 =
        c * defaultConfig.HEAP_BLOCK_SIZE ∧
      (∀ i, f ≤ i → i < f + c →
        block_allocated heapAfterFree.pages i = true ∧
        block_allocated (heap_free_impl defaultConfig heapAfterFree 1384).pages i = false ∧
        block_has_next (heap_free_impl defaultConfig heapAfterFree 1384).pages i = false) ∧
      (∀ i, ¬ (f ≤ i ∧ i < f + c) →
        block_allocated (heap_free_impl defaultConfig heapAfterFree 1384).pages i =
          block_allocated heapAfterFree.pages i ∧
        block_has_next (heap_free_impl defaultConfig heapAfterFree 1384).pages i =
          block_has_next heapAfterFree.pages i) ∧
      heap_available_space_impl defaultConfig (heap_free_impl defaultConfig heapAfterFree 1384) =
        heap_available_space_impl defaultConfig heapAfterFree +
          heap_block_size_impl defaultConfig heapAfterFree 1384 ∧
      (∀ q ∈ [1384, 1000], q ≠ 1384 →
        ∃ g d, q = heapAfterFree.p_base_addr + g * defaultConfig.HEAP_BLOCK_SIZE ∧
        IsChunk heapAfterFree.pages defaultConfig.HEAP_BLOCK_COUNT g d ∧
        IsChunk (heap_free_impl defaultConfig heapAfterFree 1384).pages
          defaultConfig.HEAP_BLOCK_COUNT g d ∧
        heap_block_size_impl defaultConfig (heap_free_impl defaultConfig heapAfterFree 1384) q =
          heap_block_size_impl defaultConfig heapAfterFree q) :=
  ⟨by decide, legit_heapAfterFree, by decide,
    heap_free_impl_live defaultConfig (by decide) heapAfterFree [1384, 1000] 1384
      legit_heapAfterFree (by decide)⟩

theorem avail_truncate (cfg : Config) (hv : cfg.Valid) (pages pages' : List Nat)
    (f c nb : Nat) (hnb : nb ≤ c) (hfc : f + c ≤ cfg.HEAP_BLOCK_COUNT)
    (hold : ∀ i, f ≤ i → i < f + c → block_allocated pages i = true)
    (hA : ∀ i, block_allocated pages' i =
      if f ≤ i ∧ i < f + c then decide (i < f + nb) else block_allocated pages i) :
    free_count pages' (4 * cfg.HEAP_PAGE_COUNT) =
      free_count pages (4 * cfg.HEAP_PAGE_COUNT) + (c - nb) := by
  have hc := free_count_mark pages' pages (f + nb) (c - nb)
    (by
      intro i h1 h2
      rw [hA i, if_pos ⟨by omega, by omega⟩]
      refine ⟨?_, hold i (by omega) (by omega)⟩
      simp
      omega)
    (by
      intro i hi
      rw [hA i]
      by_cases h1 : f ≤ i ∧ i < f + c
      · rw [if_pos h1, hold i h1.1 h1.2]
        symm
        simp
        omega
      · rw [if_neg h1])
    (4 * cfg.HEAP_PAGE_COUNT)
  have hN : f + c ≤ 4 * cfg.HEAP_PAGE_COUNT := by rw [hv.blocks]; exact hfc
  have hmin : min (4 * cfg.HEAP_PAGE_COUNT) (f + nb + (c - nb)) -
      min (4 * cfg.HEAP_PAGE_COUNT) (f + nb) = c - nb := by omega
  rw [hmin] at hc
  exact hc.symm

/-- C6, as stated, fails for the new size 0: on the heap with the one-block allocation
`p = 1000`, the size 0 is below `heap_block_size_impl p = 64`, and after
`heap_truncate_impl p 0` the size reported for `p` is 64 (one block), not
`ceil (0 / 64) * 64 = 0`. -/
theorem heap_truncate_impl_zero_counterexample :
    Legit defaultConfig heapOneBlock [1000] ∧
    0 < heap_block_size_impl defaultConfig heapOneBlock 1000 ∧
    heap_block_size_impl defaultConfig (heap_truncate_impl defaultConfig heapOneBlock 1000 0)
      1000 = 64 ∧
    ceil_div 0 defaultConfig.HEAP_BLOCK_SIZE * defaultConfig.HEAP_BLOCK_SIZE = 0 :=
  ⟨(Legit.alloc _ _ 64 (by decide) (by decide) (Legit.init 1000)).of_eq (by decide),
    by decide, by decide, by decide⟩

/-- C6, amended (truncation of a live allocation). For every state of legitimate use, every
live handle `p` and every new size `smaller` with `0 < smaller < heap_block_size_impl p`: after
`heap_truncate_impl p smaller` the handle `p` is still the address of the first block of its
chunk, `heap_block_size_impl p` is `ceil (smaller / HEAP_BLOCK_SIZE) * HEAP_BLOCK_SIZE`, and the
available space has grown by exactly
`(old block count - ceil (smaller / HEAP_BLOCK_SIZE)) * HEAP_BLOCK_SIZE`. -/
theorem heap_truncate_impl_live (cfg : Config) (hv : cfg.Valid) (pHeap : Heap_t)
    (live : List Nat) (p smaller : Nat) (hl : Legit cfg pHeap live) (hp : p ∈ live)
    (h0 : 0 < smaller) (hlt : smaller < heap_block_size_impl cfg pHeap p) :
    (∃ f, p = pHeap.p_base_addr + f * cfg.HEAP_BLOCK_SIZE ∧
      IsChunk (heap_truncate_impl cfg pHeap p smaller).pages cfg.HEAP_BLOCK_COUNT f
        (ceil_div smaller cfg.HEAP_BLOCK_SIZE)) ∧
    heap_block_size_impl cfg (heap_truncate_impl cfg pHeap p smaller) p =
      ceil_div smaller cfg.HEAP_BLOCK_SIZE * cfg.HEAP_BLOCK_SIZE ∧
    heap_available_space_impl cfg (heap_truncate_impl cfg pHeap p smaller) =
      heap_available_space_impl cfg pHeap +
        (heap_block_size_impl cfg pHeap p / cfg.HEAP_BLOCK_SIZE -
          ceil_div smaller cfg.HEAP_BLOCK_SIZE) * cfg.HEAP_BLOCK_SIZE := by
  obtain ⟨hwf, hcw, hlive⟩ := hl.inv cfg hv
  obtain ⟨f, c, e1, e2⟩ := hlive p hp
  subst e1
  have hsize := heap_block_size_impl_chunk cfg hv pHeap f c e2
  rw [hsize] at hlt ⊢
  obtain ⟨t1, _, _, t4, _⟩ := heap_truncate_impl_chunk cfg hv pHeap hwf hcw f c smaller e2 h0 hlt
  have hnbc := ceil_div_le smaller c cfg.HEAP_BLOCK_SIZE hv.1 hlt
  refine ⟨⟨f, rfl, t4⟩, ?_, ?_⟩
  · have s2 := heap_block_size_impl_chunk cfg hv _ f _ t4
    rw [heap_truncate_impl_base] at s2
    exact s2
  · rw [Nat.mul_div_cancel _ hv.1, heap_available_space_impl_eq, heap_available_space_impl_eq,
      u32_of_lt _ (available_space_lt cfg hv _), u32_of_lt _ (available_space_lt cfg hv _),
      avail_truncate cfg hv pHeap.pages _ f c _ hnbc e2.2.1 e2.2.2.1 t1, Nat.add_mul]

theorem heap_truncate_impl_live_witness :
    defaultConfig.Valid ∧ Legit defaultConfig heapAfterFree [1384, 1000] ∧
    1384 ∈ [1384, 1000] ∧ 0 < 100 ∧
    100 < heap_block_size_impl defaultConfig heapAfterFree 1384 ∧
    (∃ f, 1384 = heapAfterFree.p_base_addr + f * defaultConfig.HEAP_BLOCK_SIZE ∧
      IsChunk (heap_truncate_impl defaultConfig heapAfterFree 1384 100).pages
        defaultConfig.HEAP_BLOCK_COUNT f (ceil_div 100 defaultConfig.HEAP_BLOCK_SIZE)) ∧
    heap_block_size_impl defaultConfig (heap_truncate_impl defaultConfig heapAfterFree 1384 100)
        1384 = ceil_div 100 defaultConfig.HEAP_BLOCK_SIZE * defaultConfig.HEAP_BLOCK_SIZE ∧
    heap_available_space_impl defaultConfig
        (heap_truncate_impl defaultConfig heapAfterFree 1384 100) =
      heap_available_space_impl defaultConfig heapAfterFree +
        (heap_block_size_impl defaultConfig heapAfterFree 1384 /
            defaultConfig.HEAP_BLOCK_SIZE -
          ceil_div 100 defaultConfig.HEAP_BLOCK_SIZE) * defaultConfig.HEAP_BLOCK_SIZE :=
  ⟨by decide, legit_heapAfterFree, by decide, by decide, by decide,
    heap_truncate_impl_live defaultConfig (by decide) heapAfterFree [1384, 1000] 1384 100
      legit_heapAfterFree (by decide) (by decide) (by decide)⟩

/-! ## The global flag invariant -/

theorem flagInv_mark_block (pages : List Nat) (cur : Nat) (hl : cur / 4 < pages.length)
    (h : FlagInv pages) : FlagInv (mark_block pages cur) := by
  intro i hi
  rw [has_next_mark_block _ _ _ hl] at hi
  rw [allocated_mark_block _ _ _ hl]
  by_cases hc : i = cur
  · simp [hc]
  · simp only [hc, decide_False, Bool.false_or] at hi ⊢
    exact h i hi

theorem flagInv_clear_next_block (pages : List Nat) (cur : Nat) (hl : cur / 4 < pages.length)
    (h : FlagInv pages) : FlagInv (clear_next_block pages cur) := by
  intro i hi
  rw [has_next_clear_next_block _ _ _ hl] at hi
  rw [allocated_clear_next_block _ _ _ hl]
  simp only [Bool.and_eq_true] at hi
  exact h i hi.2

theorem flagInv_clear_block (pages : List Nat) (cur : Nat) (hl : cur / 4 < pages.length)
    (h : FlagInv pages) : FlagInv (clear_block pages cur) := by
  intro i hi
  rw [has_next_clear_block _ _ _ hl] at hi
  rw [allocated_clear_block _ _ _ hl]
  simp only [Bool.and_eq_true] at hi ⊢
  exact ⟨hi.1, h i hi.2⟩

theorem sas_flat_flagInv (fb bc : Nat) (al : Bool) (cur : Nat) (pages : List Nat)
    (hl : cur / 4 < pages.length) (h : FlagInv pages) :
    FlagInv (sas_flat fb bc al cur pages).val := by
  unfold sas_flat
  split
  · split
    · split
      · exact flagInv_clear_next_block _ _ (by rw [length_mark_block]; exact hl)
          (flagInv_mark_block _ _ hl h)
      · exact flagInv_mark_block _ _ hl h
    · split
      · split
        · exact flagInv_clear_block _ _ hl h
        · exact flagInv_clear_block _ _ hl h
      · exact h
  · exact h

theorem forFlat_sas_flagInv (fb bc : Nat) (al : Bool) :
    ∀ (k cur : Nat) (pages : List Nat), (k ≠ 0 → cur + k ≤ 4 * pages.length) →
      FlagInv pages → FlagInv (forFlat (sas_flat fb bc al) k cur pages).val := by
  intro k
  induction k with
  | zero => intro cur pages _ h; exact h
  | succ k ih =>
    intro cur pages hk h
    have hk := hk (by omega)
    have hs := sas_flat_flagInv fb bc al cur pages (by omega) h
    have hw := (sas_flat_wf fb bc al cur pages).1
    simp only [forFlat]
    cases hb : sas_flat fb bc al cur pages with
    | next s1 =>
      rw [hb] at hs hw
      simp only [Ctl.val] at hs hw
      exact ih (cur + 1) s1 (by intro _; rw [hw]; omega) hs
    | stop s1 =>
      rw [hb] at hs
      exact hs

theorem set_allocation_state_flagInv (cfg : Config) (pHeap : Heap_t) (fb bc : Nat) (al : Bool)
    (hwf : pHeap.WF cfg) (h : FlagInv pHeap.pages) :
    FlagInv (set_allocation_state cfg pHeap fb bc al).pages := by
  rw [set_allocation_state_pages]
  apply forFlat_sas_flagInv
  · have := hwf.1
    intro _
    omega
  · exact h

theorem Reachable.flagInv (cfg : Config) (pHeap : Heap_t) (h : Reachable cfg pHeap) :
    FlagInv pHeap.pages := by
  induction h with
  | init base =>
    intro i hi
    rw [block_has_next_init] at hi
    exact Bool.noConfusion hi
  | alloc pHeap n _ hr ih =>
    unfold heap_alloc_impl
    simp only []
    split
    · exact set_allocation_state_flagInv _ _ _ _ _ hr.wf ih
    · exact ih
  | free pHeap p hr ih =>
    unfold heap_free_impl
    split
    · exact set_allocation_state_flagInv _ _ _ _ _ hr.wf ih
    · exact ih
  | truncate pHeap p n _ hr ih =>
    unfold heap_truncate_impl
    split
    · exact set_allocation_state_flagInv _ _ _ _ _
        (set_allocation_state_wf _ _ _ _ _ hr.wf)
        (set_allocation_state_flagInv _ _ _ _ _ hr.wf ih)
    · exact ih

/-- C11 (global flag invariant). In every tracker state reachable from `heap_init_impl` by
any sequence of `heap_alloc_impl`, `heap_free_impl` and `heap_truncate_impl` calls with
arbitrary arguments, every block with `allocated` clear has `has_next` clear. -/
theorem reachable_flag_invariant (cfg : Config) (pHeap : Heap_t) (hr : Reachable cfg pHeap)
    (i : Nat) (hfree : block_allocated pHeap.pages i = false) :
    block_has_next pHeap.pages i = false := by
  cases hn : block_has_next pHeap.pages i with
  | false => rfl
  | true =>
    rw [hr.flagInv cfg pHeap i hn] at hfree
    exact Bool.noConfusion hfree

theorem reachable_heapAfterFree : Reachable defaultConfig heapAfterFree :=
  Reachable.free _ 1192
    (Reachable.alloc _ 192 (by decide)
      (Reachable.alloc _ 192 (by decide)
        (Reachable.alloc _ 192 (by decide) (Reachable.init 1000))))

theorem reachable_flag_invariant_witness :
    Reachable defaultConfig heapAfterFree ∧ block_allocated heapAfterFree.pages 3 = false ∧
    block_has_next heapAfterFree.pages 3 = false :=
  ⟨reachable_heapAfterFree, by decide,
    reachable_flag_invariant defaultConfig heapAfterFree reachable_heapAfterFree 3 (by decide)⟩

/-! ## Walks along `has_next` in an arbitrary state -/

/-- From every block of the arena the walk along `has_next` has some length. -/
theorem exists_chain (pages : List Nat) (N : Nat) :
    ∀ (d fb : Nat), fb + d = N → 1 ≤ d → ∃ c, Chain pages N fb c := by
  intro d
  induction d with
  | zero => intro fb _ h; omega
  | succ d ih =>
    intro fb hN _
    by_cases hn : block_has_next pages fb = true
    · by_cases hd : d = 0
      · refine ⟨1, Nat.le_refl _, by omega, ?_, ?_⟩
        · intro i h1 h2; omega
        · intro h; omega
      · obtain ⟨c, c1, c2, c3, c4⟩ := ih (fb + 1) (by omega) (by omega)
        refine ⟨c + 1, by omega, by omega, ?_, ?_⟩
        · intro i h1 h2
          by_cases hi : i = fb
          · rw [hi]; exact hn
          · exact c3 i (by omega) (by omega)
        · intro h
          have := c4 (by omega)
          have e : fb + (c + 1) - 1 = fb + 1 + c - 1 := by omega
          rw [e]; exact this
    · refine ⟨1, Nat.le_refl _, by omega, ?_, ?_⟩
      · intro i h1 h2; omega
      · intro _
        simp only [Nat.add_sub_cancel]
        cases h : block_has_next pages fb
        · rfl
        · exact absurd h hn

/-- With `block_count = 0`, the allocating call of `set_allocation_state` writes nothing. -/
theorem forFlat_sas_mark_zero (fb : Nat) :
    ∀ (k cur : Nat) (pages : List Nat),
      forFlat (sas_flat fb 0 true) k cur pages = .next pages := by
  intro k
  induction k with
  | zero => intro cur pages; rfl
  | succ k ih =>
    intro cur pages
    simp only [forFlat]
    have hb : sas_flat fb 0 true cur pages = .next pages := by
      unfold sas_flat
      split
      · have hle : u32 (fb + 0) ≤ fb := by
          unfold u32
          exact Nat.mod_le _ _
        have hnot : ¬ ((true && decide (cur < u32 (fb + 0))) = true) := by
          simp only [Bool.true_and, decide_eq_true_eq]
          omega
        rw [if_neg hnot]
        simp
      · rfl
    rw [hb]
    exact ih (cur + 1) pages

theorem set_allocation_state_mark_zero (cfg : Config) (pHeap : Heap_t) (fb : Nat) :
    set_allocation_state cfg pHeap fb 0 true = pHeap := by
  have h := set_allocation_state_pages cfg pHeap fb 0 true
  rw [forFlat_sas_mark_zero] at h
  simp only [Ctl.val] at h
  cases pHeap with
  | mk base pages =>
    have hb := set_allocation_state_base cfg ⟨base, pages⟩ fb 0 true
    cases hs : set_allocation_state cfg ⟨base, pages⟩ fb 0 true with
    | mk base' pages' =>
      rw [hs] at h hb
      simp only [] at h hb
      rw [h, hb]

/-- With no page left to visit, `set_allocation_state` writes nothing. -/
theorem set_allocation_state_outside (cfg : Config) (pHeap : Heap_t) (fb bc : Nat) (al : Bool)
    (h : cfg.HEAP_PAGE_COUNT ≤ fb / 4) : set_allocation_state cfg pHeap fb bc al = pHeap := by
  unfold set_allocation_state
  simp only [HEAP_PAGE_BLOCKS]
  have : cfg.HEAP_PAGE_COUNT - fb / 4 = 0 := by omega
  rw [this]
  simp only [forPages, Ctl.val]

/-- A page array is determined by its length and the flags of its blocks. -/
theorem pages_ext (pages pages' : List Nat) (hlen : pages'.length = pages.length)
    (hb : ∀ p ∈ pages, p < 256) (hb' : ∀ p ∈ pages', p < 256)
    (hA : ∀ i, block_allocated pages' i = block_allocated pages i)
    (hH : ∀ i, block_has_next pages' i = block_has_next pages i) : pages' = pages := by
  apply List.ext_getElem hlen
  intro q h1 h2
  have g1 : pages'.getD q 0 = pages'[q] := by
    rw [List.getD_eq_getElem?_getD, List.getElem?_eq_getElem h1]; rfl
  have g2 : pages.getD q 0 = pages[q] := by
    rw [List.getD_eq_getElem?_getD, List.getElem?_eq_getElem h2]; rfl
  have l1 : pages'[q] < 256 := hb' _ (List.getElem_mem _)
  have l2 : pages[q] < 256 := hb _ (List.getElem_mem _)
  apply Nat.eq_of_testBit_eq
  intro b
  by_cases hb8 : b < 8
  · have hq : (4 * q + b / 2) / 4 = q := by omega
    have hj : (4 * q + b / 2) % 4 = b / 2 := by omega
    rcases Nat.mod_two_eq_zero_or_one b with h0 | h1'
    · have := hA (4 * q + b / 2)
      rw [block_allocated_eq_testBit, block_allocated_eq_testBit, hq, hj, g1, g2] at this
      have e : 2 * (b / 2) = b := by omega
      rw [e] at this
      exact this
    · have := hH (4 * q + b / 2)
      rw [block_has_next_eq_testBit, block_has_next_eq_testBit, hq, hj, g1, g2] at this
      have e : 2 * (b / 2) + 1 = b := by omega
      rw [e] at this
      exact this
  · have hp : (256 : Nat) ≤ 2 ^ b := by
      have : (2 : Nat) ^ 8 ≤ 2 ^ b := Nat.pow_le_pow_right (by decide) (by omega)
      simpa using this
    rw [Nat.testBit_lt_two_pow (by omega), Nat.testBit_lt_two_pow (by omega)]

theorem Heap_t.ext_flags (cfg : Config) (pHeap pHeap' : Heap_t) (hwf : pHeap.WF cfg)
    (hwf' : pHeap'.WF cfg) (hbase : pHeap'.p_base_addr = pHeap.p_base_addr)
    (hA : ∀ i, block_allocated pHeap'.pages i = block_allocated pHeap.pages i)
    (hH : ∀ i, block_has_next pHeap'.pages i = block_has_next pHeap.pages i) :
    pHeap' = pHeap := by
  have hp := pages_ext pHeap.pages pHeap'.pages (by rw [hwf.1, hwf'.1]) hwf.2 hwf'.2 hA hH
  cases pHeap with
  | mk b p =>
    cases pHeap' with
    | mk b' p' =>
      simp only [] at hbase hp
      rw [hbase, hp]

theorem block_allocated_outside (pages : List Nat) (i : Nat) (h : 4 * pages.length ≤ i) :
    block_allocated pages i = false := by
  unfold block_allocated
  have : pages.getD (i / HEAP_PAGE_BLOCKS) 0 = 0 := by
    rw [List.getD_eq_getElem?_getD, List.getElem?_eq_none (by unfold HEAP_PAGE_BLOCKS; omega)]
    rfl
  rw [this]
  simp

theorem block_has_next_outside (pages : List Nat) (i : Nat) (h : 4 * pages.length ≤ i) :
    block_has_next pages i = false := by
  unfold block_has_next
  have : pages.getD (i / HEAP_PAGE_BLOCKS) 0 = 0 := by
    rw [List.getD_eq_getElem?_getD, List.getElem?_eq_none (by unfold HEAP_PAGE_BLOCKS; omega)]
    rfl
  rw [this]
  simp

/-! ## Truncation: frame and the case of an unchanged block count -/

theorem le_ceil_div_mul (m b : Nat) (hb : 0 < b) : m ≤ ceil_div m b * b := by
  unfold ceil_div
  have h1 := Nat.div_add_mod (m + b - 1) b
  have h2 := Nat.mod_lt (m + b - 1) hb
  rw [Nat.mul_comm]
  omega

theorem ceil_div_eq (m c b : Nat) (hb : 0 < b) (h1 : (c - 1) * b < m) (h2 : m < c * b) :
    ceil_div m b = c := by
  have hle := ceil_div_le m c b hb h2
  have hge : c ≤ ceil_div m b := by
    by_contra hlt
    have h3 : ceil_div m b * b ≤ (c - 1) * b := Nat.mul_le_mul_right _ (by omega)
    have h4 := le_ceil_div_mul m b hb
    omega
  omega

theorem legit_heapOneFive : Legit defaultConfig heapOneFive [1064, 1000] :=
  (Legit.alloc _ _ 320 (by decide) (by decide)
    (Legit.alloc _ _ 64 (by decide) (by decide) (Legit.init 1000))).of_eq (by decide)

/-- C12 (frame of a truncation). For every state of legitimate use, every live handle `p`,
which occupies the blocks `[f, f + c)`, and every new size `m` with
`1 ≤ k = ceil (m / HEAP_BLOCK_SIZE) < c`: after `heap_truncate_impl p m` the blocks
`f .. f + k - 1` are allocated with `has_next` set on all but `f + k - 1`, the blocks
`f + k .. f + c - 1` are free with `has_next` clear, and no flag of a block outside
`[f, f + c)` has changed; so every later request of at most `c - k` blocks is served, at the
lowest run of free blocks, which starts at block `f + k` or below. -/
theorem heap_truncate_impl_frame (cfg : Config) (hv : cfg.Valid) (pHeap : Heap_t)
    (live : List Nat) (p m : Nat) (hl : Legit cfg pHeap live) (hp : p ∈ live)
    (hk1 : 1 ≤ ceil_div m cfg.HEAP_BLOCK_SIZE)
    (hkc : ceil_div m cfg.HEAP_BLOCK_SIZE * cfg.HEAP_BLOCK_SIZE <
      heap_block_size_impl cfg pHeap p) :
    ∃ f c, p = pHeap.p_base_addr + f * cfg.HEAP_BLOCK_SIZE ∧
      IsChunk pHeap.pages cfg.HEAP_BLOCK_COUNT f c ∧
      ceil_div m cfg.HEAP_BLOCK_SIZE < c ∧
      (∀ i, f ≤ i → i < f + ceil_div m cfg.HEAP_BLOCK_SIZE →
        block_allocated (heap_truncate_impl cfg pHeap p m).pages i = true ∧
        block_has_next (heap_truncate_impl cfg pHeap p m).pages i =
          decide (i + 1 < f + ceil_div m cfg.HEAP_BLOCK_SIZE)) ∧
      (∀ i, f + ceil_div m cfg.HEAP_BLOCK_SIZE ≤ i → i < f + c →
        block_allocated (heap_truncate_impl cfg pHeap p m).pages i = false ∧
        block_has_next (heap_truncate_impl cfg pHeap p m).pages i = false) ∧
      (∀ i, ¬ (f ≤ i ∧ i < f + c) →
        block_allocated (heap_truncate_impl cfg pHeap p m).pages i =
          block_allocated pHeap.pages i ∧
        block_has_next (heap_truncate_impl cfg pHeap p m).pages i =
          block_has_next pHeap.pages i) ∧
      (∀ n_bytes, 1 ≤ ceil_div n_bytes cfg.HEAP_BLOCK_SIZE →
        ceil_div n_bytes cfg.HEAP_BLOCK_SIZE ≤ c - ceil_div m cfg.HEAP_BLOCK_SIZE →
        ∃ k0, k0 ≤ f + ceil_div m cfg.HEAP_BLOCK_SIZE ∧
          (heap_alloc_impl cfg (heap_truncate_impl cfg pHeap p m) n_bytes).2 =
            pHeap.p_base_addr + k0 * cfg.HEAP_BLOCK_SIZE ∧
          ∀ i, k0 ≤ i → i < k0 + ceil_div n_bytes cfg.HEAP_BLOCK_SIZE →
            block_allocated (heap_truncate_impl cfg pHeap p m).pages i = false) := by
  obtain ⟨hwf, hcw, hlive⟩ := hl.inv cfg hv
  obtain ⟨f, c, e1, e2⟩ := hlive p hp
  subst e1
  have hsize := heap_block_size_impl_chunk cfg hv pHeap f c e2
  rw [hsize] at hkc
  have hkltc : ceil_div m cfg.HEAP_BLOCK_SIZE < c := Nat.lt_of_mul_lt_mul_right hkc
  have hm0 : 0 < m := by
    by_contra h0
    have : m = 0 := by omega
    rw [this] at hk1
    unfold ceil_div at hk1
    have := Nat.div_eq_of_lt (show 0 + cfg.HEAP_BLOCK_SIZE - 1 < cfg.HEAP_BLOCK_SIZE by
      have := hv.1
      omega)
    omega
  have hmlt : m < c * cfg.HEAP_BLOCK_SIZE :=
    Nat.lt_of_le_of_lt (le_ceil_div_mul m _ hv.1) hkc
  obtain ⟨t1, t2, _, _, _⟩ := heap_truncate_impl_chunk cfg hv pHeap hwf hcw f c m e2 hm0 hmlt
  refine ⟨f, c, rfl, e2, hkltc, ?_, ?_, ?_, ?_⟩
  · intro i h1 h2
    rw [t1 i, t2 i, if_pos ⟨h1, by omega⟩, if_pos ⟨h1, by omega⟩]
    exact ⟨by simpa using h2, rfl⟩
  · intro i h1 h2
    rw [t1 i, t2 i, if_pos ⟨by omega, h2⟩, if_pos ⟨by omega, h2⟩]
    constructor
    · simp
      omega
    · simp
      omega
  · intro i hi
    rw [t1 i, t2 i, if_neg hi, if_neg hi]
    exact ⟨rfl, rfl⟩
  · intro n_bytes hn1 hn2
    rw [← n_blocks_of_eq_ceil_div cfg n_bytes hv.1] at hn1 hn2 ⊢
    have hrun : FreeRun (heap_truncate_impl cfg pHeap
        (pHeap.p_base_addr + f * cfg.HEAP_BLOCK_SIZE) m).pages cfg.HEAP_BLOCK_COUNT
        (f + ceil_div m cfg.HEAP_BLOCK_SIZE) (n_blocks_of cfg n_bytes) := by
      refine ⟨by have := e2.2.1; omega, ?_⟩
      intro i h1 h2
      rw [t1 i, if_pos ⟨by omega, by omega⟩]
      simp
      omega
    rcases heap_alloc_impl_cases cfg hv _ n_bytes hn1 with ⟨k0, r1, r2, r3⟩ | ⟨r1, _⟩
    · refine ⟨k0, r2 _ hrun, ?_, r1.2⟩
      rw [r3, heap_truncate_impl_base]
    · exact absurd hrun (r1 _)

theorem heap_truncate_impl_frame_witness :
    defaultConfig.Valid ∧ Legit defaultConfig heapOneFive [1064, 1000] ∧
    1064 ∈ [1064, 1000] ∧ 1 ≤ ceil_div 128 defaultConfig.HEAP_BLOCK_SIZE ∧
    ceil_div 128 defaultConfig.HEAP_BLOCK_SIZE * defaultConfig.HEAP_BLOCK_SIZE <
      heap_block_size_impl defaultConfig heapOneFive 1064 ∧
    ∃ f c, 1064 = heapOneFive.p_base_addr + f * defaultConfig.HEAP_BLOCK_SIZE ∧
      IsChunk heapOneFive.pages defaultConfig.HEAP_BLOCK_COUNT f c ∧
      ceil_div 128 defaultConfig.HEAP_BLOCK_SIZE < c ∧
      (∀ i, f ≤ i → i < f + ceil_div 128 defaultConfig.HEAP_BLOCK_SIZE →
        block_allocated (heap_truncate_impl defaultConfig heapOneFive 1064 128).pages i = true ∧
        block_has_next (heap_truncate_impl defaultConfig heapOneFive 1064 128).pages i =
          decide (i + 1 < f + ceil_div 128 defaultConfig.HEAP_BLOCK_SIZE)) ∧
      (∀ i, f + ceil_div 128 defaultConfig.HEAP_BLOCK_SIZE ≤ i → i < f + c →
        block_allocated (heap_truncate_impl defaultConfig heapOneFive 1064 128).pages i = false ∧
        block_has_next (heap_truncate_impl defaultConfig heapOneFive 1064 128).pages i = false) ∧
      (∀ i, ¬ (f ≤ i ∧ i < f + c) →
        block_allocated (heap_truncate_impl defaultConfig heapOneFive 1064 128).pages i =
          block_allocated heapOneFive.pages i ∧
        block_has_next (heap_truncate_impl defaultConfig heapOneFive 1064 128).pages i =
          block_has_next heapOneFive.pages i) ∧
      (∀ n_bytes, 1 ≤ ceil_div n_bytes defaultConfig.HEAP_BLOCK_SIZE →
        ceil_div n_bytes defaultConfig.HEAP_BLOCK_SIZE ≤
          c - ceil_div 128 defaultConfig.HEAP_BLOCK_SIZE →
        ∃ k0, k0 ≤ f + ceil_div 128 defaultConfig.HEAP_BLOCK_SIZE ∧
          (heap_alloc_impl defaultConfig
            (heap_truncate_impl defaultConfig heapOneFive 1064 128) n_bytes).2 =
            heapOneFive.p_base_addr + k0 * defaultConfig.HEAP_BLOCK_SIZE ∧
          ∀ i, k0 ≤ i → i < k0 + ceil_div n_bytes defaultConfig.HEAP_BLOCK_SIZE →
            block_allocated (heap_truncate_impl defaultConfig heapOneFive 1064 128).pages i =
              false) :=
  ⟨by decide, legit_heapOneFive, by decide, by decide, by decide,
    heap_truncate_impl_frame defaultConfig (by decide) heapOneFive [1064, 1000] 1064 128
      legit_heapOneFive (by decide) (by decide) (by decide)⟩

/-- C13 (same block count). For every state of legitimate use, every live handle `p` of `c`
blocks and every `m` with `(c - 1) * HEAP_BLOCK_SIZE < m < c * HEAP_BLOCK_SIZE`,
`heap_truncate_impl p m`, which frees the chunk and marks it again in place, returns a
tracker state identical to the one it was given. -/
theorem heap_truncate_impl_same_count (cfg : Config) (hv : cfg.Valid) (pHeap : Heap_t)
    (live : List Nat) (p m c : Nat) (hl : Legit cfg pHeap live) (hp : p ∈ live)
    (hc : heap_block_size_impl cfg pHeap p = c * cfg.HEAP_BLOCK_SIZE)
    (h1 : (c - 1) * cfg.HEAP_BLOCK_SIZE < m) (h2 : m < c * cfg.HEAP_BLOCK_SIZE) :
    heap_truncate_impl cfg pHeap p m = pHeap := by
  obtain ⟨hwf, hcw, hlive⟩ := hl.inv cfg hv
  obtain ⟨f, c', e1, e2⟩ := hlive p hp
  subst e1
  have hsize := heap_block_size_impl_chunk cfg hv pHeap f c' e2
  rw [hsize] at hc
  have hcc : c' = c := Nat.eq_of_mul_eq_mul_right hv.1 hc
  subst hcc
  have hm0 : 0 < m := by omega
  obtain ⟨t1, t2, _, _, _⟩ := heap_truncate_impl_chunk cfg hv pHeap hwf hcw f c' m e2 hm0 h2
  rw [ceil_div_eq m c' _ hv.1 h1 h2] at t1 t2
  apply Heap_t.ext_flags cfg pHeap _ hwf (heap_truncate_impl_wf _ _ _ _ hwf)
    (heap_truncate_impl_base _ _ _ _)
  · intro i
    rw [t1 i]
    by_cases hi : f ≤ i ∧ i < f + c'
    · rw [if_pos hi, e2.2.2.1 i hi.1 hi.2]
      simpa using hi.2
    · rw [if_neg hi]
  · intro i
    rw [t2 i]
    by_cases hi : f ≤ i ∧ i < f + c'
    · rw [if_pos hi]
      by_cases hlast : i + 1 < f + c'
      · rw [e2.2.2.2.1 i hi.1 hlast]
        simpa using hlast
      · have hie : i = f + c' - 1 := by omega
        rw [hie, e2.2.2.2.2.1]
        simp
        omega
    · rw [if_neg hi]

theorem heap_truncate_impl_same_count_witness :
    defaultConfig.Valid ∧ Legit defaultConfig heapOneFive [1064, 1000] ∧
    1064 ∈ [1064, 1000] ∧
    heap_block_size_impl defaultConfig heapOneFive 1064 = 5 * defaultConfig.HEAP_BLOCK_SIZE ∧
    (5 - 1) * defaultConfig.HEAP_BLOCK_SIZE < 300 ∧ 300 < 5 * defaultConfig.HEAP_BLOCK_SIZE ∧
    heap_truncate_impl defaultConfig heapOneFive 1064 300 = heapOneFive :=
  ⟨by decide, legit_heapOneFive, by decide, by decide, by decide, by decide,
    heap_truncate_impl_same_count defaultConfig (by decide) heapOneFive [1064, 1000] 1064 300 5
      legit_heapOneFive (by decide) (by decide) (by decide) (by decide)⟩

/-! ## The size reported for an arbitrary address -/

theorem heap_block_size_impl_inside (cfg : Config) (hv : cfg.Valid) (pHeap : Heap_t) (p : Nat)
    (h : block_number_by_addr cfg pHeap p < cfg.HEAP_BLOCK_COUNT) :
    ∃ c, Chain pHeap.pages cfg.HEAP_BLOCK_COUNT (block_number_by_addr cfg pHeap p) c ∧
      heap_block_size_impl cfg pHeap p = c * cfg.HEAP_BLOCK_SIZE := by
  obtain ⟨c, hc⟩ := exists_chain pHeap.pages cfg.HEAP_BLOCK_COUNT
    (cfg.HEAP_BLOCK_COUNT - block_number_by_addr cfg pHeap p)
    (block_number_by_addr cfg pHeap p) (by omega) (by omega)
  refine ⟨c, hc, ?_⟩
  rw [heap_block_size_impl_chain cfg pHeap p c (by rw [hv.blocks]; exact hc)]
  exact u32_of_lt _ (hv.bytes cfg _ (by have := hc.2.1; omega))

theorem block_number_by_addr_null (cfg : Config) (pHeap : Heap_t)
    (h1 : cfg.HEAP_BLOCK_SIZE ≤ pHeap.p_base_addr)
    (h2 : pHeap.p_base_addr / cfg.HEAP_BLOCK_SIZE + cfg.HEAP_BLOCK_COUNT ≤ 4294967296)
    (hbs : 0 < cfg.HEAP_BLOCK_SIZE) :
    cfg.HEAP_BLOCK_COUNT ≤ block_number_by_addr cfg pHeap 0 := by
  unfold block_number_by_addr
  have hq : 1 ≤ pHeap.p_base_addr / cfg.HEAP_BLOCK_SIZE := Nat.div_pos h1 hbs
  have e : (((0 : Nat) : Int) - (pHeap.p_base_addr : Int)).tdiv (cfg.HEAP_BLOCK_SIZE : Int) =
      -((pHeap.p_base_addr / cfg.HEAP_BLOCK_SIZE : Nat) : Int) := by
    have : ((0 : Nat) : Int) - (pHeap.p_base_addr : Int) = -(pHeap.p_base_addr : Int) := by
      omega
    rw [this, Int.neg_tdiv, Int.tdiv_eq_ediv (Int.natCast_nonneg _) (Int.natCast_nonneg _)]
    norm_cast
  rw [e]
  omega

/-- C14, as stated, fails below the base address: with the arena at 1000 and the address 999,
`floor ((999 - 1000) / 64) = -1`, which is 4294967295 as an unsigned 32-bit value and so not
below the block count 128, but the C division truncates to block 0 and
`heap_block_size_impl` reports the size of the chunk at block 0, 64. -/
theorem heap_block_size_impl_floor_counterexample :
    defaultConfig.HEAP_BLOCK_COUNT ≤ floor_block_index defaultConfig heapOneBlock 999 ∧
    floor_block_index defaultConfig heapOneBlock 999 = 4294967295 ∧
    block_number_by_addr defaultConfig heapOneBlock 999 = 0 ∧
    heap_block_size_impl defaultConfig heapOneBlock 999 = 64 :=
  ⟨by decide, by decide, by decide, by decide⟩

/-- C14, amended (size by block index). For every tracker state and every address: if the
block index that `block_number_by_addr` computes (the quotient `(addr - base) / BlockSize`
truncated toward zero, as an unsigned 32-bit value) is not below the block count,
`heap_block_size_impl` returns 0; if it is below the block count, `heap_block_size_impl`
returns at least `HEAP_BLOCK_SIZE`; and the null address has a block index not below the block
count when the arena starts at `HEAP_BLOCK_SIZE` or above and ends within the first `2 ^ 32`
bytes of the address space. -/
theorem heap_block_size_impl_by_index (cfg : Config) (hv : cfg.Valid) (pHeap : Heap_t)
    (p : Nat) :
    (cfg.HEAP_BLOCK_COUNT ≤ block_number_by_addr cfg pHeap p →
      heap_block_size_impl cfg pHeap p = 0) ∧
    (block_number_by_addr cfg pHeap p < cfg.HEAP_BLOCK_COUNT →
      cfg.HEAP_BLOCK_SIZE ≤ heap_block_size_impl cfg pHeap p) ∧
    (cfg.HEAP_BLOCK_SIZE ≤ pHeap.p_base_addr →
      pHeap.p_base_addr + cfg.HEAP_TOTAL_SIZE ≤ 4294967296 →
      cfg.HEAP_BLOCK_COUNT ≤ block_number_by_addr cfg pHeap 0 ∧
      heap_block_size_impl cfg pHeap 0 = 0) := by
  refine ⟨?_, ?_, ?_⟩
  · intro h
    exact heap_block_size_impl_outside cfg pHeap p (by rw [hv.blocks]; exact h)
  · intro h
    obtain ⟨c, hc, hs⟩ := heap_block_size_impl_inside cfg hv pHeap p h
    rw [hs]
    have := Nat.mul_le_mul_right cfg.HEAP_BLOCK_SIZE hc.1
    omega
  · intro h1 h2
    have hb : cfg.HEAP_BLOCK_COUNT ≤ block_number_by_addr cfg pHeap 0 := by
      apply block_number_by_addr_null cfg pHeap h1 _ hv.1
      have e1 : (pHeap.p_base_addr + cfg.HEAP_TOTAL_SIZE) / cfg.HEAP_BLOCK_SIZE ≤
          4294967296 / cfg.HEAP_BLOCK_SIZE := Nat.div_le_div_right h2
      have e2 : 4294967296 / cfg.HEAP_BLOCK_SIZE ≤ 4294967296 := Nat.div_le_self _ _
      have e3 : pHeap.p_base_addr / cfg.HEAP_BLOCK_SIZE +
          cfg.HEAP_TOTAL_SIZE / cfg.HEAP_BLOCK_SIZE ≤
          (pHeap.p_base_addr + cfg.HEAP_TOTAL_SIZE) / cfg.HEAP_BLOCK_SIZE :=
        Nat.add_div_le_add_div _ _ _
      unfold Config.HEAP_BLOCK_COUNT
      omega
    exact ⟨hb, heap_block_size_impl_outside cfg pHeap 0 (by rw [hv.blocks]; exact hb)⟩

theorem heap_block_size_impl_by_index_witness :
    defaultConfig.Valid ∧
    defaultConfig.HEAP_BLOCK_COUNT ≤ block_number_by_addr defaultConfig heapAfterFree 0 ∧
    heap_block_size_impl defaultConfig heapAfterFree 0 = 0 ∧
    block_number_by_addr defaultConfig heapAfterFree 1384 < defaultConfig.HEAP_BLOCK_COUNT ∧
    defaultConfig.HEAP_BLOCK_SIZE ≤ heap_block_size_impl defaultConfig heapAfterFree 1384 ∧
    defaultConfig.HEAP_BLOCK_SIZE ≤ heapAfterFree.p_base_addr ∧
    heapAfterFree.p_base_addr + defaultConfig.HEAP_TOTAL_SIZE ≤ 4294967296 ∧
    (defaultConfig.HEAP_BLOCK_COUNT ≤ block_number_by_addr defaultConfig heapAfterFree 0 ∧
      heap_block_size_impl defaultConfig heapAfterFree 0 = 0) :=
  ⟨by decide, by decide,
    (heap_block_size_impl_by_index defaultConfig (by decide) heapAfterFree 0).1 (by decide),
    by decide,
    (heap_block_size_impl_by_index defaultConfig (by decide) heapAfterFree 1384).2.1
      (by decide),
    by decide, by decide,
    (heap_block_size_impl_by_index defaultConfig (by decide) heapAfterFree 0).2.2
      (by decide) (by decide)⟩

/-! ## Degenerate requests and the boundary address -/

/-- C15 (request of 0 bytes). For every tracker state (of an arena with at least one page),
`heap_alloc_impl` with 0 bytes computes 0 blocks, leaves the loops at the first block it
scans and returns the arena base address, the address of block 0, together with the tracker
state it was given, unchanged; this holds whether block 0 is free or in use. -/
theorem heap_alloc_impl_zero (cfg : Config) (pHeap : Heap_t) (hpc : 0 < cfg.HEAP_PAGE_COUNT) :
    n_blocks_of cfg 0 = 0 ∧
    forPages (heap_alloc_body 0 pHeap.pages) cfg.HEAP_PAGE_COUNT 0 (0, 0) =
      .stop (0, if block_allocated pHeap.pages 0 = false then 1 else 0) ∧
    heap_alloc_impl cfg pHeap 0 = (pHeap, pHeap.p_base_addr) := by
  have hn : n_blocks_of cfg 0 = 0 := by simp [n_blocks_of]
  have hscan : forPages (heap_alloc_body 0 pHeap.pages) cfg.HEAP_PAGE_COUNT 0 (0, 0) =
      .stop (0, if block_allocated pHeap.pages 0 = false then 1 else 0) := by
    obtain ⟨k, hk⟩ : ∃ k, cfg.HEAP_PAGE_COUNT = k + 1 := ⟨cfg.HEAP_PAGE_COUNT - 1, by omega⟩
    rw [hk]
    simp only [forPages, HEAP_PAGE_BLOCKS, forBlocks]
    have hb := heap_alloc_body_flat 0 pHeap.pages 0 (0, 0)
    simp only [Nat.zero_div, Nat.zero_mod] at hb
    rw [hb]
    by_cases hf : block_allocated pHeap.pages 0 = false
    · rw [alloc_flat_free _ _ _ _ _ hf]
      simp [hf]
    · have ht : block_allocated pHeap.pages 0 = true := by
        cases h : block_allocated pHeap.pages 0
        · exact absurd h hf
        · rfl
      rw [alloc_flat_used _ _ _ _ ht]
      simp [ht]
  refine ⟨hn, hscan, ?_⟩
  unfold heap_alloc_impl
  simp only [hn]
  rw [hscan]
  simp only [set_allocation_state_mark_zero, Nat.zero_mul]
  rfl

theorem heap_alloc_impl_zero_witness :
    0 < defaultConfig.HEAP_PAGE_COUNT ∧ block_allocated heapOneBlock.pages 0 = true ∧
    n_blocks_of defaultConfig 0 = 0 ∧
    forPages (heap_alloc_body 0 heapOneBlock.pages) defaultConfig.HEAP_PAGE_COUNT 0 (0, 0) =
      .stop (0, if block_allocated heapOneBlock.pages 0 = false then 1 else 0) ∧
    heap_alloc_impl defaultConfig heapOneBlock 0 = (heapOneBlock, heapOneBlock.p_base_addr) :=
  ⟨by decide, by decide, heap_alloc_impl_zero defaultConfig heapOneBlock (by decide)⟩

theorem Reachable.flagInv_free {cfg : Config} {pHeap : Heap_t} (h : Reachable cfg pHeap) :
    ∀ i, block_allocated pHeap.pages i = false → block_has_next pHeap.pages i = false := by
  intro i hfree
  cases hn : block_has_next pHeap.pages i with
  | false => rfl
  | true =>
    rw [h.flagInv cfg pHeap i hn] at hfree
    exact Bool.noConfusion hfree

/-- C18 (allocate, then free: the whole state). For every tracker state that satisfies the
flag invariant (free blocks have `has_next` clear) and every request of at least one block for
which `heap_alloc_impl` returns an address `p`, `heap_free_impl` of `p` returns the tracker
state there was before the allocation: every `allocated` and `has_next` flag, every page and
the base address. -/
theorem heap_free_impl_alloc_roundtrip (cfg : Config) (hv : cfg.Valid) (pHeap : Heap_t)
    (hwf : pHeap.WF cfg)
    (hflag : ∀ i, block_allocated pHeap.pages i = false → block_has_next pHeap.pages i = false)
    (n_bytes : Nat) (hn : 1 ≤ ceil_div n_bytes cfg.HEAP_BLOCK_SIZE)
    (hp : (heap_alloc_impl cfg pHeap n_bytes).2 ≠ 0) :
    heap_free_impl cfg (heap_alloc_impl cfg pHeap n_bytes).1
      (heap_alloc_impl cfg pHeap n_bytes).2 = pHeap := by
  rw [← n_blocks_of_eq_ceil_div cfg n_bytes hv.1] at hn
  obtain ⟨k, hrun, _, heq⟩ := heap_alloc_impl_success cfg hv pHeap n_bytes hn hp
  rw [heq]
  simp only []
  have hch := chain_after_mark cfg hv pHeap hwf k _ hn hrun.1
  have hwf1 := set_allocation_state_wf cfg pHeap k (n_blocks_of cfg n_bytes) true hwf
  obtain ⟨f1, f2⟩ := heap_free_impl_chain cfg hv _ hwf1 k _ hch
  rw [set_allocation_state_base] at f1 f2
  obtain ⟨_, m2, _⟩ := set_allocation_state_mark_free cfg hv pHeap hwf k _ hn hrun
  apply Heap_t.ext_flags cfg pHeap _ hwf (heap_free_impl_wf _ _ _ hwf1)
    (by rw [heap_free_impl_base, set_allocation_state_base])
  · intro i
    rw [f1 i]
    by_cases hi : k ≤ i ∧ i < k + n_blocks_of cfg n_bytes
    · rw [if_pos hi, hrun.2 i hi.1 hi.2]
    · rw [if_neg hi]
      exact (m2 i hi).1
  · intro i
    rw [f2 i]
    by_cases hi : k ≤ i ∧ i < k + n_blocks_of cfg n_bytes
    · rw [if_pos hi, hflag i (hrun.2 i hi.1 hi.2)]
    · rw [if_neg hi]
      exact (m2 i hi).2

theorem heap_free_impl_alloc_roundtrip_witness :
    defaultConfig.Valid ∧ heapAfterFree.WF defaultConfig ∧
    (∀ i, block_allocated heapAfterFree.pages i = false →
      block_has_next heapAfterFree.pages i = false) ∧
    1 ≤ ceil_div 200 defaultConfig.HEAP_BLOCK_SIZE ∧
    (heap_alloc_impl defaultConfig heapAfterFree 200).2 ≠ 0 ∧
    heap_free_impl defaultConfig (heap_alloc_impl defaultConfig heapAfterFree 200).1
      (heap_alloc_impl defaultConfig heapAfterFree 200).2 = heapAfterFree :=
  ⟨by decide, by decide, reachable_heapAfterFree.flagInv_free, by decide, by decide,
    heap_free_impl_alloc_roundtrip defaultConfig (by decide) heapAfterFree (by decide)
      reachable_heapAfterFree.flagInv_free 200 (by decide) (by decide)⟩

/-- C19 (the boundary address). For every tracker state, the address `base + HEAP_TOTAL_SIZE`
passes the bounds check of `heap_free_impl` and has the block index `HEAP_BLOCK_COUNT`, whose
page index is `HEAP_PAGE_COUNT`, so the loop of `set_allocation_state` visits no page and
`heap_free_impl` returns the tracker state it was given: no block flag changes. -/
theorem heap_free_impl_boundary (cfg : Config) (hv : cfg.Valid) (pHeap : Heap_t) :
    (pHeap.p_base_addr + cfg.HEAP_TOTAL_SIZE ≥ pHeap.p_base_addr ∧
      pHeap.p_base_addr + cfg.HEAP_TOTAL_SIZE ≤ pHeap.p_base_addr + cfg.HEAP_TOTAL_SIZE) ∧
    block_number_by_addr cfg pHeap (pHeap.p_base_addr + cfg.HEAP_TOTAL_SIZE) =
      cfg.HEAP_BLOCK_COUNT ∧
    cfg.HEAP_BLOCK_COUNT / HEAP_PAGE_BLOCKS = cfg.HEAP_PAGE_COUNT ∧
    heap_free_impl cfg pHeap (pHeap.p_base_addr + cfg.HEAP_TOTAL_SIZE) = pHeap := by
  have hbn : block_number_by_addr cfg pHeap (pHeap.p_base_addr + cfg.HEAP_TOTAL_SIZE) =
      cfg.HEAP_BLOCK_COUNT := by
    rw [block_number_by_addr_of_ge _ _ _ (by omega), Nat.add_sub_cancel_left]
    exact u32_of_lt _ hv.count_lt
  refine ⟨⟨by omega, Nat.le_refl _⟩, hbn, rfl, ?_⟩
  unfold heap_free_impl
  rw [if_pos ⟨by omega, Nat.le_refl _⟩]
  simp only [hbn]
  exact set_allocation_state_outside cfg pHeap _ 0 false (by
    unfold Config.HEAP_PAGE_COUNT HEAP_PAGE_BLOCKS
    exact Nat.le_refl _)

theorem heap_free_impl_boundary_witness :
    defaultConfig.Valid ∧
    (heapAfterFree.p_base_addr + defaultConfig.HEAP_TOTAL_SIZE ≥ heapAfterFree.p_base_addr ∧
      heapAfterFree.p_base_addr + defaultConfig.HEAP_TOTAL_SIZE ≤
        heapAfterFree.p_base_addr + defaultConfig.HEAP_TOTAL_SIZE) ∧
    block_number_by_addr defaultConfig heapAfterFree
      (heapAfterFree.p_base_addr + defaultConfig.HEAP_TOTAL_SIZE) =
      defaultConfig.HEAP_BLOCK_COUNT ∧
    defaultConfig.HEAP_BLOCK_COUNT / HEAP_PAGE_BLOCKS = defaultConfig.HEAP_PAGE_COUNT ∧
    heap_free_impl defaultConfig heapAfterFree
      (heapAfterFree.p_base_addr + defaultConfig.HEAP_TOTAL_SIZE) = heapAfterFree :=
  ⟨by decide, heap_free_impl_boundary defaultConfig (by decide) heapAfterFree⟩

/-! ## The chunk invariant under arbitrary calls on a chunk start -/

/-- In a state with well-formed `has_next` flags, an allocated block that the block before it
does not continue into is the first block of a chunk. -/
theorem exists_chunk (pages : List Nat) (N f : Nat) (hN : 4 * pages.length ≤ N)
    (hcw : ChainsWF pages N) (ha : block_allocated pages f = true)
    (hs : ∀ j, j + 1 = f → block_has_next pages j = false) :
    ∃ c, IsChunk pages N f c := by
  have hf : f < N := by
    by_contra hge
    rw [block_allocated_outside pages f (by omega)] at ha
    exact Bool.noConfusion ha
  obtain ⟨c, c1, c2, c3, c4⟩ := exists_chain pages N (N - f) f (by omega) (by omega)
  refine ⟨c, c1, c2, ?_, c3, ?_, hs⟩
  · intro i h1 h2
    by_cases hi : i = f
    · rw [hi]; exact ha
    · have := (hcw (i - 1) (c3 (i - 1) (by omega) (by omega))).2.2
      have e : i - 1 + 1 = i := by omega
      rw [e] at this
      exact this
  · by_cases hlt : f + c < N
    · exact c4 hlt
    · cases hn : block_has_next pages (f + c - 1) with
      | false => rfl
      | true =>
        have := (hcw _ hn).2.1
        omega

/-- The two calls of `heap_truncate_impl` on the first block `f` of a chunk of `c` blocks, for
a new block count `nb ≤ c`. -/
theorem truncate_calls_chainsWF (cfg : Config) (hv : cfg.Valid) (pHeap : Heap_t)
    (hwf : pHeap.WF cfg) (hcw : ChainsWF pHeap.pages cfg.HEAP_BLOCK_COUNT) (f c nb : Nat)
    (hch : IsChunk pHeap.pages cfg.HEAP_BLOCK_COUNT f c) (hnb : nb ≤ c) :
    ChainsWF (set_allocation_state cfg (set_allocation_state cfg pHeap f 0 false) f nb
      true).pages cfg.HEAP_BLOCK_COUNT := by
  have hcnt := hv.count_lt
  have hfc : f + c ≤ cfg.HEAP_BLOCK_COUNT := hch.2.1
  have hc := hch.chain
  rw [← hv.blocks] at hc
  obtain ⟨_, c2, c3, _⟩ := set_allocation_state_clear cfg pHeap f 0 c hwf.1 hc
  obtain ⟨i1, _⟩ := inv_clear _ _ _ f c c2 c3 hch hcw
  by_cases h0 : nb = 0
  · rw [h0, set_allocation_state_mark_zero]
    exact i1
  · have hwf1 := set_allocation_state_wf cfg pHeap f 0 false hwf
    have hrun : FreeRun (set_allocation_state cfg pHeap f 0 false).pages
        cfg.HEAP_BLOCK_COUNT f nb := by
      refine ⟨by omega, ?_⟩
      intro i h1 h2
      rw [c2 i, if_pos ⟨h1, by omega⟩]
    obtain ⟨_, m2, m3, _⟩ := set_allocation_state_mark cfg
      (set_allocation_state cfg pHeap f 0 false) f nb hwf1.1 (by omega)
      (by rw [hv.blocks]; omega) (by omega)
    exact (inv_mark _ _ _ f nb m2 m3 (by omega) hrun i1).1

theorem heap_alloc_impl_chainsWF (cfg : Config) (hv : cfg.Valid) (pHeap : Heap_t)
    (hwf : pHeap.WF cfg) (hcw : ChainsWF pHeap.pages cfg.HEAP_BLOCK_COUNT) (n_bytes : Nat) :
    ChainsWF (heap_alloc_impl cfg pHeap n_bytes).1.pages cfg.HEAP_BLOCK_COUNT := by
  by_cases h0 : n_blocks_of cfg n_bytes = 0
  · unfold heap_alloc_impl
    simp only [h0]
    split
    · simp only [set_allocation_state_mark_zero]
      exact hcw
    · exact hcw
  · have hn : 1 ≤ n_blocks_of cfg n_bytes := by omega
    rcases heap_alloc_impl_cases cfg hv pHeap n_bytes hn with ⟨k0, h1, _, h3⟩ | ⟨_, h2⟩
    · have hN : k0 + n_blocks_of cfg n_bytes ≤ 4 * cfg.HEAP_PAGE_COUNT := by
        rw [hv.blocks]; exact h1.1
      have h32 : k0 + n_blocks_of cfg n_bytes < 4294967296 := by
        have := hv.count_lt
        have := h1.1
        omega
      obtain ⟨_, m2, m3, _⟩ := set_allocation_state_mark cfg pHeap k0 _ hwf.1 hn hN h32
      rw [h3]
      exact (inv_mark _ _ _ k0 _ m2 m3 hn h1 hcw).1
    · rw [h2]
      exact hcw

/-- C17 (chunk invariant). The predicate "every block with `has_next` set is allocated and is
followed, inside the arena, by an allocated block" holds after `heap_init_impl`; from every
tracker state in which it holds it is kept by `heap_alloc_impl` with any request size, and by
`heap_free_impl` and `heap_truncate_impl` (with any new size) on an address that maps to the
first block of a chunk; and in every state in which it holds the last block of the arena does
not have `has_next` set. -/
theorem chains_wf_preserved (cfg : Config) (hv : cfg.Valid) (pHeap : Heap_t)
    (hwf : pHeap.WF cfg) (hcw : ChainsWF pHeap.pages cfg.HEAP_BLOCK_COUNT)
    (base n_bytes p m : Nat) :
    ChainsWF (heap_init_impl cfg base).pages cfg.HEAP_BLOCK_COUNT ∧
    ChainsWF (heap_alloc_impl cfg pHeap n_bytes).1.pages cfg.HEAP_BLOCK_COUNT ∧
    (IsChunkStart cfg pHeap p →
      ChainsWF (heap_free_impl cfg pHeap p).pages cfg.HEAP_BLOCK_COUNT) ∧
    (IsChunkStart cfg pHeap p →
      ChainsWF (heap_truncate_impl cfg pHeap p m).pages cfg.HEAP_BLOCK_COUNT) ∧
    (∀ i, i + 1 = cfg.HEAP_BLOCK_COUNT → block_has_next pHeap.pages i = false) := by
  have hlenN : 4 * pHeap.pages.length ≤ cfg.HEAP_BLOCK_COUNT := by
    rw [hwf.1, hv.blocks]
  refine ⟨?_, heap_alloc_impl_chainsWF cfg hv pHeap hwf hcw n_bytes, ?_, ?_, ?_⟩
  · intro i hi
    rw [block_has_next_init] at hi
    exact Bool.noConfusion hi
  · intro hs
    obtain ⟨c, hch⟩ := exists_chunk pHeap.pages cfg.HEAP_BLOCK_COUNT _ hlenN hcw hs.1 hs.2
    unfold heap_free_impl
    split
    · have hc := hch.chain
      rw [← hv.blocks] at hc
      obtain ⟨_, c2, c3, _⟩ := set_allocation_state_clear cfg pHeap _ 0 c hwf.1 hc
      exact (inv_clear _ _ _ _ c c2 c3 hch hcw).1
    · exact hcw
  · intro hs
    obtain ⟨c, hch⟩ := exists_chunk pHeap.pages cfg.HEAP_BLOCK_COUNT _ hlenN hcw hs.1 hs.2
    have hc := hch.chain
    rw [← hv.blocks] at hc
    have hsize := heap_block_size_impl_chain cfg pHeap p c hc
    rw [u32_of_lt _ (hv.bytes cfg _ (by have := hch.2.1; omega))] at hsize
    unfold heap_truncate_impl
    split
    · rename_i hgt
      rw [hsize] at hgt
      simp only []
      apply truncate_calls_chainsWF cfg hv pHeap hwf hcw _ c _ hch
      by_cases hm0 : m = 0
      · rw [hm0]
        have : n_blocks_of cfg 0 = 0 := by simp [n_blocks_of]
        omega
      · rw [n_blocks_of_eq_ceil_div cfg m hv.1]
        exact ceil_div_le m c _ hv.1 hgt
    · exact hcw
  · intro i hi
    cases hn : block_has_next pHeap.pages i with
    | false => rfl
    | true =>
      have := (hcw i hn).2.1
      omega

theorem chainsWF_heapAfterFree : ChainsWF heapAfterFree.pages defaultConfig.HEAP_BLOCK_COUNT :=
  (legit_heapAfterFree.inv defaultConfig (by decide)).2.1

theorem isChunkStart_heapAfterFree : IsChunkStart defaultConfig heapAfterFree 1384 := by
  have hb : block_number_by_addr defaultConfig heapAfterFree 1384 = 6 := by decide
  unfold IsChunkStart
  rw [hb]
  refine ⟨by decide, ?_⟩
  intro j hj
  have : j = 5 := by omega
  rw [this]
  decide

theorem chains_wf_preserved_witness :
    defaultConfig.Valid ∧ heapAfterFree.WF defaultConfig ∧
    ChainsWF heapAfterFree.pages defaultConfig.HEAP_BLOCK_COUNT ∧
    IsChunkStart defaultConfig heapAfterFree 1384 ∧
    ChainsWF (heap_init_impl defaultConfig 1000).pages defaultConfig.HEAP_BLOCK_COUNT ∧
    ChainsWF (heap_alloc_impl defaultConfig heapAfterFree 200).1.pages
      defaultConfig.HEAP_BLOCK_COUNT ∧
    ChainsWF (heap_free_impl defaultConfig heapAfterFree 1384).pages
      defaultConfig.HEAP_BLOCK_COUNT ∧
    ChainsWF (heap_truncate_impl defaultConfig heapAfterFree 1384 100).pages
      defaultConfig.HEAP_BLOCK_COUNT ∧
    block_has_next heapAfterFree.pages 127 = false :=
  have h := chains_wf_preserved defaultConfig (by decide) heapAfterFree (by decide)
    chainsWF_heapAfterFree 1000 200 1384 100
  ⟨by decide, by decide, chainsWF_heapAfterFree, isChunkStart_heapAfterFree, h.1, h.2.1,
    h.2.2.1 isChunkStart_heapAfterFree, h.2.2.2.1 isChunkStart_heapAfterFree,
    h.2.2.2.2 127 (by decide)⟩

/-! ## Truncation to zero bytes -/

/-- C20 (truncation to 0 bytes). For every tracker state and every block-aligned address `p`
inside `[base, base + HEAP_TOTAL_SIZE)` (the total size being a multiple of the block size),
`heap_truncate_impl p 0` returns exactly the tracker state that `heap_free_impl p` returns,
and in that state `heap_block_size_impl p` reports `HEAP_BLOCK_SIZE` (one block), not 0. -/
theorem heap_truncate_impl_zero_eq_free (cfg : Config) (hv : cfg.Valid) (pHeap : Heap_t)
    (hwf : pHeap.WF cfg) (hdiv : cfg.HEAP_TOTAL_SIZE % cfg.HEAP_BLOCK_SIZE = 0) (p : Nat)
    (hge : pHeap.p_base_addr ≤ p) (hlt : p < pHeap.p_base_addr + cfg.HEAP_TOTAL_SIZE)
    (_hal : (p - pHeap.p_base_addr) % cfg.HEAP_BLOCK_SIZE = 0) :
    heap_truncate_impl cfg pHeap p 0 = heap_free_impl cfg pHeap p ∧
    heap_block_size_impl cfg (heap_free_impl cfg pHeap p) p = cfg.HEAP_BLOCK_SIZE ∧
    cfg.HEAP_BLOCK_SIZE ≠ 0 := by
  have hbs := hv.1
  have hcnt := hv.count_lt
  have htot : cfg.HEAP_BLOCK_COUNT * cfg.HEAP_BLOCK_SIZE = cfg.HEAP_TOTAL_SIZE :=
    Nat.div_mul_cancel (Nat.dvd_of_mod_eq_zero hdiv)
  have hq : (p - pHeap.p_base_addr) / cfg.HEAP_BLOCK_SIZE < cfg.HEAP_BLOCK_COUNT := by
    rw [Nat.div_lt_iff_lt_mul hbs, htot]
    omega
  have hbn : block_number_by_addr cfg pHeap p = (p - pHeap.p_base_addr) / cfg.HEAP_BLOCK_SIZE := by
    rw [block_number_by_addr_of_ge _ _ _ hge]
    exact u32_of_lt _ (by omega)
  have hin : block_number_by_addr cfg pHeap p < cfg.HEAP_BLOCK_COUNT := by rw [hbn]; exact hq
  have hfree : heap_free_impl cfg pHeap p =
      set_allocation_state cfg pHeap (block_number_by_addr cfg pHeap p) 0 false := by
    unfold heap_free_impl
    rw [if_pos ⟨hge, by omega⟩]
  have hsz : cfg.HEAP_BLOCK_SIZE ≤ heap_block_size_impl cfg pHeap p := by
    obtain ⟨c0, hc0, hs0⟩ := heap_block_size_impl_inside cfg hv pHeap p hin
    rw [hs0]
    have := Nat.mul_le_mul_right cfg.HEAP_BLOCK_SIZE hc0.1
    omega
  have htr : heap_truncate_impl cfg pHeap p 0 = heap_free_impl cfg pHeap p := by
    unfold heap_truncate_impl
    rw [if_pos (by omega)]
    have : n_blocks_of cfg 0 = 0 := by simp [n_blocks_of]
    simp only [this, set_allocation_state_mark_zero]
    exact hfree.symm
  refine ⟨htr, ?_, by omega⟩
  -- after the release the block of `p` has `has_next` clear, so the walk visits one block
  obtain ⟨c, hc⟩ := exists_chain pHeap.pages cfg.HEAP_BLOCK_COUNT
    (cfg.HEAP_BLOCK_COUNT - block_number_by_addr cfg pHeap p)
    (block_number_by_addr cfg pHeap p) (by omega) (by omega)
  have hc4 := hc
  rw [← hv.blocks] at hc4
  obtain ⟨_, _, c3, _⟩ := set_allocation_state_clear cfg pHeap _ 0 c hwf.1 hc4
  have hbn2 : block_number_by_addr cfg (heap_free_impl cfg pHeap p) p =
      block_number_by_addr cfg pHeap p := by
    unfold block_number_by_addr
    rw [heap_free_impl_base]
  have hone : Chain (heap_free_impl cfg pHeap p).pages (4 * cfg.HEAP_PAGE_COUNT)
      (block_number_by_addr cfg (heap_free_impl cfg pHeap p) p) 1 := by
    rw [hbn2, hv.blocks]
    refine ⟨Nat.le_refl _, by omega, ?_, ?_⟩
    · intro i h1 h2; omega
    · intro _
      rw [hfree, c3, if_pos ⟨by omega, by have := hc.1; omega⟩]
  rw [heap_block_size_impl_chain cfg _ p 1 hone, Nat.one_mul]
  apply u32_of_lt
  have := hv.bytes cfg 1 (by omega)
  omega

theorem heap_truncate_impl_zero_eq_free_witness :
    defaultConfig.Valid ∧ heapAfterFree.WF defaultConfig ∧
    defaultConfig.HEAP_TOTAL_SIZE % defaultConfig.HEAP_BLOCK_SIZE = 0 ∧
    heapAfterFree.p_base_addr ≤ 1384 ∧
    1384 < heapAfterFree.p_base_addr + defaultConfig.HEAP_TOTAL_SIZE ∧
    (1384 - heapAfterFree.p_base_addr) % defaultConfig.HEAP_BLOCK_SIZE = 0 ∧
    heap_truncate_impl defaultConfig heapAfterFree 1384 0 =
      heap_free_impl defaultConfig heapAfterFree 1384 ∧
    heap_block_size_impl defaultConfig (heap_free_impl defaultConfig heapAfterFree 1384) 1384 =
      defaultConfig.HEAP_BLOCK_SIZE ∧
    defaultConfig.HEAP_BLOCK_SIZE ≠ 0 :=
  ⟨by decide, by decide, by decide, by decide, by decide, by decide,
    heap_truncate_impl_zero_eq_free defaultConfig (by decide) heapAfterFree (by decide)
      (by decide) 1384 (by decide) (by decide) (by decide)⟩

/-! ## The packed pages refine an array of flag pairs -/

theorem flags_of_length (N : Nat) (pages : List Nat) : (flags_of N pages).length = N := by
  simp [flags_of]

theorem flags_of_getElem? (N : Nat) (pages : List Nat) (i : Nat) :
    (flags_of N pages)[i]? =
      if i < N then some (block_allocated pages i, block_has_next pages i) else none := by
  unfold flags_of
  by_cases h : i < N
  · rw [if_pos h, List.getElem?_map, List.getElem?_range h]
    rfl
  · rw [if_neg h, List.getElem?_eq_none (by simp; omega)]

theorem flags_of_getD (N : Nat) (pages : List Nat) (i : Nat) (h : i < N) :
    (flags_of N pages).getD i (false, false) =
      (block_allocated pages i, block_has_next pages i) := by
  rw [List.getD_eq_getElem?_getD, flags_of_getElem?, if_pos h]
  rfl

/-- A write to the pages that acts on the flags as a write of the pair `v` at block `cur`. -/
theorem flags_of_set (N : Nat) (pages pages' : List Nat) (cur : Nat) (v : Bool × Bool)
    (hA : ∀ i, block_allocated pages' i = if i = cur then v.1 else block_allocated pages i)
    (hH : ∀ i, block_has_next pages' i = if i = cur then v.2 else block_has_next pages i) :
    flags_of N pages' = (flags_of N pages).set cur v := by
  apply List.ext_getElem?
  intro i
  rw [List.getElem?_set, flags_of_getElem?, flags_of_getElem?, flags_of_length, hA i, hH i]
  by_cases hi : cur = i
  · subst hi
    simp
  · have hi2 : ¬ (i = cur) := fun h => hi h.symm
    simp [hi, hi2]

theorem flags_of_mark_block (N : Nat) (pages : List Nat) (cur : Nat)
    (hl : cur / 4 < pages.length) :
    flags_of N (mark_block pages cur) = (flags_of N pages).set cur (true, true) := by
  apply flags_of_set
  · intro i
    rw [allocated_mark_block _ _ _ hl]
    by_cases h : i = cur <;> simp [h]
  · intro i
    rw [has_next_mark_block _ _ _ hl]
    by_cases h : i = cur <;> simp [h]

theorem flags_of_clear_block (N : Nat) (pages : List Nat) (cur : Nat)
    (hl : cur / 4 < pages.length) :
    flags_of N (clear_block pages cur) = (flags_of N pages).set cur (false, false) := by
  apply flags_of_set
  · intro i
    rw [allocated_clear_block _ _ _ hl]
    by_cases h : i = cur <;> simp [h]
  · intro i
    rw [has_next_clear_block _ _ _ hl]
    by_cases h : i = cur <;> simp [h]

theorem flags_of_clear_next_block (N : Nat) (pages : List Nat) (cur : Nat)
    (hl : cur / 4 < pages.length) (hN : cur < N) :
    flags_of N (clear_next_block pages cur) =
      (flags_of N pages).set cur (((flags_of N pages).getD cur (false, false)).1, false) := by
  rw [flags_of_getD N pages cur hN]
  apply flags_of_set
  · intro i
    rw [allocated_clear_next_block _ _ _ hl]
    by_cases h : i = cur <;> simp [h]
  · intro i
    rw [has_next_clear_next_block _ _ _ hl]
    by_cases h : i = cur <;> simp [h]

/-- One step of `set_allocation_state` on the pages is the step on the flag pairs. -/
theorem sas_flat_refines (N fb bc : Nat) (al : Bool) (cur : Nat) (pages : List Nat)
    (hN : cur < N) (hl : N ≤ 4 * pages.length) :
    (sas_flat fb bc al cur pages).map (flags_of N) =
      set_allocation_state_flags_body fb bc al cur (flags_of N pages) := by
  have hl1 : cur / 4 < pages.length := by omega
  have hl2 : cur / 4 < (mark_block pages cur).length := by rw [length_mark_block]; exact hl1
  unfold sas_flat set_allocation_state_flags_body
  by_cases h1 : cur ≥ fb
  · rw [if_pos h1, if_pos h1]
    by_cases h2 : (al && decide (cur < u32 (fb + bc))) = true
    · rw [if_pos h2, if_pos h2]
      by_cases h3 : cur = u32 (fb + bc + 4294967295)
      · rw [if_pos h3]
        simp only []
        rw [if_pos h3]
        simp only [Ctl.map]
        rw [flags_of_clear_next_block N _ cur hl2 hN, flags_of_mark_block N pages cur hl1]
      · rw [if_neg h3]
        simp only []
        rw [if_neg h3]
        simp only [Ctl.map]
        rw [flags_of_mark_block N pages cur hl1]
    · rw [if_neg h2, if_neg h2]
      by_cases h4 : (!al) = true
      · rw [if_pos h4, if_pos h4]
        simp only []
        rw [flags_of_getD N pages cur hN]
        simp only []
        by_cases h5 : block_has_next pages cur = false
        · rw [if_pos h5, if_pos h5]
          simp only [Ctl.map]
          rw [flags_of_clear_block N pages cur hl1]
        · rw [if_neg h5, if_neg h5]
          simp only [Ctl.map]
          rw [flags_of_clear_block N pages cur hl1]
      · rw [if_neg h4, if_neg h4]
        rfl
  · rw [if_neg h1, if_neg h1]
    rfl

theorem forFlat_map {σ τ : Type} (f : σ → τ) (body : Nat → σ → Ctl σ)
    (body' : Nat → τ → Ctl τ) (P : σ → Prop) (N : Nat)
    (hstep : ∀ cur s, cur < N → P s →
      (body cur s).map f = body' cur (f s) ∧ P (body cur s).val) :
    ∀ (k cur : Nat) (s : σ), cur + k ≤ N → P s →
      (forFlat body k cur s).map f = forFlat body' k cur (f s) := by
  intro k
  induction k with
  | zero => intro cur s _ _; rfl
  | succ k ih =>
    intro cur s hk hP
    obtain ⟨h1, h2⟩ := hstep cur s (by omega) hP
    simp only [forFlat]
    rw [← h1]
    cases hb : body cur s with
    | next s1 =>
      rw [hb] at h2
      simp only [Ctl.map]
      exact ih (cur + 1) s1 (by omega) h2
    | stop s1 => rfl

theorem forFlat_skip {σ : Type} (body : Nat → σ → Ctl σ) (fb : Nat)
    (hskip : ∀ cur s, cur < fb → body cur s = .next s) :
    ∀ (k cur : Nat) (s : σ), cur + k ≤ fb → forFlat body k cur s = .next s := by
  intro k
  induction k with
  | zero => intro cur s _; rfl
  | succ k ih =>
    intro cur s hk
    simp only [forFlat]
    rw [hskip cur s (by omega)]
    exact ih (cur + 1) s (by omega)

theorem forFlat_congr {σ : Type} (body body' : Nat → σ → Ctl σ) (N : Nat)
    (h : ∀ cur s, cur < N → body cur s = body' cur s) :
    ∀ (k cur : Nat) (s : σ), cur + k ≤ N → forFlat body k cur s = forFlat body' k cur s := by
  intro k
  induction k with
  | zero => intro cur s _; rfl
  | succ k ih =>
    intro cur s hk
    simp only [forFlat]
    rw [h cur s (by omega)]
    cases body' cur s with
    | next s1 => exact ih (cur + 1) s1 (by omega)
    | stop s1 => rfl

/-- The loops of the source start at the first block of the page of `fb`; the blocks before
`fb` are passed over, so the loop can as well start at `fb`. -/
theorem forFlat_from_page {σ : Type} (body : Nat → σ → Ctl σ) (fb P : Nat) (s : σ)
    (hskip : ∀ cur s, cur < fb → body cur s = .next s) :
    forFlat body (4 * (P - fb / 4)) (fb / 4 * 4) s = forFlat body (4 * P - fb) fb s := by
  by_cases hlt : fb < 4 * P
  · have e : 4 * (P - fb / 4) = (fb - fb / 4 * 4) + (4 * P - fb) := by omega
    rw [e, forFlat_add, forFlat_skip body fb hskip _ _ _ (by omega)]
    simp only []
    have e2 : fb / 4 * 4 + (fb - fb / 4 * 4) = fb := by omega
    rw [e2]
  · have e1 : 4 * (P - fb / 4) = 0 := by omega
    have e2 : 4 * P - fb = 0 := by omega
    rw [e1, e2]
    rfl

theorem set_allocation_state_refines (cfg : Config) (hv : cfg.Valid) (pHeap : Heap_t)
    (hwf : pHeap.WF cfg) (fb bc : Nat) (al : Bool) :
    flags_of cfg.HEAP_BLOCK_COUNT (set_allocation_state cfg pHeap fb bc al).pages =
      set_allocation_state_flags cfg.HEAP_BLOCK_COUNT
        (flags_of cfg.HEAP_BLOCK_COUNT pHeap.pages) fb bc al := by
  rw [set_allocation_state_pages, forFlat_from_page _ fb _ _ (by
    intro cur s h
    unfold sas_flat
    rw [if_neg (by omega)])]
  unfold set_allocation_state_flags
  rw [hv.blocks]
  have h := forFlat_map (flags_of cfg.HEAP_BLOCK_COUNT) (sas_flat fb bc al)
    (set_allocation_state_flags_body fb bc al)
    (fun pages => cfg.HEAP_BLOCK_COUNT ≤ 4 * pages.length) cfg.HEAP_BLOCK_COUNT
    (by
      intro cur s hc hP
      refine ⟨sas_flat_refines _ fb bc al cur s hc hP, ?_⟩
      show cfg.HEAP_BLOCK_COUNT ≤ 4 * (sas_flat fb bc al cur s).val.length
      rw [(sas_flat_wf fb bc al cur s).1]
      exact hP)
    (cfg.HEAP_BLOCK_COUNT - fb) fb pHeap.pages
  by_cases hlt : fb ≤ cfg.HEAP_BLOCK_COUNT
  · have h2 := h (by omega) (by rw [hwf.1, hv.blocks])
    rw [← h2]
    cases forFlat (sas_flat fb bc al) (cfg.HEAP_BLOCK_COUNT - fb) fb pHeap.pages <;> rfl
  · have e : cfg.HEAP_BLOCK_COUNT - fb = 0 := by omega
    rw [e]
    rfl

theorem heap_block_size_refines (cfg : Config) (hv : cfg.Valid) (pHeap : Heap_t) (p : Nat) :
    heap_block_size_impl cfg pHeap p =
      heap_block_size_flags cfg (flags_of cfg.HEAP_BLOCK_COUNT pHeap.pages)
        (block_number_by_addr cfg pHeap p) := by
  rw [heap_block_size_impl_eq, forFlat_from_page _ _ _ _ (by
    intro cur s h
    unfold bs_flat
    rw [if_neg (by omega)])]
  unfold heap_block_size_flags
  rw [hv.blocks]
  by_cases hlt : block_number_by_addr cfg pHeap p ≤ cfg.HEAP_BLOCK_COUNT
  · rw [forFlat_congr (bs_flat (block_number_by_addr cfg pHeap p) pHeap.pages)
      (heap_block_size_flags_body (block_number_by_addr cfg pHeap p)
        (flags_of cfg.HEAP_BLOCK_COUNT pHeap.pages)) cfg.HEAP_BLOCK_COUNT (by
        intro cur s hc
        unfold bs_flat heap_block_size_flags_body
        rw [flags_of_getD _ _ _ hc]) _ _ _ (by omega)]
  · have e : cfg.HEAP_BLOCK_COUNT - block_number_by_addr cfg pHeap p = 0 := by omega
    rw [e]
    rfl

theorem forFlat_avail_flags (N : Nat) (pages : List Nat) :
    ∀ (k cur : Nat), cur + k ≤ N →
      forFlat (heap_available_space_flags_body (flags_of N pages)) k cur
        (free_count pages cur) = .next (free_count pages (cur + k)) := by
  intro k
  induction k with
  | zero => intro cur _; rfl
  | succ k ih =>
    intro cur hk
    have he : cur + (k + 1) = cur + 1 + k := by omega
    simp only [forFlat]
    unfold heap_available_space_flags_body
    rw [flags_of_getD N pages cur (by omega)]
    simp only []
    by_cases h : block_allocated pages cur = false
    · rw [if_pos h]
      simp only []
      have : free_count pages cur + 1 = free_count pages (cur + 1) := by
        simp [free_count, h]
      rw [this, he]
      exact ih (cur + 1) (by omega)
    · rw [if_neg h]
      simp only []
      have : free_count pages cur = free_count pages (cur + 1) := by
        simp [free_count, h]
      rw [this, he]
      exact ih (cur + 1) (by omega)

theorem heap_available_space_refines (cfg : Config) (hv : cfg.Valid) (pHeap : Heap_t) :
    heap_available_space_impl cfg pHeap =
      heap_available_space_flags cfg (flags_of cfg.HEAP_BLOCK_COUNT pHeap.pages) := by
  rw [heap_available_space_impl_eq, hv.blocks]
  unfold heap_available_space_flags
  have h := forFlat_avail_flags cfg.HEAP_BLOCK_COUNT pHeap.pages cfg.HEAP_BLOCK_COUNT 0
    (by omega)
  simp only [free_count, Nat.zero_add] at h
  rw [h]
  rfl

/-- C16 (the packed descriptor refines a per-block flag array). For every page byte `page`
and every block index `i` below the block count: the masks of block `i` are the bits
`2 * (i mod 4)` and `2 * (i mod 4) + 1` of the page `i div 4`; `|= BIT_BLOCK_ALL_BITS` sets
these two bits, `&= ~BIT_BLOCK_ALL_BITS` clears them, `&= ~BIT_BLOCK_HAS_NEXT` clears the
second one, each leaving every other bit of the byte as it is and the result a byte; on the
page array these writes change no flag of any other block; so `set_allocation_state`,
`heap_block_size_impl` and `heap_available_space_impl` on the pages compute what the same
algorithms compute on the array of `(allocated, has_next)` pairs of the pages. -/
theorem packed_flags_refinement (cfg : Config) (hv : cfg.Valid) (pHeap : Heap_t)
    (hwf : pHeap.WF cfg) (i : Nat) (hi : i < cfg.HEAP_BLOCK_COUNT) (page : Nat)
    (hpage : page < 256) (first_block block_count : Nat) (allocate : Bool) (p_block : Nat) :
    (∀ b, b < 8 →
      (page ||| BIT_BLOCK_ALL_BITS (i % 4)).testBit b =
        (decide (b = 2 * (i % 4)) || decide (b = 2 * (i % 4) + 1) || page.testBit b) ∧
      (page &&& (0xFF ^^^ BIT_BLOCK_ALL_BITS (i % 4))).testBit b =
        (!(decide (b = 2 * (i % 4)) || decide (b = 2 * (i % 4) + 1)) && page.testBit b) ∧
      (page &&& (0xFF ^^^ BIT_BLOCK_HAS_NEXT (i % 4))).testBit b =
        (!decide (b = 2 * (i % 4) + 1) && page.testBit b)) ∧
    ((page ||| BIT_BLOCK_ALL_BITS (i % 4)) < 256 ∧
      (page &&& (0xFF ^^^ BIT_BLOCK_ALL_BITS (i % 4))) < 256 ∧
      (page &&& (0xFF ^^^ BIT_BLOCK_HAS_NEXT (i % 4))) < 256) ∧
    (block_allocated pHeap.pages i = (pHeap.pages.getD (i / 4) 0).testBit (2 * (i % 4)) ∧
      block_has_next pHeap.pages i = (pHeap.pages.getD (i / 4) 0).testBit (2 * (i % 4) + 1)) ∧
    (∀ j, j ≠ i →
      (block_allocated (mark_block pHeap.pages i) j = block_allocated pHeap.pages j ∧
        block_has_next (mark_block pHeap.pages i) j = block_has_next pHeap.pages j) ∧
      (block_allocated (clear_block pHeap.pages i) j = block_allocated pHeap.pages j ∧
        block_has_next (clear_block pHeap.pages i) j = block_has_next pHeap.pages j) ∧
      (block_allocated (clear_next_block pHeap.pages i) j = block_allocated pHeap.pages j ∧
        block_has_next (clear_next_block pHeap.pages i) j = block_has_next pHeap.pages j)) ∧
    flags_of cfg.HEAP_BLOCK_COUNT
        (set_allocation_state cfg pHeap first_block block_count allocate).pages =
      set_allocation_state_flags cfg.HEAP_BLOCK_COUNT
        (flags_of cfg.HEAP_BLOCK_COUNT pHeap.pages) first_block block_count allocate ∧
    heap_block_size_impl cfg pHeap p_block =
      heap_block_size_flags cfg (flags_of cfg.HEAP_BLOCK_COUNT pHeap.pages)
        (block_number_by_addr cfg pHeap p_block) ∧
    heap_available_space_impl cfg pHeap =
      heap_available_space_flags cfg (flags_of cfg.HEAP_BLOCK_COUNT pHeap.pages) := by
  have hj : i % 4 < 4 := Nat.mod_lt _ (by decide)
  have hl : i / 4 < pHeap.pages.length := by
    have := hv.blocks
    have := hwf.1
    omega
  refine ⟨?_, ?_, ⟨block_allocated_eq_testBit _ _, block_has_next_eq_testBit _ _⟩, ?_,
    set_allocation_state_refines cfg hv pHeap hwf _ _ _,
    heap_block_size_refines cfg hv pHeap _, heap_available_space_refines cfg hv pHeap⟩
  · intro b hb
    refine ⟨?_, ?_, ?_⟩
    · rw [Nat.testBit_or, all_bits_testBit _ hj _ hb, Bool.or_comm]
    · rw [Nat.testBit_and, not_all_bits_testBit _ hj _ hb, Bool.and_comm]
    · rw [Nat.testBit_and, not_has_next_testBit _ hj _ hb, Bool.and_comm]
  · refine ⟨?_, ?_, ?_⟩
    · exact Nat.or_lt_two_pow (n := 8) hpage (Nat.mod_lt _ (by decide))
    · exact Nat.lt_of_le_of_lt Nat.and_le_left hpage
    · exact Nat.lt_of_le_of_lt Nat.and_le_left hpage
  · intro j hne
    rw [allocated_mark_block _ _ _ hl, has_next_mark_block _ _ _ hl,
      allocated_clear_block _ _ _ hl, has_next_clear_block _ _ _ hl,
      allocated_clear_next_block _ _ _ hl, has_next_clear_next_block _ _ _ hl]
    simp [hne]

theorem packed_flags_refinement_witness :
    defaultConfig.Valid ∧ heapAfterFree.WF defaultConfig ∧
    6 < defaultConfig.HEAP_BLOCK_COUNT ∧ 240 < 256 ∧
    flags_of defaultConfig.HEAP_BLOCK_COUNT
        (set_allocation_state defaultConfig heapAfterFree 6 0 false).pages =
      set_allocation_state_flags defaultConfig.HEAP_BLOCK_COUNT
        (flags_of defaultConfig.HEAP_BLOCK_COUNT heapAfterFree.pages) 6 0 false ∧
    heap_block_size_impl defaultConfig heapAfterFree 1384 =
      heap_block_size_flags defaultConfig
        (flags_of defaultConfig.HEAP_BLOCK_COUNT heapAfterFree.pages)
        (block_number_by_addr defaultConfig heapAfterFree 1384) ∧
    heap_available_space_impl defaultConfig heapAfterFree =
      heap_available_space_flags defaultConfig
        (flags_of defaultConfig.HEAP_BLOCK_COUNT heapAfterFree.pages) ∧
    (240 ||| BIT_BLOCK_ALL_BITS (6 % 4)) < 256 :=
  have h := packed_flags_refinement defaultConfig (by decide) heapAfterFree (by decide) 6
    (by decide) 240 (by decide) 6 0 false 1384
  ⟨by decide, by decide, by decide, by decide, h.2.2.2.2.1, h.2.2.2.2.2.1, h.2.2.2.2.2.2,
    h.2.1.1⟩


end DdoHeap
